import Mathlib

/-!
# nanopore-read-align: k-mer codec, move-HMM builder and HMM core

A shallow embedding of `src/kmers.h`, `src/kmers.tcc`, `src/move_hmm.cpp` and of the
class `HMM` declared in `src/hmm.h`.

* `std::string` is a `List Char`.
* Integers. The definitions `encodeKmerAt`, `KmerWindowIterator.constructAt`,
  `KmerWindowIterator.nextAt` (for an `IntType` of `bits` bits), `encodeKmerInt32`,
  `numKmersOfInt64` and `constructTransitionsInt32` with the functions it calls carry
  the integer types of the source, `int` with 32 and `long long` with 64 bits, and
  convert every result by two's complement wraparound (`wrapInt`). The definitions of
  the same names without suffix compute over the exact integers `Int`; they give what
  the code computes as long as no value leaves its type.
* `LOG(FATAL)`, a failed `assert`, a thrown exception and undefined behaviour are
  explicit failures (`Option.none` or `Except.error`).
* A probability, in the code a `Log2Num` built from a `double`, is the exact rational
  it stands for; `Log2Num` itself is modelled over an ordered field with abstract
  `log2` and `exp2`. In `constructTransitionsInt32` a probability is the `double`
  quotient `DoubleQuot`: an exact rational (the rounding of the division is idealised),
  NaN or an infinity.
* Functions that the sources only call or only declare (`kmerToLexicographicPos`,
  `kmerInLexicographicPos`, `allNextKmers`, `kmersUpToDist`, the operations of
  `Log2Num`, and the member functions of `HMM`, whose definitions are in files that are
  not under src/) are modelled from the spec and marked so.
-/

set_option autoImplicit false

namespace Kmers

/-! ## kmers.h and kmers.tcc -/

/-- The constant `kNumBases` of kmers.h. -/
def kNumBases : Int := 4

/-- The table `kBases` of kmers.h. -/
def kBases : List Char := ['A', 'C', 'T', 'G']

/-- The loop of `baseCharToInt`: scan `kBases` from index `i`, return the first index
whose entry equals `base`. Falling off the end is the `LOG(FATAL)` abort. -/
def baseCharToIntLoop : Nat → List Char → Char → Option Int
  | _, [], _ => none
  | i, b :: rest, base =>
    if b = base then some (i : Int) else baseCharToIntLoop (i + 1) rest base

/-- Function `baseCharToInt` of kmers.tcc; `none` is the fatal abort. -/
def baseCharToInt (base : Char) : Option Int :=
  baseCharToIntLoop 0 kBases base

/-- Function `numKmersOf` of kmers.tcc: `res` starts at 1 and is multiplied by
`kNumBases` once for every `i` in `[0, length)`. The accumulator is an exact integer,
which is what the code computes for `length ≤ 31`; `numKmersOfInt64` has the 64-bit
`long long` of the source. -/
def numKmersOf (length : Nat) : Int :=
  (List.range length).foldl (fun res _ => res * kNumBases) 1

/-- Function `encodeKmer` of kmers.tcc: `res` starts at 1 and every character
performs `res = res * kNumBases + baseCharToInt(c)`. `IntType` is taken to be the exact
integers: this is what the code computes as long as no result leaves the range of
`IntType` (`encodeKmerAt_of_fits`); `encodeKmerAt` is the function for an `IntType` of
`bits` bits. -/
def encodeKmer (kmer : List Char) : Option Int :=
  kmer.foldlM (fun res c => (baseCharToInt c).map (fun d => res * kNumBases + d)) (1 : Int)

/-- Conversion of an exact result to the 32-bit `int`: two's complement wraparound
(`wrapInt 32`). -/
def toInt32 (x : Int) : Int := (x + 2 ^ 31) % 2 ^ 32 - 2 ^ 31

/-- Function `encodeKmer<int>`: `encodeKmer` with the 32-bit `int` as `IntType`; the
product and the sum of every step are converted to 32 bits. It is `encodeKmerAt 32`
(`encodeKmerInt32_eq_encodeKmerAt`). -/
def encodeKmerInt32 (kmer : List Char) : Option Int :=
  kmer.foldlM
    (fun res c => (baseCharToInt c).map (fun d => toInt32 (toInt32 (res * kNumBases) + d)))
    (1 : Int)

/-- The `while (num > 0)` loop of `decodeKmer`. On positive `num` the C++ operators
`%` and `/` agree with the ones of `Int`. The first argument bounds the number of
iterations; `decodeKmer` passes a bound that is never reached. -/
def decodeLoop : Nat → Int → List Char → Option (List Char)
  | 0, _, res => some res
  | fuel + 1, num, res =>
    if num > 0 then
      match kBases.get? (num % kNumBases).toNat with
      | some c => decodeLoop fuel (num / kNumBases) (res ++ [c])
      | none => none
    else some res

/-- Function `decodeKmer` of kmers.tcc. `pop_back` on an empty string is undefined
behaviour and modelled by `none`. -/
def decodeKmer (code : Int) : Option (List Char) :=
  match decodeLoop code.toNat code [] with
  | some res => if res = [] then none else some res.dropLast.reverse
  | none => none

/-- Class `KmerWindowIterator` of kmers.h. The three string iterators are offsets
into `str`, the characters between the constructor's `begin_window` and
`string_end`. -/
structure KmerWindowIterator where
  str : List Char
  most_significant_ : Int
  first_one_ : Int
  current_window_code_ : Int
  begin_window_ : Nat
  end_window_ : Nat
  string_end_ : Nat
deriving DecidableEq

/-- The constructor `KmerWindowIterator::KmerWindowIterator` for the range `s`. `none` is the fatal abort
of `encodeKmer` on a character outside the alphabet. `IntType` is taken to be the exact
integers; `KmerWindowIterator.constructAt` is the constructor for an `IntType` of `bits`
bits. -/
def KmerWindowIterator.construct (k : Nat) (s : List Char) :
    Option KmerWindowIterator :=
  if (s.length : Int) - 0 < (k : Int) then
    some { str := s, most_significant_ := 1, first_one_ := 0,
           current_window_code_ := -1,
           begin_window_ := 0, end_window_ := s.length, string_end_ := s.length }
  else
    match encodeKmer ((s.drop 0).take k) with
    | none => none
    | some code =>
      let ms := (List.range (k - 1)).foldl (fun m _ => m * kNumBases) (1 : Int)
      some { str := s, most_significant_ := ms, first_one_ := ms * kNumBases,
             current_window_code_ := code,
             begin_window_ := 0, end_window_ := 0 + k, string_end_ := s.length }

/-- Method `hasNext`. -/
def KmerWindowIterator.hasNext (it : KmerWindowIterator) : Bool :=
  if it.end_window_ = it.string_end_ then false else true

/-- Method `currentKmerCode`. -/
def KmerWindowIterator.currentKmerCode (it : KmerWindowIterator) : Int :=
  it.current_window_code_

/-- Method `currentKmer`. -/
def KmerWindowIterator.currentKmer (it : KmerWindowIterator) : List Char :=
  (it.str.drop it.begin_window_).take (it.end_window_ - it.begin_window_)

/-- Method `next`: the returned value together with the iterator afterwards. `none`
is a fatal abort of `baseCharToInt` or a dereference outside the string. `IntType` is
taken to be the exact integers; `KmerWindowIterator.nextAt` is the method for an
`IntType` of `bits` bits. -/
def KmerWindowIterator.next (it : KmerWindowIterator) : Option (Int × KmerWindowIterator) :=
  if !it.hasNext then some (-1, it)
  else
    match (it.str.get? it.begin_window_).bind baseCharToInt,
          (it.str.get? it.end_window_).bind baseCharToInt with
    | some first_val, some new_val =>
      let c1 := it.current_window_code_ - (it.most_significant_ * first_val + it.first_one_)
      let c2 := c1 * kNumBases
      let c3 := c2 + (new_val + it.first_one_)
      some (c3, { it with current_window_code_ := c3,
                          begin_window_ := it.begin_window_ + 1,
                          end_window_ := it.end_window_ + 1 })
    | _, _ => none

/-- Calls `next` `j` times and returns the iterator afterwards. -/
def KmerWindowIterator.nextN : Nat → KmerWindowIterator → Option KmerWindowIterator
  | 0, it => some it
  | j + 1, it =>
    match it.next with
    | some (_, it1) => KmerWindowIterator.nextN j it1
    | none => none

/-- The client loop `while (it.hasNext()) out.push_back(it.next());` run for at most
`fuel` iterations. -/
def KmerWindowIterator.drainLoop : Nat → KmerWindowIterator → Option (List Int)
  | 0, _ => some []
  | fuel + 1, it =>
    if it.hasNext then
      match it.next with
      | some (c, it1) => (KmerWindowIterator.drainLoop fuel it1).map (fun cs => c :: cs)
      | none => none
    else some []

/-- The sequence an iterator on `s` produces: `currentKmerCode()` right after
construction, then the results of `next()` while `hasNext()` holds. The loop makes
fewer than `s.length + 1` iterations. -/
def slidingCodes (k : Nat) (s : List Char) : Option (List Int) :=
  match KmerWindowIterator.construct k s with
  | none => none
  | some it =>
    (KmerWindowIterator.drainLoop (s.length + 1) it).map
      (fun cs => it.currentKmerCode :: cs)

/-- Conversion of an exact result to the signed integer type of `bits` bits (`int` has
32, `long long` has 64): two's complement wraparound, the value in
`[-2^(bits-1), 2^(bits-1))` that differs from `x` by a multiple of `2^bits`. -/
def wrapInt (bits : Nat) (x : Int) : Int :=
  (x + 2 ^ (bits - 1)) % 2 ^ bits - 2 ^ (bits - 1)

/-- Function `encodeKmer<IntType>` of kmers.tcc for an `IntType` of `bits` bits: `res`
starts at `(IntType)1` and every character performs
`res = res * kNumBases + (IntType)baseCharToInt(c)`, each result converted to
`IntType`. -/
def encodeKmerAt (bits : Nat) (kmer : List Char) : Option Int :=
  kmer.foldlM
    (fun res c => (baseCharToInt c).map
      (fun d => wrapInt bits (wrapInt bits (res * kNumBases) + wrapInt bits d)))
    (wrapInt bits 1)

/-- Function `numKmersOf` of kmers.tcc with its `long long` accumulator: `res` starts at
1 and every step performs `res *= (long long)kNumBases` in 64 bits. -/
def numKmersOfInt64 (length : Nat) : Int :=
  (List.range length).foldl (fun res _ => wrapInt 64 (res * kNumBases)) 1

/-- The constructor `KmerWindowIterator<IntType>::KmerWindowIterator` for the range `s`
and an `IntType` of `bits` bits. -/
def KmerWindowIterator.constructAt (bits k : Nat) (s : List Char) :
    Option KmerWindowIterator :=
  if (s.length : Int) - 0 < (k : Int) then
    some { str := s, most_significant_ := wrapInt bits 1, first_one_ := wrapInt bits 0,
           current_window_code_ := wrapInt bits (-1),
           begin_window_ := 0, end_window_ := s.length, string_end_ := s.length }
  else
    match encodeKmerAt bits ((s.drop 0).take k) with
    | none => none
    | some code =>
      let ms := (List.range (k - 1)).foldl (fun m _ => wrapInt bits (m * kNumBases))
        (wrapInt bits 1)
      some { str := s, most_significant_ := ms, first_one_ := wrapInt bits (ms * kNumBases),
             current_window_code_ := code,
             begin_window_ := 0, end_window_ := 0 + k, string_end_ := s.length }

/-- Method `next` for an `IntType` of `bits` bits: the returned value together with the
iterator afterwards; every result of an operation is converted to `IntType`. -/
def KmerWindowIterator.nextAt (bits : Nat) (it : KmerWindowIterator) :
    Option (Int × KmerWindowIterator) :=
  if !it.hasNext then some (wrapInt bits (-1), it)
  else
    match (it.str.get? it.begin_window_).bind baseCharToInt,
          (it.str.get? it.end_window_).bind baseCharToInt with
    | some first_val, some new_val =>
      let c1 := wrapInt bits (it.current_window_code_ -
        wrapInt bits (wrapInt bits (it.most_significant_ * wrapInt bits first_val)
          + it.first_one_))
      let c2 := wrapInt bits (c1 * kNumBases)
      let c3 := wrapInt bits (c2 + wrapInt bits (wrapInt bits new_val + it.first_one_))
      some (c3, { it with current_window_code_ := c3,
                          begin_window_ := it.begin_window_ + 1,
                          end_window_ := it.end_window_ + 1 })
    | _, _ => none

/-- Calls `next` `j` times, for an `IntType` of `bits` bits, and returns the iterator
afterwards. -/
def KmerWindowIterator.nextNAt (bits : Nat) : Nat → KmerWindowIterator →
    Option KmerWindowIterator
  | 0, it => some it
  | j + 1, it =>
    match it.nextAt bits with
    | some (_, it1) => KmerWindowIterator.nextNAt bits j it1
    | none => none

/-- The client loop `while (it.hasNext()) out.push_back(it.next());` for an `IntType` of
`bits` bits, run for at most `fuel` iterations. -/
def KmerWindowIterator.drainLoopAt (bits : Nat) : Nat → KmerWindowIterator →
    Option (List Int)
  | 0, _ => some []
  | fuel + 1, it =>
    if it.hasNext then
      match it.nextAt bits with
      | some (c, it1) => (KmerWindowIterator.drainLoopAt bits fuel it1).map (fun cs => c :: cs)
      | none => none
    else some []

/-- The sequence an iterator on `s` produces for an `IntType` of `bits` bits:
`currentKmerCode()` right after construction, then the results of `next()` while
`hasNext()` holds. The loop makes fewer than `s.length + 1` iterations. -/
def slidingCodesAt (bits k : Nat) (s : List Char) : Option (List Int) :=
  match KmerWindowIterator.constructAt bits k s with
  | none => none
  | some it =>
    (KmerWindowIterator.drainLoopAt bits (s.length + 1) it).map
      (fun cs => it.currentKmerCode :: cs)

/-! ## Functions of the repository that the sources under src/ only call -/

/-- All k-mers of length `k`, listed in lexicographic order with A < C < T < G. -/
def allKmers : Nat → List (List Char)
  | 0 => [[]]
  | k + 1 => kBases.flatMap (fun c => (allKmers k).map (fun w => c :: w))

/-- Modelled from the spec: `kmerToLexicographicPos`, which the sources under src/ only
call. Spec, data model: "state id 0 is reserved for the silent initial state, so the
state id for a k-mer is `encode(kmer) - 4^k + 1`". -/
def kmerToLexicographicPos (kmer : List Char) : Option Int :=
  (encodeKmer kmer).map (fun code => code - numKmersOf kmer.length + 1)

/-- Modelled from the spec: `kmerInLexicographicPos(id, k)`, the inverse of
`kmerToLexicographicPos` that the sources under src/ only call: the k-mer of length `k`
whose state id is `id`, that is `decode(id - 1 + 4^k)`. -/
def kmerInLexicographicPos (id : Int) (k : Nat) : Option (List Char) :=
  decodeKmer (id - 1 + numKmersOf k)

/-- Modelled from the spec: `allNextKmers(kmer, dist)`, declared in kmers.h without a
definition under src/. For `dist ≤ k` this is the header's
`nextop_dist(x_1 … x_k) = { x_{dist+1} … x_k y | y ∈ Σ^dist }`. For `dist > k` a move of
`dist` bases is `dist` one-base shifts, so only the last `k` characters of `y` remain;
this keeps every result a k-mer, as the row sizes asserted by the test
`ConstructTransitionsSmallTest` (k = 2, move threshold 3, 16 entries) require. -/
def allNextKmers (kmer : List Char) (dist : Nat) : List (List Char) :=
  (allKmers dist).map (fun y => (kmer ++ y).drop dist)

/-- Modelled from the spec: `kmersUpToDist(kmer, dist)`, which the sources under src/
only call: "`allNextKmers(decode(s), d)` for d ∈ [0, move_threshold], unioned and
de-duplicated (always includes `decode(s)` itself for d=0)". The distance 0 is always
taken, also for a negative `dist`. The result is a `std::unordered_set`; this list
holds its elements once each, the order in which the set is iterated is a separate
parameter of `constructTransitions`. -/
def kmersUpToDist (kmer : List Char) (dist : Int) : List (List Char) :=
  ((List.range (dist.toNat + 1)).flatMap (fun d => allNextKmers kmer d)).dedup

/-! ## log2_num.h -/

/-- Modelled from the spec: class `Log2Num` of log2_num.h, of which only the test
log2_num_test.cpp is under src/. Spec, data model: "Represents a value x ≥ 0 as the pair
(is_zero: bool, log2x: real). Invariants: when is_zero, the logarithm field is
unused". The reals are an ordered field `R`. -/
structure Log2Num (R : Type) where
  is_zero : Bool
  log2x : R
deriving DecidableEq

/-- Modelled from the spec: the constructor `Log2Num(r)`: "if r == 0 → zero sentinel; if
r > 0 → log2(r); r < 0 is a precondition violation". `none` is that violation; the
base-2 logarithm is the parameter `log2`. -/
def Log2Num.ofValue {R : Type} [LinearOrderedField R] (log2 : R → R) (r : R) :
    Option (Log2Num R) :=
  if r < 0 then none
  else if r = 0 then some { is_zero := true, log2x := 0 }
  else some { is_zero := false, log2x := log2 r }

/-- Modelled from the spec: `operator*` and, storing the result in the left operand,
`operator*=`: "If either is zero, result is zero. Else logs add." -/
def Log2Num.mul {R : Type} [LinearOrderedField R] (a b : Log2Num R) : Log2Num R :=
  if a.is_zero || b.is_zero then { is_zero := true, log2x := 0 }
  else { is_zero := false, log2x := a.log2x + b.log2x }

/-- Modelled from the spec: `value()`, "converts back to real via exponentiation"; the
power of 2 is the parameter `exp2`, and the zero sentinel has the value 0. -/
def Log2Num.value {R : Type} [LinearOrderedField R] (exp2 : R → R) (a : Log2Num R) : R :=
  if a.is_zero then 0 else exp2 a.log2x

/-! ## move_hmm.cpp -/

/-- The constant `kInitialState`. -/
def kInitialState : Nat := 0

/-- Struct `MoveKmer`: one entry of a read. -/
structure MoveKmer where
  move_ : Int
  kmer_ : List Char
deriving DecidableEq

/-- Struct `Transition` of hmm.h. The probability, a `Log2Num` built from a `double`,
is carried as the exact rational it stands for. -/
structure Transition where
  to_state_ : Int
  prob_ : ℚ
deriving DecidableEq

/-- Class hierarchy `State<double>` of hmm.h: `SilentState` and `GaussianState`. The
parameters, `double`s that are only stored, are rationals. -/
inductive State where
  | SilentState : State
  | GaussianState (mu_ sigma_ : ℚ) : State
deriving DecidableEq

/-- Method `isSilent`. -/
def State.isSilent : State → Bool
  | State.SilentState => true
  | State.GaussianState _ _ => false

/-- Struct `GaussianParamsKmer`. -/
structure GaussianParamsKmer where
  kmer_ : List Char
  mu_ : ℚ
  sigma_ : ℚ
deriving DecidableEq

/-- The ways in which a call ends without returning. -/
inductive Failure where
  /-- The `LOG(FATAL)` of `baseCharToInt`. -/
  | fatalInvalidBase : Failure
  /-- The `std::runtime_error("Found move longer than " + to_string(move_threshold))`. -/
  | moveLongerThan (move_threshold : Int) : Failure
  /-- A failed `assert`. -/
  | assertionFailed : Failure
  /-- An access outside a vector or string (undefined behaviour). -/
  | outOfBounds : Failure
deriving DecidableEq

/-- The map `count_for_transition`: `std::map<std::pair<int, int>, int>` read through
`operator[]`, which yields 0 for a key that was never written. -/
abbrev CountMap := Int × Int → Int

/-- The statement `count_for_transition[key]++` on exact integers;
`CountMap.incrementInt32` has the 32-bit `int` of the source. -/
def CountMap.increment (cnt : CountMap) (key : Int × Int) : CountMap :=
  fun key' => if key' = key then cnt key + 1 else cnt key'

/-- The inner loop of the counting phase, `for (i = 1; i < read.size(); i++)`, on the
entries `read[1 ..]` with the current `prev_state_id`. -/
def countRead (move_threshold : Int) : List MoveKmer → Int → CountMap → Except Failure CountMap
  | [], _, cnt => Except.ok cnt
  | entry :: rest, prev_state_id, cnt =>
    match kmerToLexicographicPos entry.kmer_ with
    | none => Except.error Failure.fatalInvalidBase
    | some next_state =>
      if entry.move_ > move_threshold then
        Except.error (Failure.moveLongerThan move_threshold)
      else
        countRead move_threshold rest next_state (cnt.increment (prev_state_id, next_state))

/-- The counting phase, `while (reads->hasNextRead())`, on the reads that the source
still yields. -/
def countReads (move_threshold : Int) : List (List MoveKmer) → CountMap → Except Failure CountMap
  | [], cnt => Except.ok cnt
  | [] :: _, _ => Except.error Failure.outOfBounds
  | (first :: tail) :: rest, cnt =>
    match kmerToLexicographicPos first.kmer_ with
    | none => Except.error Failure.fatalInvalidBase
    | some prev_state_id =>
      match countRead move_threshold tail prev_state_id cnt with
      | Except.error e => Except.error e
      | Except.ok cnt1 => countReads move_threshold rest cnt1

/-- The loop `for (next_kmer : next_kmers)` that fills `transition_with_counts` and
sums `all_transitions`. The `int`s `count` and `all_transitions` are exact integers;
`collectCountsInt32` has the 32-bit `int`s of the source. -/
def collectCounts (pseudo_count : Int) (cnt : CountMap) (id : Int) :
    List (List Char) → List (Int × Int) → Int → Except Failure (List (Int × Int) × Int)
  | [], transition_with_counts, all_transitions =>
    Except.ok (transition_with_counts, all_transitions)
  | next_kmer :: rest, transition_with_counts, all_transitions =>
    match kmerToLexicographicPos next_kmer with
    | none => Except.error Failure.fatalInvalidBase
    | some next_id =>
      let count := pseudo_count + cnt (id, next_id)
      collectCounts pseudo_count cnt id rest (transition_with_counts ++ [(next_id, count)])
        (all_transitions + count)

/-- The body of the loop `for (id = 1; id < states; id++)`: the row `res[id]`.
`iterate kmer dist` is the sequence in which the range-for visits the unordered set
`kmersUpToDist(kmer, dist)`. The division of an `int` by a `double` is the exact
division of rationals, in which a quotient by 0 is 0; `transitionsFromInt32` has the
`double` quotient of the source, which is NaN or infinite for the divisor 0. -/
def transitionsFrom (iterate : List Char → Int → List (List Char))
    (move_threshold pseudo_count : Int) (k : Nat) (cnt : CountMap) (id : Int) :
    Except Failure (List Transition) :=
  match kmerInLexicographicPos id k with
  | none => Except.error Failure.outOfBounds
  | some kmer =>
    match collectCounts pseudo_count cnt id (iterate kmer move_threshold) [] 0 with
    | Except.error e => Except.error e
    | Except.ok (transition_with_counts, all_transitions) =>
      Except.ok (transition_with_counts.map
        (fun transition => { to_state_ := transition.1,
                             prob_ := (transition.2 : ℚ) / (all_transitions : ℚ) }))

/-- The loop `for (id = 1; id < states; id++)` on the ids that are still to do. -/
def buildRows (iterate : List Char → Int → List (List Char))
    (move_threshold pseudo_count : Int) (k : Nat) (cnt : CountMap) :
    List Int → Except Failure (List (List Transition))
  | [] => Except.ok []
  | id :: rest =>
    match transitionsFrom iterate move_threshold pseudo_count k cnt id with
    | Except.error e => Except.error e
    | Except.ok row =>
      match buildRows iterate move_threshold pseudo_count k cnt rest with
      | Except.error e => Except.error e
      | Except.ok rows => Except.ok (row :: rows)

/-- The ids `1, 2, ..., states - 1` of the loops `for (id = 1; id < states; id++)`. -/
def emittingIds (states : Int) : List Int :=
  (List.range' 1 (states - 1).toNat).map (fun (n : Nat) => (n : Int))

/-- Function `constructTransitions` of move_hmm.cpp. `reads` are the reads the source
yields, in order. The result is the table `res`: row 0 is `res[kInitialState]`. All
integers are exact and a probability is an exact rational: the number of states is
`4^k + 1` for every `k`. `constructTransitionsInt32` has the integer types of the source
(`int states`, `int` counts) and the `double` quotients. -/
def constructTransitions (iterate : List Char → Int → List (List Char))
    (move_threshold pseudo_count : Int) (k : Nat) (reads : List (List MoveKmer)) :
    Except Failure (List (List Transition)) :=
  let states : Int := numKmersOf k + 1
  match countReads move_threshold reads (fun _ => 0) with
  | Except.error e => Except.error e
  | Except.ok count_for_transition =>
    match buildRows iterate move_threshold pseudo_count k count_for_transition
        (emittingIds states) with
    | Except.error e => Except.error e
    | Except.ok rows =>
      let prob : ℚ := 1 / ((states - 1 : Int) : ℚ)
      Except.ok ((emittingIds states).map (fun id => { to_state_ := id, prob_ := prob })
        :: rows)

/-- The loop of `constructEmissions` over `kmer_gaussians`, writing into `res`. -/
def fillEmissions (k : Nat) : List GaussianParamsKmer → List (Option State) →
    Except Failure (List (Option State))
  | [], res => Except.ok res
  | gaussian :: rest, res =>
    if gaussian.kmer_.length ≠ k then Except.error Failure.assertionFailed
    else
      match kmerToLexicographicPos gaussian.kmer_ with
      | none => Except.error Failure.fatalInvalidBase
      | some state =>
        if 0 ≤ state ∧ state.toNat < res.length then
          fillEmissions k rest
            (res.set state.toNat (some (State.GaussianState gaussian.mu_ gaussian.sigma_)))
        else Except.error Failure.outOfBounds

/-- Function `constructEmissions` of move_hmm.cpp. The result is the vector of state
pointers; `none` is a pointer that was never set. `num_kmers` and the state index are
exact integers, which is what the code computes for `k ≤ 15`. -/
def constructEmissions (k : Nat) (kmer_gaussians : List GaussianParamsKmer) :
    Except Failure (List (Option State)) :=
  let num_kmers : Int := numKmersOf k
  if num_kmers ≠ (kmer_gaussians.length : Int) then Except.error Failure.assertionFailed
  else
    fillEmissions k kmer_gaussians
      ((List.replicate (num_kmers + 1).toNat (none : Option State)).set kInitialState
        (some State.SilentState))

/-- The `double` that a division `x / (double)y` of two `int`s yields: the quotient, with
the rounding of the floating-point division idealised, or for `y = 0` the IEEE value
NaN (`0 / 0.0`), `+inf` or `-inf`. -/
inductive DoubleQuot where
  | finite (q : ℚ) : DoubleQuot
  | nan : DoubleQuot
  | inf (negative : Bool) : DoubleQuot
deriving DecidableEq

/-- The expression `x / (double)y` for `int`s `x` and `y`. -/
def divDouble (x y : Int) : DoubleQuot :=
  if y = 0 then (if x = 0 then DoubleQuot.nan else DoubleQuot.inf (decide (x < 0)))
  else DoubleQuot.finite ((x : ℚ) / (y : ℚ))

/-- A `Transition` as `constructTransitions` builds it, `{id, Log2Num(prob)}`: the
destination and the `double` from which the `Log2Num` is constructed. -/
structure TransitionOfDouble where
  to_state_ : Int
  prob_ : DoubleQuot
deriving DecidableEq

/-- The statement `count_for_transition[key]++` on the 32-bit `int` values of the map. -/
def CountMap.incrementInt32 (cnt : CountMap) (key : Int × Int) : CountMap :=
  fun key' => if key' = key then wrapInt 32 (cnt key + 1) else cnt key'

/-- The inner loop of the counting phase, `for (i = 1; i < read.size(); i++)`, with
32-bit counts. -/
def countReadInt32 (move_threshold : Int) :
    List MoveKmer → Int → CountMap → Except Failure CountMap
  | [], _, cnt => Except.ok cnt
  | entry :: rest, prev_state_id, cnt =>
    match kmerToLexicographicPos entry.kmer_ with
    | none => Except.error Failure.fatalInvalidBase
    | some next_state =>
      if entry.move_ > move_threshold then
        Except.error (Failure.moveLongerThan move_threshold)
      else
        countReadInt32 move_threshold rest next_state
          (cnt.incrementInt32 (prev_state_id, next_state))

/-- The counting phase, `while (reads->hasNextRead())`, with 32-bit counts. -/
def countReadsInt32 (move_threshold : Int) :
    List (List MoveKmer) → CountMap → Except Failure CountMap
  | [], cnt => Except.ok cnt
  | [] :: _, _ => Except.error Failure.outOfBounds
  | (first :: tail) :: rest, cnt =>
    match kmerToLexicographicPos first.kmer_ with
    | none => Except.error Failure.fatalInvalidBase
    | some prev_state_id =>
      match countReadInt32 move_threshold tail prev_state_id cnt with
      | Except.error e => Except.error e
      | Except.ok cnt1 => countReadsInt32 move_threshold rest cnt1

/-- The loop `for (next_kmer : next_kmers)` that fills `transition_with_counts` and
sums `all_transitions`, both with the 32-bit `int`. -/
def collectCountsInt32 (pseudo_count : Int) (cnt : CountMap) (id : Int) :
    List (List Char) → List (Int × Int) → Int → Except Failure (List (Int × Int) × Int)
  | [], transition_with_counts, all_transitions =>
    Except.ok (transition_with_counts, all_transitions)
  | next_kmer :: rest, transition_with_counts, all_transitions =>
    match kmerToLexicographicPos next_kmer with
    | none => Except.error Failure.fatalInvalidBase
    | some next_id =>
      let count := wrapInt 32 (pseudo_count + cnt (id, next_id))
      collectCountsInt32 pseudo_count cnt id rest (transition_with_counts ++ [(next_id, count)])
        (wrapInt 32 (all_transitions + count))

/-- The body of the loop `for (id = 1; id < states; id++)` with the 32-bit `int`: the row
`res[id]`, whose probabilities are `transition.second / (double)all_transitions`.
`iterate kmer dist` is the sequence in which the range-for visits the unordered set
`kmersUpToDist(kmer, dist)`. -/
def transitionsFromInt32 (iterate : List Char → Int → List (List Char))
    (move_threshold pseudo_count : Int) (k : Nat) (cnt : CountMap) (id : Int) :
    Except Failure (List TransitionOfDouble) :=
  match kmerInLexicographicPos id k with
  | none => Except.error Failure.outOfBounds
  | some kmer =>
    match collectCountsInt32 pseudo_count cnt id (iterate kmer move_threshold) [] 0 with
    | Except.error e => Except.error e
    | Except.ok (transition_with_counts, all_transitions) =>
      Except.ok (transition_with_counts.map
        (fun transition => { to_state_ := transition.1,
                             prob_ := divDouble transition.2 all_transitions }))

/-- The loop `for (id = 1; id < states; id++)` with the 32-bit `int`, on the ids that are
still to do. -/
def buildRowsInt32 (iterate : List Char → Int → List (List Char))
    (move_threshold pseudo_count : Int) (k : Nat) (cnt : CountMap) :
    List Int → Except Failure (List (List TransitionOfDouble))
  | [] => Except.ok []
  | id :: rest =>
    match transitionsFromInt32 iterate move_threshold pseudo_count k cnt id with
    | Except.error e => Except.error e
    | Except.ok row =>
      match buildRowsInt32 iterate move_threshold pseudo_count k cnt rest with
      | Except.error e => Except.error e
      | Except.ok rows => Except.ok (row :: rows)

/-- Function `constructTransitions` of move_hmm.cpp with the integer types of the
source: `numKmersOf(k) + 1` is computed in the 64-bit `long long` and narrowed to the
32-bit `int states`, the counts and their sum are 32-bit `int`s, and a probability is
the `double` quotient. `reads` are the reads the source yields, in order. The result is
the table `res` of `states` rows: row 0 is `res[kInitialState]`. -/
def constructTransitionsInt32 (iterate : List Char → Int → List (List Char))
    (move_threshold pseudo_count : Int) (k : Nat) (reads : List (List MoveKmer)) :
    Except Failure (List (List TransitionOfDouble)) :=
  let states : Int := wrapInt 32 (wrapInt 64 (numKmersOfInt64 k + 1))
  match countReadsInt32 move_threshold reads (fun _ => 0) with
  | Except.error e => Except.error e
  | Except.ok count_for_transition =>
    match buildRowsInt32 iterate move_threshold pseudo_count k count_for_transition
        (emittingIds states) with
    | Except.error e => Except.error e
    | Except.ok rows =>
      let prob := divDouble 1 (wrapInt 32 (states - 1))
      Except.ok ((emittingIds states).map (fun id => { to_state_ := id, prob_ := prob })
        :: rows)

/-! ## hmm.h -/

/-- The abstract class `State<EmissionType>` of hmm.h as the record of its virtual
methods `isSilent` and `prob`; a probability is the exact rational it stands for. -/
structure StateObj (E : Type) where
  isSilent : Bool
  prob : E → ℚ

/-- Class `SilentState` of hmm.h: `isSilent` returns true and `prob` returns
`Log2Num(1)` for every emission. -/
def silentStateObj (E : Type) : StateObj E :=
  { isSilent := true, prob := fun _ => 1 }

/-- The object of class `SilentState` or `GaussianState` that a `State` value stands
for. `gaussianProb mu sigma x` is the result of `GaussianState(mu, sigma).prob(x)`, a
method that hmm.h declares and that is not defined under src/. -/
def State.toObj (gaussianProb : ℚ → ℚ → ℚ → ℚ) : State → StateObj ℚ
  | State.SilentState => silentStateObj ℚ
  | State.GaussianState mu_ sigma_ => { isSilent := false, prob := gaussianProb mu_ sigma_ }

/-- The fields of class `HMM` of hmm.h. -/
structure HMM where
  initial_state_ : Int
  num_states_ : Int
  transitions_ : List (List Transition)
  inv_transitions_ : List (List Transition)
deriving DecidableEq

/-- The ways in which the HMM operations end without a result. -/
inductive HmmError where
  /-- The failure `InvalidTopology` of the spec. -/
  | InvalidTopology : HmmError
  /-- An access outside a vector (undefined behaviour). -/
  | outOfBounds : HmmError
deriving DecidableEq

/-- The element `v[i]` of a vector for an `int` index; `none` outside the vector. -/
def vectorAt {α : Type} (v : List α) (i : Int) : Option α :=
  if i < 0 then none else v[i.toNat]?

/-- The statement `inv[dest].push_back(x)`; `none` outside the vector. -/
def pushBackAt (inv : List (List Transition)) (dest : Int) (x : Transition) :
    Option (List (List Transition)) :=
  match vectorAt inv dest with
  | none => none
  | some row => some (inv.set dest.toNat (row ++ [x]))

/-- The inner loop of `computeInvTransitions` over the outgoing edges of the state `s`:
the edge `s -> t` with probability `p` is appended to `inv[t]` as `(s, p)`. -/
def invScanRow (s : Int) : List Transition → List (List Transition) →
    Option (List (List Transition))
  | [], inv => some inv
  | tr :: rest, inv =>
    match pushBackAt inv tr.to_state_ { to_state_ := s, prob_ := tr.prob_ } with
    | none => none
    | some inv1 => invScanRow s rest inv1

/-- The outer loop of `computeInvTransitions` over the states `s`, `s + 1`, ... -/
def invScanRows : Nat → List (List Transition) → List (List Transition) →
    Option (List (List Transition))
  | _, [], inv => some inv
  | s, row :: rows, inv =>
    match invScanRow (s : Int) row inv with
    | none => none
    | some inv1 => invScanRows (s + 1) rows inv1

/-- Modelled from the spec: `HMM::computeInvTransitions`, declared in hmm.h without a
definition under src/. Spec: "Build `inv_transitions` by scanning `transitions` once;
the order of entries in `inv_transitions[s]` is the order in which they are discovered
(scanning s = 0..num_states−1, then each of its outgoing edges)"; an entry "carries the
same probabilities, with `to_state` reinterpreted as the source state". `none` is a
destination outside the table. -/
def computeInvTransitions (transitions : List (List Transition)) :
    Option (List (List Transition)) :=
  invScanRows 0 transitions (List.replicate transitions.length [])

/-- Modelled from the spec: the constructor `HMM(initial_state, transitions)`, declared
in hmm.h without a definition under src/: it stores the topology, with `num_states`
"the length of the transitions table", and builds the inverse transitions. -/
def HMM.construct (initial_state : Int) (transitions : List (List Transition)) :
    Except HmmError HMM :=
  match computeInvTransitions transitions with
  | none => Except.error HmmError.outOfBounds
  | some inv =>
    Except.ok { initial_state_ := initial_state, num_states_ := (transitions.length : Int),
                transitions_ := transitions, inv_transitions_ := inv }

/-- The checks 2) and 3) of `isValid` on the outgoing edges of the state `s`. -/
def checkEdges {E : Type} (initial_state : Int) (states : List (StateObj E)) (s : Int) :
    List Transition → Except HmmError Unit
  | [] => Except.ok ()
  | tr :: rest =>
    if tr.to_state_ = initial_state then Except.error HmmError.InvalidTopology
    else
      match vectorAt states tr.to_state_ with
      | none => Except.error HmmError.outOfBounds
      | some st =>
        if st.isSilent && decide (s ≥ tr.to_state_) then Except.error HmmError.InvalidTopology
        else checkEdges initial_state states s rest

/-- The checks 2) and 3) of `isValid` on the rows of the states `s`, `s + 1`, ... -/
def checkRows {E : Type} (initial_state : Int) (states : List (StateObj E)) :
    Nat → List (List Transition) → Except HmmError Unit
  | _, [] => Except.ok ()
  | s, row :: rows =>
    match checkEdges initial_state states (s : Int) row with
    | Except.error e => Except.error e
    | Except.ok _ => checkRows initial_state states (s + 1) rows

/-- Modelled from the spec: `HMM::isValid`, declared in hmm.h without a definition under
src/. Its comment in hmm.h: "1) Initial state has to be silent. 2) No transitions can go
to initial state. 3) Transition to silent state. Outgoing state has to have lower
number."; spec: "If any fails, fail with `InvalidTopology`". -/
def HMM.isValid {E : Type} (hmm : HMM) (states : List (StateObj E)) : Except HmmError Unit :=
  match vectorAt states hmm.initial_state_ with
  | none => Except.error HmmError.outOfBounds
  | some st =>
    if !st.isSilent then Except.error HmmError.InvalidTopology
    else checkRows hmm.initial_state_ states 0 hmm.transitions_

/-- Modelled from the spec: construction of an HMM with its validation, "At
construction: check the three topology invariants. If any fails, fail with
`InvalidTopology`." In hmm.h the constructor takes the topology and the check `isValid`
takes the states; this is the constructor followed by the check on the states. -/
def HMM.constructChecked {E : Type} (initial_state : Int)
    (transitions : List (List Transition)) (states : List (StateObj E)) :
    Except HmmError HMM :=
  match HMM.construct initial_state transitions with
  | Except.error e => Except.error e
  | Except.ok hmm =>
    match hmm.isValid states with
    | Except.error e => Except.error e
    | Except.ok _ => Except.ok hmm

/-- The type `ProbStateId` of hmm.h: a probability and the id of a predecessor state. -/
abbrev ProbStateId := ℚ × Int

/-- The type `ViterbiMatrix` of hmm.h: `prob[steps][state]`. -/
abbrev ViterbiMatrix := List (List ProbStateId)

/-- The constant `kNoState` of hmm.h: "No previous state". -/
def kNoState : Int := -1

/-- The cell `row[t]` of a row that is filled in ascending order of the state ids; a
cell that is not filled yet holds `(LogProb(0), NoState)`. -/
def cellAt (row : List ProbStateId) (t : Int) : ProbStateId :=
  (vectorAt row t).getD (0, kNoState)

/-- The scan of `bestPathTo` over the incoming edges `(t, p)` of a state: the candidate
of an edge is `V[t] * p * emission`; a candidate replaces the best one only if it is
strictly greater, so that a candidate with probability 0 is disregarded and among equal
candidates the first, which has the smallest predecessor id, is kept. -/
def bestPathScan (src : List ProbStateId) (emission : ℚ) :
    List Transition → ProbStateId → ProbStateId
  | [], best => best
  | tr :: rest, best =>
    if (cellAt src tr.to_state_).1 * tr.prob_ * emission > best.1 then
      bestPathScan src emission rest ((cellAt src tr.to_state_).1 * tr.prob_ * emission,
        tr.to_state_)
    else bestPathScan src emission rest best

/-- Modelled from the spec: `HMM::bestPathTo`, declared in hmm.h without a definition
under src/. Spec, Viterbi: for a silent `s`, `V[i][s] = max_t V[i][t] · edge_prob(t→s)`
over the same row; for an emitting `s` and `i ≥ 1`,
`V[i][s] = state_s.prob(obs[i-1]) · max_t V[i−1][t] · edge_prob(t→s)`; for an emitting
`s` and `i = 0` the cell is `(LogProb(0), NoState)`. "Tie-breaking for the argmax: pick
the smallest predecessor state id. Any transition from a (LogProb(0)) source is
disregarded. If no predecessor yields positive probability, the cell is
(LogProb(0), NoState)." -/
def HMM.bestPathTo {E : Type} (hmm : HMM) (state_id : Int) (state : StateObj E)
    (emissions_prefix_len : Nat) (last_emission : Option E) (prob : ViterbiMatrix) :
    ProbStateId :=
  if state.isSilent then
    bestPathScan (prob.getD emissions_prefix_len []) 1
      ((vectorAt hmm.inv_transitions_ state_id).getD []) (0, kNoState)
  else
    match emissions_prefix_len, last_emission with
    | i + 1, some e =>
      bestPathScan (prob.getD i []) (state.prob e)
        ((vectorAt hmm.inv_transitions_ state_id).getD []) (0, kNoState)
    | _, _ => (0, kNoState)

/-- The loop over the states `s`, `s + 1`, ... that fills the row `emissions_prefix_len`
of the matrix, "Evaluation order within a row: ascending state id"; `prob` holds the
rows before it and `cur` the cells of the row filled so far. Spec, initialization:
`V[0][initial_state] = (LogProb(1), NoState)`. -/
def viterbiRowLoop {E : Type} (hmm : HMM) (emissions_prefix_len : Nat)
    (last_emission : Option E) (prob : ViterbiMatrix) :
    Nat → List (StateObj E) → List ProbStateId → List ProbStateId
  | _, [], cur => cur
  | s, state :: rest, cur =>
    viterbiRowLoop hmm emissions_prefix_len last_emission prob (s + 1) rest
      (cur ++ [if emissions_prefix_len = 0 ∧ (s : Int) = hmm.initial_state_ then (1, kNoState)
               else hmm.bestPathTo (s : Int) state emissions_prefix_len last_emission
                      (prob ++ [cur])])

/-- The loop over the observations: one more row of the matrix for each of them. -/
def viterbiRows {E : Type} (hmm : HMM) (states : List (StateObj E)) :
    List E → ViterbiMatrix → ViterbiMatrix
  | [], prob => prob
  | e :: rest, prob =>
    viterbiRows hmm states rest
      (prob ++ [viterbiRowLoop hmm prob.length (some e) prob 0 states []])

/-- Modelled from the spec: `HMM::computeViterbiMatrix`, declared in hmm.h without a
definition under src/: the rows `V[0], ..., V[N]`, row 0 first. -/
def HMM.computeViterbiMatrix {E : Type} (hmm : HMM) (emissions : List E)
    (states : List (StateObj E)) : ViterbiMatrix :=
  viterbiRows hmm states emissions [viterbiRowLoop hmm 0 none [] 0 states []]

/-- The loop of `backtrackMatrix`: `path` starts with the current state; the stored
predecessor is put in front of it until there is none. A step from a silent state stays
in the row, a step from an emitting state goes to the row before. -/
def backtrackLoop {E : Type} (states : List (StateObj E)) (nextState : Nat → Int → Int) :
    Nat → Int → Nat → List Int → List Int
  | 0, _, _, path => path
  | fuel + 1, state, row, path =>
    if nextState row state = kNoState then path
    else
      backtrackLoop states nextState fuel (nextState row state)
        (match vectorAt states state with
         | some st => if st.isSilent then row else row - 1
         | none => row - 1)
        (nextState row state :: path)

/-- Modelled from the spec: `HMM::backtrackMatrix`, declared in hmm.h without a
definition under src/: "backtrack via stored predecessors", the result lists the states
from the first to `last_state`. The loop makes fewer than
`(last_row + 1) * num_states` steps. -/
def HMM.backtrackMatrix {E : Type} (hmm : HMM) (last_state : Int) (last_row : Nat)
    (states : List (StateObj E)) (nextState : Nat → Int → Int) : List Int :=
  backtrackLoop states nextState ((last_row + 1) * hmm.num_states_.toNat) last_state last_row
    [last_state]

/-- The argmax over the states `s`, `s + 1`, ... of the last row; a cell replaces the
best one only if it is strictly greater. -/
def bestLastScan : Nat → List ProbStateId → ProbStateId → ProbStateId
  | _, [], best => best
  | s, cell :: rest, best =>
    if cell.1 > best.1 then bestLastScan (s + 1) rest (cell.1, (s : Int))
    else bestLastScan (s + 1) rest best

/-- Modelled from the spec: `HMM::runViterbiReturnStateIds`, declared in hmm.h without a
definition under src/. Spec: "Final path: argmax over s of `V[N][s]`; backtrack via
stored predecessors. If the best probability is LogProb(0), return an empty path". -/
def HMM.runViterbiReturnStateIds {E : Type} (hmm : HMM) (emission_seq : List E)
    (states : List (StateObj E)) : List Int :=
  let prob := hmm.computeViterbiMatrix emission_seq states
  let best := bestLastScan 0 (prob.getD emission_seq.length []) (0, kNoState)
  if best.1 = 0 then []
  else
    hmm.backtrackMatrix best.2 emission_seq.length states
      (fun row state => (cellAt (prob.getD row []) state).2)

/-! ## Notions of the specification -/

/-- A string over the alphabet {A, C, T, G}. -/
def IsDna (w : List Char) : Prop := ∀ c ∈ w, c ∈ kBases

instance (w : List Char) : Decidable (IsDna w) := by
  unfold IsDna; infer_instance

/-- A k-mer: a string of length `k` over the alphabet. -/
def IsKmer (k : Nat) (w : List Char) : Prop := w.length = k ∧ IsDna w

instance (k : Nat) (w : List Char) : Decidable (IsKmer k w) := by
  unfold IsKmer; infer_instance

/-- Digit values of the spec: A=0, C=1, T=2, G=3. -/
def digitValue (c : Char) : Nat :=
  if c = 'A' then 0 else if c = 'C' then 1 else if c = 'T' then 2
  else if c = 'G' then 3 else 0

/-- The spec's closed form of the encoding of `b₀ … b_{k-1}`:
`4^k + Σ_i b_i * 4^(k-1-i)`. -/
def specEncoding (w : List Char) : Int :=
  (4 : Int) ^ w.length +
    ((List.range w.length).map
      (fun i => (digitValue (w.getD i 'A') : Int) * (4 : Int) ^ (w.length - 1 - i))).sum

/-- Value of a string read as a base-4 numeral, most significant digit first. -/
def kmerVal (w : List Char) : Nat :=
  w.foldl (fun v c => v * 4 + digitValue c) 0

/-- The window of length `k` that starts at offset `i` of `s`: `s[i .. i+k)`. -/
def window (k : Nat) (s : List Char) (i : Nat) : List Char := (s.drop i).take k

/-- Strict lexicographic order on strings with A < C < T < G. -/
def lexLess : List Char → List Char → Bool
  | a :: v, b :: w =>
    decide (digitValue a < digitValue b) || (digitValue a == digitValue b && lexLess v w)
  | [], _ :: _ => true
  | _, [] => false

/-- The k-mers `N(s)` of the spec for the state id `s`. -/
def reachableKmers (k : Nat) (move_threshold : Int) (s : Int) : List (List Char) :=
  match kmerInLexicographicPos s k with
  | some kmer => kmersUpToDist kmer move_threshold
  | none => []

/-- The number of adjacent pairs `(read[i-1], read[i])`, `i ≥ 1`, of one read whose
k-mers have the state ids `s` and `t`. -/
def pairCountRead (read : List MoveKmer) (s t : Int) : Nat :=
  (read.zip read.tail).countP
    (fun p => decide (kmerToLexicographicPos p.1.kmer_ = some s ∧
                      kmerToLexicographicPos p.2.kmer_ = some t))

/-- The count `C(s, t)` of the spec over all reads. -/
def pairCount (reads : List (List MoveKmer)) (s t : Int) : Nat :=
  (reads.map (fun read => pairCountRead read s t)).sum

/-- The smoothed count `pseudo_count + C(s, t)` for the destination k-mer `t`. -/
def smoothedCount (pseudo_count : Int) (reads : List (List MoveKmer)) (s : Int)
    (t : List Char) : Int :=
  pseudo_count + (pairCount reads s ((kmerToLexicographicPos t).getD 0) : Int)

/-- The total `Σ_{t ∈ N(s)} (pseudo_count + C(s, t))` of the spec. -/
def totalCount (k : Nat) (move_threshold pseudo_count : Int) (reads : List (List MoveKmer))
    (s : Int) : Int :=
  ((reachableKmers k move_threshold s).map (smoothedCount pseudo_count reads s)).sum

/-- The reads in which every entry at a position `i ≥ 1` has a move within the
threshold. -/
def MovesWithin (move_threshold : Int) (reads : List (List MoveKmer)) : Prop :=
  ∀ read ∈ reads, ∀ e ∈ read.tail, e.move_ ≤ move_threshold

/-- Some read has an entry at a position `i ≥ 1` whose move exceeds the threshold. -/
def MoveExceeds (move_threshold : Int) (reads : List (List MoveKmer)) : Prop :=
  ∃ read ∈ reads, ∃ i, 1 ≤ i ∧ ∃ e, read[i]? = some e ∧ move_threshold < e.move_

/-- Reads that are non-empty sequences of strings over {A,C,T,G}. -/
def WellFormedReads (reads : List (List MoveKmer)) : Prop :=
  ∀ read ∈ reads, read ≠ [] ∧ ∀ e ∈ read, IsDna e.kmer_

/-- The exact (unbounded) values that the accumulator `res` of `encodeKmer` and the
product `res * kNumBases` take during the loop, started with `res`: for every
character the product and then the new value of `res`. -/
def encodeSteps : List Char → Int → List Int
  | [], _ => []
  | c :: rest, res =>
    match baseCharToInt c with
    | some d => (res * kNumBases) :: (res * kNumBases + d) :: encodeSteps rest (res * kNumBases + d)
    | none => []

/-- A topology with a states array of the same length, an initial state inside it and
every destination id in `[0, num_states)`. -/
def WellFormedTopology {E : Type} (initial_state : Int) (transitions : List (List Transition))
    (states : List (StateObj E)) : Prop :=
  states.length = transitions.length ∧
  0 ≤ initial_state ∧ initial_state < (transitions.length : Int) ∧
  ∀ row ∈ transitions, ∀ tr ∈ row, 0 ≤ tr.to_state_ ∧ tr.to_state_ < (transitions.length : Int)

/-- Topology defect (a): the initial state is not silent. -/
def InitialNotSilent {E : Type} (initial_state : Int) (states : List (StateObj E)) : Prop :=
  ∃ st, vectorAt states initial_state = some st ∧ st.isSilent = false

/-- Topology defect (b): some transition has the initial state as its destination. -/
def TargetsInitial (initial_state : Int) (transitions : List (List Transition)) : Prop :=
  ∃ (s : Nat) (row : List Transition) (tr : Transition),
    transitions[s]? = some row ∧ tr ∈ row ∧ tr.to_state_ = initial_state

/-- Topology defect (c): some transition `s -> t` has `t` silent and `s ≥ t`. -/
def SilentFromHigher {E : Type} (transitions : List (List Transition))
    (states : List (StateObj E)) : Prop :=
  ∃ (s : Nat) (row : List Transition) (tr : Transition) (st : StateObj E),
    transitions[s]? = some row ∧ tr ∈ row ∧
    vectorAt states tr.to_state_ = some st ∧ st.isSilent = true ∧ (s : Int) ≥ tr.to_state_

/-- The edges that arrive at the state `t` from the state `s` with the row `row`, as
entries `(s, p)` in the order of the row. -/
def incomingFrom (t : Int) (s : Int) (row : List Transition) : List Transition :=
  (row.filter (fun tr => decide (tr.to_state_ = t))).map
    (fun tr => { to_state_ := s, prob_ := tr.prob_ })

/-- The edges that arrive at the state `t`, ordered by ascending source state and then
by the position inside the row of the source; the rows are those of the states `s0`,
`s0 + 1`, ... -/
def incomingEdges (t : Int) : Nat → List (List Transition) → List Transition
  | _, [] => []
  | s0, row :: rows => incomingFrom t (s0 : Int) row ++ incomingEdges t (s0 + 1) rows

/-- The paths of an HMM on the observations `emissions`: `PathTo hmm states emissions i s
path q` says that `path` leads from the initial state to the state `s`, that its
emitting states after the initial state emit the first `i` observations in order, and
that `q` is the product of its edge probabilities and of the emission probabilities of
its emitting states. -/
inductive PathTo {E : Type} (hmm : HMM) (states : List (StateObj E)) (emissions : List E) :
    Nat → Int → List Int → ℚ → Prop where
  | initial : PathTo hmm states emissions 0 hmm.initial_state_ [hmm.initial_state_] 1
  | silent (i : Nat) (t s : Int) (path : List Int) (q : ℚ) (row : List Transition)
      (tr : Transition) (st : StateObj E) :
      PathTo hmm states emissions i t path q →
      vectorAt hmm.transitions_ t = some row → tr ∈ row → tr.to_state_ = s →
      vectorAt states s = some st → st.isSilent = true →
      PathTo hmm states emissions i s (path ++ [s]) (q * tr.prob_)
  | emitting (i : Nat) (t s : Int) (path : List Int) (q : ℚ) (row : List Transition)
      (tr : Transition) (st : StateObj E) (e : E) :
      PathTo hmm states emissions i t path q →
      vectorAt hmm.transitions_ t = some row → tr ∈ row → tr.to_state_ = s →
      vectorAt states s = some st → st.isSilent = false → emissions[i]? = some e →
      PathTo hmm states emissions (i + 1) s (path ++ [s]) (q * tr.prob_ * st.prob e)

/-- Probabilities that are not negative: those of the edges and those of the
emissions. -/
def NonnegProbs {E : Type} (transitions : List (List Transition))
    (states : List (StateObj E)) : Prop :=
  (∀ row ∈ transitions, ∀ tr ∈ row, 0 ≤ tr.prob_) ∧ (∀ st ∈ states, ∀ e, 0 ≤ st.prob e)

/-- The k-mers of a read, in order, without the moves. -/
def kmersOf (read : List MoveKmer) : List (List Char) := read.map (fun e => e.kmer_)

/-- The adjacent k-mer pairs `(read[i-1].kmer_, read[i].kmer_)`, `i ≥ 1`, of all reads,
each as often as it occurs. -/
def adjacentPairs (reads : List (List MoveKmer)) : List (List Char × List Char) :=
  reads.flatMap (fun read => (read.zip read.tail).map (fun p => (p.1.kmer_, p.2.kmer_)))

/-- The claim C6 as stated, for one input and the integer types of the source: in the
returned table the probabilities of every row `s` in `[1, 4^k]` are numbers that sum to
exactly 1. -/
def RowsSumToOneInt32 (iterate : List Char → Int → List (List Char))
    (move_threshold pseudo_count : Int) (k : Nat) (reads : List (List MoveKmer)) : Prop :=
  ∀ table,
    constructTransitionsInt32 iterate move_threshold pseudo_count k reads = Except.ok table →
    ∀ s : Int, 1 ≤ s → s ≤ (4 : Int) ^ k →
      ∃ (row : List TransitionOfDouble) (qs : List ℚ), table[s.toNat]? = some row ∧
        row.map (fun tr => tr.prob_) = qs.map DoubleQuot.finite ∧ qs.sum = 1

/-! ## Definitions used in the proofs -/

/-- The iterator state reached after `j` calls of `next` on a string `s`. -/
def windowState (k : Nat) (s : List Char) (j : Nat) : KmerWindowIterator :=
  { str := s, most_significant_ := (4 : Int) ^ (k - 1), first_one_ := (4 : Int) ^ k,
    current_window_code_ := (4 : Int) ^ k + (kmerVal (window k s j) : Int),
    begin_window_ := j, end_window_ := j + k, string_end_ := s.length }

/-- The iterator that the constructor builds on a string shorter than `k`. -/
def shortState (s : List Char) : KmerWindowIterator :=
  { str := s, most_significant_ := 1, first_one_ := 0, current_window_code_ := -1,
    begin_window_ := 0, end_window_ := s.length, string_end_ := s.length }

/-- The iterator states that occur on a string `s` over the alphabet: the exhausted
state of a string shorter than `k`, a window state for `k ≥ 1`, and for `k = 0` an
empty window whose code is 1 or at most -8. -/
def IterReach (k : Nat) (s : List Char) (it : KmerWindowIterator) : Prop :=
  (s.length < k ∧ it = shortState s) ∨
  (1 ≤ k ∧ ∃ m, m + k ≤ s.length ∧ it = windowState k s m) ∨
  (k = 0 ∧ it.str = s ∧ it.most_significant_ = 1 ∧ it.first_one_ = 4 ∧
    it.begin_window_ = it.end_window_ ∧ it.end_window_ ≤ s.length ∧
    it.string_end_ = s.length ∧
    (it.current_window_code_ = 1 ∨ it.current_window_code_ ≤ -8))

/-- The state id of a k-mer, 0 when it has none. -/
def stateIdOf (t : List Char) : Int := (kmerToLexicographicPos t).getD 0

/-- The row `res[kInitialState]`: the ids 1 .. 4^k in ascending order with 1/4^k each. -/
def initialRow (k : Nat) : List Transition :=
  (List.range' 1 (4 ^ k)).map
    (fun (n : Nat) => { to_state_ := (n : Int), prob_ := 1 / ((4 : ℚ) ^ k) })

/-- The writes of `fillEmissions` as one fold. -/
def emissionWrites (gs : List GaussianParamsKmer) (res : List (Option State)) :
    List (Option State) :=
  gs.foldl (fun r g => r.set (kmerVal g.kmer_ + 1)
    (some (State.GaussianState g.mu_ g.sigma_))) res

/-- The read of the test `ConstructTransitionsSmallTest`:
`[(0,AG),(1,GA),(1,AG),(1,GA),(1,AG),(2,TG)]`. -/
def smallRead : List MoveKmer :=
  [⟨0, ['A', 'G']⟩, ⟨1, ['G', 'A']⟩, ⟨1, ['A', 'G']⟩, ⟨1, ['G', 'A']⟩, ⟨1, ['A', 'G']⟩,
   ⟨2, ['T', 'G']⟩]

/-- The topology of the spec scenario S5: 0 (silent) -> 1 (silent) -> 2 -> 3. -/
def chainTransitions : List (List Transition) :=
  [[{ to_state_ := 1, prob_ := 1 }], [{ to_state_ := 2, prob_ := 1 }],
   [{ to_state_ := 3, prob_ := 1 }], []]

/-- An emitting state whose emission probability is 1/2 for every observation. -/
def halfStateObj : StateObj ℚ := { isSilent := false, prob := fun _ => 1 / 2 }

/-- What the proofs use of an HMM that was constructed and validated on `states`. -/
structure ValidatedHmm {E : Type} (hmm : HMM) (states : List (StateObj E)) : Prop where
  len : states.length = hmm.transitions_.length
  num : hmm.num_states_ = (hmm.transitions_.length : Int)
  inv : ∀ s : Nat, s < hmm.transitions_.length →
    hmm.inv_transitions_[s]? = some (incomingEdges (s : Int) 0 hmm.transitions_)
  initial : 0 ≤ hmm.initial_state_ ∧ hmm.initial_state_ < (hmm.transitions_.length : Int)
  dest : ∀ row ∈ hmm.transitions_, ∀ tr ∈ row,
    0 ≤ tr.to_state_ ∧ tr.to_state_ < (hmm.transitions_.length : Int)
  noInitial : ¬ TargetsInitial hmm.initial_state_ hmm.transitions_
  noHigher : ¬ SilentFromHigher hmm.transitions_ states
  nonneg : NonnegProbs hmm.transitions_ states

/-- The states of the spec scenario S5: silent, silent, emitting, emitting. -/
def chainStates : List (StateObj ℚ) :=
  [silentStateObj ℚ, silentStateObj ℚ, halfStateObj, halfStateObj]

/-- The HMM that the constructor builds from `chainTransitions` with initial state 0. -/
def chainHmm : HMM :=
  { initial_state_ := 0, num_states_ := 4, transitions_ := chainTransitions,
    inv_transitions_ := [[], [{ to_state_ := 0, prob_ := 1 }], [{ to_state_ := 1, prob_ := 1 }],
      [{ to_state_ := 2, prob_ := 1 }]] }

/-- Two reads `[(0,AC),(1,CG),(1,GA)]` and `[(0,TT),(1,TA)]` for k = 2. -/
def twoReads : List (List MoveKmer) :=
  [[{ move_ := 0, kmer_ := ['A', 'C'] }, { move_ := 1, kmer_ := ['C', 'G'] },
    { move_ := 1, kmer_ := ['G', 'A'] }],
   [{ move_ := 0, kmer_ := ['T', 'T'] }, { move_ := 1, kmer_ := ['T', 'A'] }]]

/-- The reads of `twoReads` in the other order and with other moves, all of them within
the threshold 2. -/
def twoReadsChanged : List (List MoveKmer) :=
  [[{ move_ := 2, kmer_ := ['T', 'T'] }, { move_ := 2, kmer_ := ['T', 'A'] }],
   [{ move_ := 1, kmer_ := ['A', 'C'] }, { move_ := 0, kmer_ := ['C', 'G'] },
    { move_ := 2, kmer_ := ['G', 'A'] }]]

/-- An iterator whose three `IntType` members are converted to `bits` bits. -/
def KmerWindowIterator.wrapAll (bits : Nat) (it : KmerWindowIterator) : KmerWindowIterator :=
  { it with most_significant_ := wrapInt bits it.most_significant_,
            first_one_ := wrapInt bits it.first_one_,
            current_window_code_ := wrapInt bits it.current_window_code_ }

/-- A count map whose values are converted to the 32-bit `int`. -/
def wrapCounts (cnt : CountMap) : CountMap := fun key => wrapInt 32 (cnt key)

/-- The row `res[kInitialState]` for `k ≤ 15`: the ids 1 .. 4^k in ascending order with
the quotient `1 / 4^k` each. -/
def initialRowOfDouble (k : Nat) : List TransitionOfDouble :=
  (List.range' 1 (4 ^ k)).map
    (fun (n : Nat) => { to_state_ := (n : Int), prob_ := DoubleQuot.finite (1 / ((4 : ℚ) ^ k)) })

/-! ## Auxiliary facts and the claims -/

theorem mem_kBases_iff (c : Char) :
    c ∈ kBases ↔ c = 'A' ∨ c = 'C' ∨ c = 'T' ∨ c = 'G' := by
  simp [kBases]

theorem digitValue_lt (c : Char) : digitValue c < 4 := by
  unfold digitValue
  split_ifs <;> omega

theorem baseCharToInt_of_mem {c : Char} (h : c ∈ kBases) :
    baseCharToInt c = some (digitValue c : Int) := by
  rcases (mem_kBases_iff c).1 h with h | h | h | h <;> subst h <;> decide

theorem kBases_get_digitValue {c : Char} (h : c ∈ kBases) :
    kBases.get? (digitValue c) = some c := by
  rcases (mem_kBases_iff c).1 h with h | h | h | h <;> subst h <;> decide

theorem kmerVal_nil : kmerVal [] = 0 := rfl

theorem foldl_val (w : List Char) (a : Nat) :
    w.foldl (fun v c => v * 4 + digitValue c) a = a * 4 ^ w.length + kmerVal w := by
  induction w generalizing a with
  | nil => simp [kmerVal]
  | cons c t ih =>
    simp only [List.foldl_cons, List.length_cons, kmerVal]
    rw [ih, ih (0 * 4 + digitValue c)]
    ring

theorem kmerVal_cons (c : Char) (t : List Char) :
    kmerVal (c :: t) = digitValue c * 4 ^ t.length + kmerVal t := by
  simp only [kmerVal, List.foldl_cons]
  rw [foldl_val]
  simp [kmerVal]

theorem kmerVal_append_singleton (t : List Char) (c : Char) :
    kmerVal (t ++ [c]) = kmerVal t * 4 + digitValue c := by
  simp [kmerVal, List.foldl_append]

theorem kmerVal_lt (w : List Char) : kmerVal w < 4 ^ w.length := by
  induction w using List.reverseRecOn with
  | nil => simp [kmerVal]
  | append_singleton t c ih =>
    rw [kmerVal_append_singleton]
    have := digitValue_lt c
    simp only [List.length_append, List.length_singleton, pow_succ]
    omega

theorem IsDna.cons {c : Char} {t : List Char} (h : IsDna (c :: t)) :
    c ∈ kBases ∧ IsDna t := by
  constructor
  · exact h c (List.mem_cons_self _ _)
  · intro x hx; exact h x (List.mem_cons_of_mem _ hx)

theorem IsDna.append {u v : List Char} (h : IsDna (u ++ v)) : IsDna u ∧ IsDna v := by
  constructor
  · intro x hx; exact h x (List.mem_append_left _ hx)
  · intro x hx; exact h x (List.mem_append_right _ hx)

theorem encodeFold_eq (w : List Char) (hw : IsDna w) (acc : Int) :
    w.foldlM (fun res c => (baseCharToInt c).map (fun d => res * kNumBases + d)) acc
      = some (acc * (4 : Int) ^ w.length + (kmerVal w : Int)) := by
  induction w generalizing acc with
  | nil => simp [kmerVal]
  | cons c t ih =>
    obtain ⟨hc, ht⟩ := hw.cons
    rw [List.foldlM_cons, baseCharToInt_of_mem hc]
    simp only [Option.map_some', Option.some_bind, Option.bind_eq_bind]
    rw [ih ht, kmerVal_cons]
    simp only [kNumBases, List.length_cons]
    push_cast
    congr 1
    ring

theorem encodeKmer_eq (w : List Char) (hw : IsDna w) :
    encodeKmer w = some ((4 : Int) ^ w.length + (kmerVal w : Int)) := by
  unfold encodeKmer
  rw [encodeFold_eq w hw]
  simp

theorem toInt32_of_range (x : Int) (h0 : 0 ≤ x) (h1 : x < 2 ^ 31) : toInt32 x = x := by
  unfold toInt32
  omega

theorem encodeFoldInt32_eq (w : List Char) (hw : IsDna w) (acc : Nat)
    (hb : acc * 4 ^ w.length + kmerVal w < 2 ^ 31) :
    w.foldlM
        (fun res c => (baseCharToInt c).map (fun d => toInt32 (toInt32 (res * kNumBases) + d)))
        (acc : Int)
      = some ((acc * 4 ^ w.length + kmerVal w : Nat) : Int) := by
  induction w generalizing acc with
  | nil => simp [kmerVal]
  | cons c t ih =>
    obtain ⟨hc, ht⟩ := hw.cons
    rw [kmerVal_cons, List.length_cons, pow_succ] at hb
    have hpos : 0 < 4 ^ t.length := by positivity
    have hd := digitValue_lt c
    have hstep : (acc * 4 + digitValue c) * 4 ^ t.length + kmerVal t
        = acc * (4 ^ t.length * 4) + (digitValue c * 4 ^ t.length + kmerVal t) := by ring
    have hb2 : (acc * 4 + digitValue c) * 4 ^ t.length + kmerVal t < 2 ^ 31 := by
      rw [hstep]; exact hb
    have hsmall : acc * 4 + digitValue c < 2 ^ 31 := by
      have : acc * 4 + digitValue c ≤ (acc * 4 + digitValue c) * 4 ^ t.length :=
        Nat.le_mul_of_pos_right _ hpos
      omega
    rw [List.foldlM_cons, baseCharToInt_of_mem hc]
    simp only [Option.map_some', Option.some_bind, Option.bind_eq_bind]
    have e1 : toInt32 ((acc : Int) * kNumBases) = (acc : Int) * 4 := by
      rw [kNumBases]
      exact toInt32_of_range _ (by omega) (by omega)
    rw [e1, toInt32_of_range ((acc : Int) * 4 + (digitValue c : Int)) (by omega) (by omega)]
    have hcast : ((acc : Int) * 4 + (digitValue c : Int)) = ((acc * 4 + digitValue c : Nat) : Int) := by
      push_cast; rfl
    rw [hcast, ih ht (acc * 4 + digitValue c) hb2, kmerVal_cons, List.length_cons, pow_succ,
      hstep]

theorem encodeKmerInt32_eq (w : List Char) (hw : IsDna w) (hlen : w.length ≤ 15) :
    encodeKmerInt32 w = some ((4 : Int) ^ w.length + (kmerVal w : Int)) := by
  have hv := kmerVal_lt w
  have hp : 4 ^ w.length ≤ 4 ^ 15 := Nat.pow_le_pow_right (by norm_num) hlen
  have h := encodeFoldInt32_eq w hw 1 (by norm_num at hp ⊢; omega)
  unfold encodeKmerInt32
  have h1 : ((1 : Nat) : Int) = 1 := rfl
  rw [h1] at h
  rw [h]
  push_cast
  simp

theorem decodeLoop_code (w : List Char) (hw : IsDna w) :
    ∀ (fuel : Nat) (res : List Char), 4 ^ w.length + kmerVal w ≤ fuel →
      decodeLoop fuel (((4 ^ w.length + kmerVal w : Nat)) : Int) res
        = some (res ++ w.reverse ++ ['C']) := by
  induction w using List.reverseRecOn with
  | nil =>
    intro fuel res hf
    simp only [List.length_nil, pow_zero, kmerVal_nil, add_zero] at hf ⊢
    obtain ⟨f, rfl⟩ : ∃ f, fuel = f + 1 := ⟨fuel - 1, by omega⟩
    cases f <;> simp [decodeLoop, kNumBases, kBases]
  | append_singleton t c ih =>
    intro fuel res hf
    obtain ⟨ht, hc⟩ := hw.append
    have hcm : c ∈ kBases := hc c (List.mem_singleton_self c)
    have hd := digitValue_lt c
    rw [kmerVal_append_singleton] at hf ⊢
    simp only [List.length_append, List.length_singleton, pow_succ] at hf ⊢
    have hpos : 0 < 4 ^ t.length := by positivity
    obtain ⟨f, rfl⟩ : ∃ f, fuel = f + 1 := ⟨fuel - 1, by omega⟩
    have hnum : 4 ^ t.length * 4 + (kmerVal t * 4 + digitValue c)
        = (4 ^ t.length + kmerVal t) * 4 + digitValue c := by ring
    rw [hnum]
    have hmod : (((((4 ^ t.length + kmerVal t) * 4 + digitValue c : Nat)) : Int) % kNumBases).toNat
        = digitValue c := by
      simp only [kNumBases]; omega
    have hdiv : ((((4 ^ t.length + kmerVal t) * 4 + digitValue c : Nat)) : Int) / kNumBases
        = ((4 ^ t.length + kmerVal t : Nat) : Int) := by
      simp only [kNumBases]; omega
    have hgt : ((((4 ^ t.length + kmerVal t) * 4 + digitValue c : Nat)) : Int) > 0 := by
      omega
    rw [decodeLoop, if_pos hgt, hmod, kBases_get_digitValue hcm]
    simp only
    rw [hdiv, ih ht f (res ++ [c]) (by omega)]
    simp

theorem decodeKmer_code (w : List Char) (hw : IsDna w) :
    decodeKmer ((4 : Int) ^ w.length + (kmerVal w : Int)) = some w := by
  have h := decodeLoop_code w hw (4 ^ w.length + kmerVal w) [] le_rfl
  have hc : ((4 : Int) ^ w.length + (kmerVal w : Int))
      = ((4 ^ w.length + kmerVal w : Nat) : Int) := by push_cast; rfl
  rw [hc]
  unfold decodeKmer
  rw [Int.toNat_ofNat, h]
  simp

theorem foldl_mul_kNumBases (n : Nat) (a : Int) :
    (List.range n).foldl (fun m _ => m * kNumBases) a = a * (4 : Int) ^ n := by
  induction n with
  | zero => simp
  | succ n ih =>
    rw [List.range_succ, List.foldl_append, ih]
    simp only [List.foldl_cons, List.foldl_nil, kNumBases, pow_succ]
    ring

theorem numKmersOf_eq (k : Nat) : numKmersOf k = (4 : Int) ^ k := by
  unfold numKmersOf
  rw [foldl_mul_kNumBases]
  simp

theorem specSum_eq (w : List Char) :
    ((List.range w.length).map
      (fun i => (digitValue (w.getD i 'A') : Int) * (4 : Int) ^ (w.length - 1 - i))).sum
      = (kmerVal w : Int) := by
  induction w with
  | nil => simp [kmerVal]
  | cons c t ih =>
    rw [kmerVal_cons, List.length_cons, List.range_succ_eq_map]
    simp only [List.map_cons, List.sum_cons, List.map_map]
    have hfun : ((fun i => (digitValue ((c :: t).getD i 'A') : Int)
          * (4 : Int) ^ (t.length + 1 - 1 - i)) ∘ Nat.succ)
        = (fun i => (digitValue (t.getD i 'A') : Int) * (4 : Int) ^ (t.length - 1 - i)) := by
      funext i
      have he : t.length + 1 - 1 - Nat.succ i = t.length - 1 - i := by omega
      simp only [Function.comp, he]
      rfl
    rw [hfun, ih]
    push_cast
    simp

theorem specEncoding_eq (w : List Char) :
    specEncoding w = (4 : Int) ^ w.length + (kmerVal w : Int) := by
  unfold specEncoding
  rw [specSum_eq]

/-- C2. For every k-mer `b₀ … b_{k-1}` over {A,C,T,G} with digit values A=0, C=1, T=2,
G=3, `encodeKmer` returns exactly `4^k + Σ_i b_i * 4^(k-1-i)` over the unbounded
integers. -/
theorem encodeKmer_closed_form (w : List Char) (hw : IsDna w) :
    encodeKmer w = some (specEncoding w) := by
  rw [specEncoding_eq, encodeKmer_eq w hw]

/-- Witness of C2 at the 4-mer ACGT, whose encoding is 256 + 0 + 16 + 12 + 2. -/
theorem encodeKmer_closed_form_witness :
    IsDna ['A', 'C', 'G', 'T'] ∧ encodeKmer ['A', 'C', 'G', 'T'] = some 286 :=
  ⟨by decide, encodeKmer_closed_form ['A', 'C', 'G', 'T'] (by decide)⟩

theorem IsDna.drop {s : List Char} (h : IsDna s) (n : Nat) : IsDna (s.drop n) :=
  fun c hc => h c (List.mem_of_mem_drop hc)

theorem IsDna.take {s : List Char} (h : IsDna s) (n : Nat) : IsDna (s.take n) :=
  fun c hc => h c (List.mem_of_mem_take hc)

theorem IsDna.window {s : List Char} (h : IsDna s) (k i : Nat) : IsDna (window k s i) :=
  (h.drop i).take k

theorem window_length {k : Nat} {s : List Char} {i : Nat} (h : i + k ≤ s.length) :
    (window k s i).length = k := by
  simp [window]; omega

theorem encodeKmer_window {k : Nat} {s : List Char} (hs : IsDna s) {i : Nat}
    (h : i + k ≤ s.length) :
    encodeKmer (window k s i) = some ((4 : Int) ^ k + (kmerVal (window k s i) : Int)) := by
  rw [encodeKmer_eq _ (hs.window k i), window_length h]

theorem construct_eq {k : Nat} {s : List Char} (hs : IsDna s) (hk1 : 1 ≤ k)
    (hk : k ≤ s.length) :
    KmerWindowIterator.construct k s = some (windowState k s 0) := by
  unfold KmerWindowIterator.construct
  have hlt : ¬ ((s.length : Int) - 0 < (k : Int)) := by omega
  rw [if_neg hlt]
  have he := encodeKmer_window hs (i := 0) (k := k) (by omega)
  simp only [window] at he
  rw [he, foldl_mul_kNumBases]
  obtain ⟨n, rfl⟩ : ∃ n, k = n + 1 := ⟨k - 1, by omega⟩
  simp [windowState, window, kNumBases, pow_succ]

theorem window_head {k : Nat} {s : List Char} {j : Nat} (hk : 1 ≤ k) (hj : j < s.length) :
    window k s j = s[j] :: (s.drop (j + 1)).take (k - 1) := by
  obtain ⟨n, rfl⟩ : ∃ n, k = n + 1 := ⟨k - 1, by omega⟩
  show List.take (n + 1) (List.drop j s) = s[j] :: List.take n (List.drop (j + 1) s)
  rw [List.drop_eq_getElem_cons hj, List.take_succ_cons]

theorem window_last {k : Nat} {s : List Char} {j : Nat} (hk : 1 ≤ k) (hj : j + k < s.length) :
    window k s (j + 1) = (s.drop (j + 1)).take (k - 1) ++ [s[j + k]] := by
  obtain ⟨n, rfl⟩ : ∃ n, k = n + 1 := ⟨k - 1, by omega⟩
  simp only [window]
  rw [List.take_succ]
  have h1 : (List.drop (j + 1) s)[n]? = some s[j + (n + 1)] := by
    rw [List.getElem?_drop]
    have : j + 1 + n = j + (n + 1) := by omega
    rw [this]
    exact List.getElem?_eq_getElem hj
  simp [h1]

theorem next_windowState {k : Nat} {s : List Char} (hs : IsDna s) {j : Nat} (hk : 1 ≤ k)
    (hj : j + k < s.length) :
    (windowState k s j).next
      = some ((4 : Int) ^ k + (kmerVal (window k s (j + 1)) : Int), windowState k s (j + 1)) := by
  have hj0 : j < s.length := by omega
  have hb : s[j] ∈ kBases := hs _ (List.getElem_mem _)
  have he : s[j + k] ∈ kBases := hs _ (List.getElem_mem _)
  have hmid : ((s.drop (j + 1)).take (k - 1)).length = k - 1 := by
    simp; omega
  have hv0 := congrArg kmerVal (window_head (s := s) hk hj0)
  have hv1 := congrArg kmerVal (window_last (s := s) hk hj)
  rw [kmerVal_cons, hmid] at hv0
  rw [kmerVal_append_singleton] at hv1
  have hne : ¬ (j + k = s.length) := by omega
  have hpow : (4 : Int) ^ k = (4 : Int) ^ (k - 1) * 4 := by
    obtain ⟨n, rfl⟩ : ∃ n, k = n + 1 := ⟨k - 1, by omega⟩
    simp [pow_succ]
  unfold KmerWindowIterator.next
  simp only [KmerWindowIterator.hasNext, windowState, hne, if_false, Bool.not_true,
    Bool.false_eq_true, List.get?_eq_getElem?, List.getElem?_eq_getElem hj0,
    List.getElem?_eq_getElem hj, Option.some_bind, baseCharToInt_of_mem hb,
    baseCharToInt_of_mem he, kNumBases]
  have hcode : ((4 : Int) ^ k + (kmerVal (window k s j) : Int)
        - ((4 : Int) ^ (k - 1) * (digitValue s[j] : Int) + (4 : Int) ^ k)) * 4
        + ((digitValue s[j + k] : Int) + (4 : Int) ^ k)
      = (4 : Int) ^ k + (kmerVal (window k s (j + 1)) : Int) := by
    rw [hv0, hv1]
    push_cast
    ring
  rw [hcode]
  simp [Nat.add_right_comm, Nat.add_assoc, Nat.add_comm]

theorem hasNext_windowState (k : Nat) (s : List Char) (j : Nat) (hj : j + k ≤ s.length) :
    (windowState k s j).hasNext = true ↔ j < s.length - k := by
  simp only [KmerWindowIterator.hasNext, windowState]
  split_ifs with h
  · simp; omega
  · simp; omega

theorem nextN_windowState {k : Nat} {s : List Char} (hs : IsDna s) (hk : 1 ≤ k) :
    ∀ (j i : Nat), i + j + k ≤ s.length →
      KmerWindowIterator.nextN j (windowState k s i) = some (windowState k s (i + j)) := by
  intro j
  induction j with
  | zero => intro i _; rfl
  | succ j ih =>
    intro i h
    rw [KmerWindowIterator.nextN, next_windowState hs hk (by omega)]
    simp only
    rw [ih (i + 1) (by omega)]
    congr 2
    omega

theorem drainLoop_windowState {k : Nat} {s : List Char} (hs : IsDna s) (hk : 1 ≤ k) :
    ∀ (fuel i : Nat), i + k ≤ s.length → s.length - k - i ≤ fuel →
      KmerWindowIterator.drainLoop fuel (windowState k s i)
        = some ((List.range' (i + 1) (s.length - k - i)).map
            (fun m => (4 : Int) ^ k + (kmerVal (window k s m) : Int))) := by
  intro fuel
  induction fuel with
  | zero =>
    intro i h1 h2
    have : s.length - k - i = 0 := by omega
    simp [KmerWindowIterator.drainLoop, this]
  | succ fuel ih =>
    intro i h1 h2
    rw [KmerWindowIterator.drainLoop]
    by_cases hn : i < s.length - k
    · rw [if_pos ((hasNext_windowState k s i h1).2 hn), next_windowState hs hk (by omega)]
      simp only
      rw [ih (i + 1) (by omega) (by omega)]
      obtain ⟨n, hn'⟩ : ∃ n, s.length - k - i = n + 1 := ⟨s.length - k - i - 1, by omega⟩
      have hn2 : s.length - k - (i + 1) = n := by omega
      rw [hn', hn2, List.range'_succ]
      simp
    · have hf : ¬ ((windowState k s i).hasNext = true) :=
        fun h => hn ((hasNext_windowState k s i h1).1 h)
      have : s.length - k - i = 0 := by omega
      rw [if_neg hf, this]
      simp

theorem slidingCodes_exact_windows (k : Nat) (s : List Char) (hk : 1 ≤ k)
    (hs : IsDna s) (hlen : k ≤ s.length) :
    (∃ codes, slidingCodes k s = some codes ∧
        codes.map some
          = (List.range (s.length - k + 1)).map (fun i => encodeKmer (window k s i))) ∧
    (∀ j, j ≤ s.length - k →
      ∃ it0 it, KmerWindowIterator.construct k s = some it0 ∧
        KmerWindowIterator.nextN j it0 = some it ∧
        encodeKmer (window k s j) = some it.currentKmerCode ∧
        (it.hasNext = true ↔ j < s.length - k)) := by
  constructor
  · refine ⟨(windowState k s 0).currentKmerCode ::
        (List.range' (0 + 1) (s.length - k - 0)).map
          (fun m => (4 : Int) ^ k + (kmerVal (window k s m) : Int)), ?_, ?_⟩
    · unfold slidingCodes
      rw [construct_eq hs hk hlen]
      simp only
      rw [drainLoop_windowState hs hk (s.length + 1) 0 (by omega) (by omega)]
      rfl
    · simp only [KmerWindowIterator.currentKmerCode, windowState, List.map_cons, List.map_map]
      rw [List.range_eq_range', List.range'_succ, List.map_cons,
        encodeKmer_window hs (by omega)]
      congr 1
      apply List.map_congr_left
      intro m hm
      have hm' := (List.mem_range'_1.1 hm)
      simp only [Function.comp]
      rw [encodeKmer_window hs (by omega)]
  · intro j hj
    refine ⟨windowState k s 0, windowState k s j, construct_eq hs hk hlen, ?_, ?_, ?_⟩
    · have := nextN_windowState hs hk j 0 (by omega)
      simpa using this
    · rw [encodeKmer_window hs (by omega)]
      rfl
    · exact hasNext_windowState k s j (by omega)

theorem kmerToLexicographicPos_eq (w : List Char) (hw : IsDna w) :
    kmerToLexicographicPos w = some ((kmerVal w : Int) + 1) := by
  unfold kmerToLexicographicPos
  rw [encodeKmer_eq w hw, numKmersOf_eq]
  simp

theorem lexLess_iff_kmerVal_lt :
    ∀ (v w : List Char), v.length = w.length → (lexLess v w = true ↔ kmerVal v < kmerVal w)
  | [], [], _ => by simp [lexLess, kmerVal]
  | [], _ :: _, h => by simp at h
  | _ :: _, [], h => by simp at h
  | a :: v, b :: w, h => by
    have hl : v.length = w.length := by simpa using h
    have ih := lexLess_iff_kmerVal_lt v w hl
    have hv := kmerVal_lt v
    have hw := kmerVal_lt w
    rw [hl] at hv
    rw [kmerVal_cons, kmerVal_cons, hl]
    simp only [lexLess, Bool.or_eq_true, decide_eq_true_eq, Bool.and_eq_true, beq_iff_eq, ih]
    generalize 4 ^ w.length = P at hv hw ⊢
    generalize digitValue a = x
    generalize digitValue b = y
    constructor
    · rintro (h1 | ⟨h1, h2⟩)
      · have : (x + 1) * P ≤ y * P := Nat.mul_le_mul_right P h1
        rw [Nat.add_mul, one_mul] at this
        omega
      · subst h1; omega
    · intro h1
      rcases Nat.lt_trichotomy x y with h2 | h2 | h2
      · exact Or.inl h2
      · subst h2; exact Or.inr ⟨rfl, by omega⟩
      · exfalso
        have : (y + 1) * P ≤ x * P := Nat.mul_le_mul_right P h2
        rw [Nat.add_mul, one_mul] at this
        omega

theorem allKmers_succ (k : Nat) :
    allKmers (k + 1)
      = (allKmers k).map (fun w => 'A' :: w) ++ ((allKmers k).map (fun w => 'C' :: w) ++
        ((allKmers k).map (fun w => 'T' :: w) ++ (allKmers k).map (fun w => 'G' :: w))) := by
  simp [allKmers, kBases, List.flatMap_cons]

theorem mem_allKmers_iff : ∀ (k : Nat) (w : List Char), w ∈ allKmers k ↔ IsKmer k w
  | 0, w => by
    simp only [allKmers, List.mem_singleton, IsKmer, List.length_eq_zero]
    constructor
    · rintro rfl; exact ⟨rfl, fun c hc => by simp at hc⟩
    · exact fun h => h.1
  | k + 1, w => by
    rw [allKmers_succ]
    simp only [List.mem_append, List.mem_map, mem_allKmers_iff k]
    constructor
    · rintro (⟨v, ⟨hl, hd⟩, rfl⟩ | ⟨v, ⟨hl, hd⟩, rfl⟩ | ⟨v, ⟨hl, hd⟩, rfl⟩ | ⟨v, ⟨hl, hd⟩, rfl⟩) <;>
      · refine ⟨by simp [hl], ?_⟩
        intro c hc
        rcases List.mem_cons.1 hc with rfl | hc
        · decide
        · exact hd c hc
    · rintro ⟨hl, hd⟩
      match w, hl, hd with
      | c :: t, hl, hd =>
        obtain ⟨hc, ht⟩ := IsDna.cons hd
        have hlt : t.length = k := by simpa using hl
        rcases (mem_kBases_iff c).1 hc with rfl | rfl | rfl | rfl
        · exact Or.inl ⟨t, ⟨hlt, ht⟩, rfl⟩
        · exact Or.inr (Or.inl ⟨t, ⟨hlt, ht⟩, rfl⟩)
        · exact Or.inr (Or.inr (Or.inl ⟨t, ⟨hlt, ht⟩, rfl⟩))
        · exact Or.inr (Or.inr (Or.inr ⟨t, ⟨hlt, ht⟩, rfl⟩))

theorem map_kmerVal_cons (k : Nat) (c : Char) :
    ((allKmers k).map (fun w => c :: w)).map kmerVal
      = ((allKmers k).map kmerVal).map (fun n => digitValue c * 4 ^ k + n) := by
  rw [List.map_map, List.map_map]
  apply List.map_congr_left
  intro w hw
  have hl : w.length = k := ((mem_allKmers_iff k w).1 hw).1
  simp only [Function.comp, kmerVal_cons, hl]

theorem map_add_range (a n : Nat) :
    (List.range n).map (fun m => a + m) = List.range' a n := by
  rw [List.range_eq_range']
  rw [List.map_add_range']
  simp

theorem map_kmerVal_allKmers : ∀ (k : Nat), (allKmers k).map kmerVal = List.range (4 ^ k)
  | 0 => by decide
  | k + 1 => by
    rw [allKmers_succ, pow_succ]
    simp only [List.map_append, map_kmerVal_cons, map_kmerVal_allKmers k, map_add_range]
    have hA : digitValue 'A' = 0 := by decide
    have hC : digitValue 'C' = 1 := by decide
    have hT : digitValue 'T' = 2 := by decide
    have hG : digitValue 'G' = 3 := by decide
    rw [hA, hC, hT, hG, List.range_eq_range']
    generalize 4 ^ k = P
    have h1 := List.range'_append (2 * P) P P 1
    have h2 := List.range'_append (1 * P) P (P + P) 1
    have h3 := List.range'_append (0 * P) P (P + P + P) 1
    have e1 : 2 * P + 1 * P = 3 * P := by ring
    have e2 : 1 * P + 1 * P = 2 * P := by ring
    have e3 : 0 * P + 1 * P = 1 * P := by ring
    rw [e1] at h1
    rw [e2] at h2
    rw [e3] at h3
    rw [h1, h2, h3]
    congr 1
    · ring
    · ring

theorem countP_lt_range (m : Nat) :
    ∀ n, m ≤ n → List.countP (fun x => decide (x < m)) (List.range n) = m := by
  intro n
  induction n with
  | zero => intro h; simp; omega
  | succ n ih =>
    intro h
    rw [List.range_succ, List.countP_append]
    by_cases hm : m ≤ n
    · rw [ih hm]
      have : ¬ n < m := by omega
      simp [List.countP_cons, this]
    · have hmn : m = n + 1 := by omega
      subst hmn
      have h1 : List.countP (fun x => decide (x < n + 1)) (List.range n) = n := by
        rw [List.countP_eq_length.2]
        · simp
        · intro a ha
          simp at ha ⊢
          omega
      rw [h1]
      simp [List.countP_cons]

theorem countP_lexLess_allKmers (k : Nat) (w : List Char) (hw : IsKmer k w) :
    List.countP (fun v => lexLess v w) (allKmers k) = kmerVal w := by
  have h1 : List.countP (fun v => lexLess v w) (allKmers k)
      = List.countP ((fun x => decide (x < kmerVal w)) ∘ kmerVal) (allKmers k) := by
    apply List.countP_congr
    intro v hv
    have hl : v.length = w.length := by
      rw [((mem_allKmers_iff k v).1 hv).1, hw.1]
    simp only [Function.comp, decide_eq_true_eq]
    exact lexLess_iff_kmerVal_lt v w hl
  rw [h1, ← List.countP_map, map_kmerVal_allKmers]
  apply countP_lt_range
  have := kmerVal_lt w
  rw [hw.1] at this
  omega

theorem exists_kmer_of_val (k : Nat) (n : Nat) (hn : n < 4 ^ k) :
    ∃ w, IsKmer k w ∧ kmerVal w = n := by
  have hmem : n ∈ (allKmers k).map kmerVal := by
    rw [map_kmerVal_allKmers]
    exact List.mem_range.2 hn
  obtain ⟨w, hw, hval⟩ := List.mem_map.1 hmem
  exact ⟨w, (mem_allKmers_iff k w).1 hw, hval⟩

theorem kmerVal_injective (k : Nat) (v w : List Char) (hv : IsKmer k v) (hw : IsKmer k w)
    (h : kmerVal v = kmerVal w) : v = w := by
  have h1 := decodeKmer_code v hv.2
  have h2 := decodeKmer_code w hw.2
  rw [hv.1, h] at h1
  rw [hw.1, h1] at h2
  exact Option.some.inj h2

/-- C4. For `k ≥ 1` the state id `encodeKmer(w) - 4^k + 1` is the 1-based rank of `w`
among the k-mers of length `k` in lexicographic order with A < C < T < G: the
lexicographically sorted list of all k-mers has the ids 1, 2, ..., 4^k in this order;
every id lies in `[1, 4^k]` (so never 0) and is one more than the number of k-mers
below `w`; the map is strictly increasing, injective and onto `[1, 4^k]`. -/
theorem kmerToLexicographicPos_is_rank (k : Nat) (hk : 1 ≤ k) :
    (∀ w, w ∈ allKmers k ↔ IsKmer k w) ∧
    List.Pairwise (fun v w => lexLess v w = true) (allKmers k) ∧
    (allKmers k).map kmerToLexicographicPos
      = (List.range' 1 (4 ^ k)).map (fun (n : Nat) => some (n : Int)) ∧
    (∀ w, IsKmer k w → ∃ id, kmerToLexicographicPos w = some id ∧ 1 ≤ id ∧
        id ≤ (4 : Int) ^ k ∧
        id = 1 + (List.countP (fun v => lexLess v w) (allKmers k) : Int)) ∧
    (∀ v w iv iw, IsKmer k v → IsKmer k w → kmerToLexicographicPos v = some iv →
        kmerToLexicographicPos w = some iw → (lexLess v w = true ↔ iv < iw)) ∧
    (∀ v w, IsKmer k v → IsKmer k w →
        kmerToLexicographicPos v = kmerToLexicographicPos w → v = w) ∧
    (∀ n : Int, 1 ≤ n → n ≤ (4 : Int) ^ k →
        ∃ w, IsKmer k w ∧ kmerToLexicographicPos w = some n) := by
  have _ := hk
  refine ⟨mem_allKmers_iff k, ?_, ?_, ?_, ?_, ?_, ?_⟩
  · have hp := List.pairwise_lt_range (4 ^ k)
    rw [← map_kmerVal_allKmers k, List.pairwise_map] at hp
    refine List.Pairwise.imp_of_mem ?_ hp
    intro v w hv hw hlt
    have hl : v.length = w.length := by
      rw [((mem_allKmers_iff k v).1 hv).1, ((mem_allKmers_iff k w).1 hw).1]
    exact (lexLess_iff_kmerVal_lt v w hl).2 hlt
  · have h1 : (allKmers k).map kmerToLexicographicPos
        = ((allKmers k).map kmerVal).map (fun (n : Nat) => some ((n : Int) + 1)) := by
      rw [List.map_map]
      apply List.map_congr_left
      intro w hw
      exact kmerToLexicographicPos_eq w ((mem_allKmers_iff k w).1 hw).2
    rw [h1, map_kmerVal_allKmers, List.range'_eq_map_range, List.map_map]
    apply List.map_congr_left
    intro n _
    simp only [Function.comp]
    push_cast
    rw [add_comm]
  · intro w hw
    have hlt := kmerVal_lt w
    rw [hw.1] at hlt
    refine ⟨_, kmerToLexicographicPos_eq w hw.2, by omega, ?_, ?_⟩
    · have : ((kmerVal w : Int) + 1) ≤ ((4 ^ k : Nat) : Int) := by omega
      simpa using this
    · rw [countP_lexLess_allKmers k w hw]
      ring
  · intro v w iv iw hv hw h1 h2
    rw [kmerToLexicographicPos_eq v hv.2] at h1
    rw [kmerToLexicographicPos_eq w hw.2] at h2
    have e1 := Option.some.inj h1
    have e2 := Option.some.inj h2
    rw [lexLess_iff_kmerVal_lt v w (by rw [hv.1, hw.1])]
    omega
  · intro v w hv hw h
    rw [kmerToLexicographicPos_eq v hv.2, kmerToLexicographicPos_eq w hw.2] at h
    have e := Option.some.inj h
    exact kmerVal_injective k v w hv hw (by omega)
  · intro n h1 h2
    have h3 : (n - 1).toNat < 4 ^ k := by
      have : ((4 : Int) ^ k) = ((4 ^ k : Nat) : Int) := by push_cast; rfl
      rw [this] at h2
      omega
    obtain ⟨w, hw, hval⟩ := exists_kmer_of_val k (n - 1).toNat h3
    refine ⟨w, hw, ?_⟩
    rw [kmerToLexicographicPos_eq w hw.2, hval]
    congr 1
    omega

/-- Witness of C4 at k = 1: A, C, T, G have the state ids 1, 2, 3, 4. -/
theorem kmerToLexicographicPos_is_rank_witness :
    (1 ≤ 1) ∧
    [['A'], ['C'], ['T'], ['G']].map kmerToLexicographicPos = [some 1, some 2, some 3, some 4] :=
  ⟨le_refl 1, (kmerToLexicographicPos_is_rank 1 (le_refl 1)).2.2.1⟩

theorem emittingIds_eq (k : Nat) :
    emittingIds (numKmersOf k + 1) = (List.range' 1 (4 ^ k)).map (fun (n : Nat) => (n : Int)) := by
  unfold emittingIds
  rw [numKmersOf_eq]
  have h : ((4 : Int) ^ k + 1 - 1) = ((4 ^ k : Nat) : Int) := by push_cast; ring
  rw [h, Int.toNat_ofNat]

theorem countRead_ok (mt : Int) :
    ∀ (rest : List MoveKmer) (prev : MoveKmer) (pid : Int) (cnt cnt1 : CountMap),
      kmerToLexicographicPos prev.kmer_ = some pid →
      countRead mt rest pid cnt = Except.ok cnt1 →
      ∀ s t, cnt1 (s, t) = cnt (s, t) + (pairCountRead (prev :: rest) s t : Int)
  | [], prev, pid, cnt, cnt1, _, h => by
    intro s t
    simp only [countRead, Except.ok.injEq] at h
    subst h
    simp [pairCountRead]
  | entry :: rest, prev, pid, cnt, cnt1, hp, h => by
    intro s t
    rw [countRead] at h
    cases hn : kmerToLexicographicPos entry.kmer_ with
    | none => rw [hn] at h; simp at h
    | some nid =>
      rw [hn] at h
      simp only at h
      split_ifs at h with hm
      have ih := countRead_ok mt rest entry nid _ cnt1 hn h s t
      rw [ih]
      simp only [pairCountRead, List.tail_cons, List.zip_cons_cons, List.countP_cons, hp, hn,
        Option.some.injEq, CountMap.increment, Prod.mk.injEq]
      by_cases hst : s = pid ∧ t = nid
      · obtain ⟨rfl, rfl⟩ := hst
        simp
        ring
      · have h2 : ¬ (pid = s ∧ nid = t) := fun hh => hst ⟨hh.1.symm, hh.2.symm⟩
        simp [hst, h2]

theorem countReads_ok (mt : Int) :
    ∀ (reads : List (List MoveKmer)) (cnt cnt1 : CountMap),
      countReads mt reads cnt = Except.ok cnt1 →
      ∀ s t, cnt1 (s, t) = cnt (s, t) + (pairCount reads s t : Int)
  | [], cnt, cnt1, h => by
    intro s t
    simp only [countReads, Except.ok.injEq] at h
    subst h
    simp [pairCount]
  | [] :: _, cnt, cnt1, h => by simp [countReads] at h
  | (first :: tail) :: rest, cnt, cnt1, h => by
    intro s t
    rw [countReads] at h
    cases hf : kmerToLexicographicPos first.kmer_ with
    | none => rw [hf] at h; simp at h
    | some pid =>
      rw [hf] at h
      simp only at h
      cases hc : countRead mt tail pid cnt with
      | error e => rw [hc] at h; simp at h
      | ok cnt2 =>
        rw [hc] at h
        simp only at h
        have h1 := countRead_ok mt tail first pid cnt cnt2 hf hc s t
        have h2 := countReads_ok mt rest cnt2 cnt1 h s t
        rw [h2, h1]
        simp only [pairCount, List.map_cons, List.sum_cons]
        push_cast
        ring

theorem collectCounts_ok (pc : Int) (cnt : CountMap) (id : Int) :
    ∀ (l : List (List Char)) (twc : List (Int × Int)) (all : Int) (res : List (Int × Int) × Int),
      collectCounts pc cnt id l twc all = Except.ok res →
      (∀ t ∈ l, ∃ tid, kmerToLexicographicPos t = some tid) ∧
      res.1 = twc ++ l.map (fun t => (stateIdOf t, pc + cnt (id, stateIdOf t))) ∧
      res.2 = all + (l.map (fun t => pc + cnt (id, stateIdOf t))).sum
  | [], twc, all, res, h => by
    simp only [collectCounts, Except.ok.injEq] at h
    subst h
    simp
  | t :: rest, twc, all, res, h => by
    rw [collectCounts] at h
    cases hn : kmerToLexicographicPos t with
    | none => rw [hn] at h; simp at h
    | some tid =>
      rw [hn] at h
      simp only at h
      obtain ⟨h1, h2, h3⟩ := collectCounts_ok pc cnt id rest _ _ res h
      have hid : stateIdOf t = tid := by simp [stateIdOf, hn]
      refine ⟨?_, ?_, ?_⟩
      · intro x hx
        rcases List.mem_cons.1 hx with rfl | hx
        · exact ⟨tid, hn⟩
        · exact h1 x hx
      · rw [h2]; simp [hid]
      · rw [h3]; simp [hid]; ring

theorem transitionsFrom_ok (iterate : List Char → Int → List (List Char)) (mt pc : Int)
    (k : Nat) (cnt : CountMap) (id : Int) (row : List Transition)
    (h : transitionsFrom iterate mt pc k cnt id = Except.ok row) :
    ∃ kmer, kmerInLexicographicPos id k = some kmer ∧
      (∀ t ∈ iterate kmer mt, ∃ tid, kmerToLexicographicPos t = some tid) ∧
      row = (iterate kmer mt).map (fun t =>
        { to_state_ := stateIdOf t,
          prob_ := ((pc + cnt (id, stateIdOf t) : Int) : ℚ) /
            ((((iterate kmer mt).map (fun t1 => pc + cnt (id, stateIdOf t1))).sum : Int) : ℚ) }) := by
  unfold transitionsFrom at h
  cases hk : kmerInLexicographicPos id k with
  | none => rw [hk] at h; simp at h
  | some kmer =>
    rw [hk] at h
    simp only at h
    cases hc : collectCounts pc cnt id (iterate kmer mt) [] 0 with
    | error e => rw [hc] at h; simp at h
    | ok res =>
      obtain ⟨twc, all⟩ := res
      rw [hc] at h
      simp only [Except.ok.injEq] at h
      obtain ⟨h1, h2, h3⟩ := collectCounts_ok pc cnt id _ _ _ _ hc
      simp only [List.nil_append, zero_add] at h2 h3
      subst h2 h3
      refine ⟨kmer, rfl, h1, ?_⟩
      rw [← h, List.map_map]
      rfl

theorem buildRows_ok (iterate : List Char → Int → List (List Char)) (mt pc : Int)
    (k : Nat) (cnt : CountMap) :
    ∀ (ids : List Int) (rows : List (List Transition)),
      buildRows iterate mt pc k cnt ids = Except.ok rows →
      List.Forall₂ (fun id row => transitionsFrom iterate mt pc k cnt id = Except.ok row)
        ids rows
  | [], rows, h => by
    simp only [buildRows, Except.ok.injEq] at h
    subst h
    exact List.Forall₂.nil
  | id :: rest, rows, h => by
    rw [buildRows] at h
    cases ht : transitionsFrom iterate mt pc k cnt id with
    | error e => rw [ht] at h; simp at h
    | ok row =>
      rw [ht] at h
      simp only at h
      cases hb : buildRows iterate mt pc k cnt rest with
      | error e => rw [hb] at h; simp at h
      | ok rows1 =>
        rw [hb] at h
        simp only [Except.ok.injEq] at h
        subst h
        exact List.Forall₂.cons ht (buildRows_ok iterate mt pc k cnt rest rows1 hb)

theorem forall₂_getElem? {α β : Type} {R : α → β → Prop} :
    ∀ {l1 : List α} {l2 : List β}, List.Forall₂ R l1 l2 →
      ∀ (i : Nat) (a : α), l1[i]? = some a → ∃ b, l2[i]? = some b ∧ R a b
  | _, _, List.Forall₂.nil, i, a, h => by simp at h
  | _, _, List.Forall₂.cons hr hrest, 0, a, h => by
    simp only [List.getElem?_cons_zero, Option.some.injEq] at h
    subst h
    exact ⟨_, by simp, hr⟩
  | _, _, List.Forall₂.cons _ hrest, i + 1, a, h => by
    simp only [List.getElem?_cons_succ] at h
    obtain ⟨b, hb, hr⟩ := forall₂_getElem? hrest i a h
    exact ⟨b, by simpa using hb, hr⟩

theorem constructTransitions_ok (iterate : List Char → Int → List (List Char)) (mt pc : Int)
    (k : Nat) (reads : List (List MoveKmer)) (table : List (List Transition))
    (h : constructTransitions iterate mt pc k reads = Except.ok table) :
    ∃ cnt rows, countReads mt reads (fun _ => 0) = Except.ok cnt ∧
      buildRows iterate mt pc k cnt
        ((List.range' 1 (4 ^ k)).map (fun (n : Nat) => (n : Int))) = Except.ok rows ∧
      table = initialRow k :: rows := by
  unfold constructTransitions at h
  simp only [emittingIds_eq] at h
  cases hc : countReads mt reads (fun _ => 0) with
  | error e => rw [hc] at h; simp at h
  | ok cnt =>
    rw [hc] at h
    simp only at h
    cases hb : buildRows iterate mt pc k cnt
        ((List.range' 1 (4 ^ k)).map (fun (n : Nat) => (n : Int))) with
    | error e => rw [hb] at h; simp at h
    | ok rows =>
      rw [hb] at h
      simp only [Except.ok.injEq] at h
      refine ⟨cnt, rows, rfl, hb, ?_⟩
      rw [← h, initialRow, List.map_map, numKmersOf_eq]
      congr 1
      apply List.map_congr_left
      intro n _
      simp

theorem range'_cast_getElem? (n : Nat) (s : Int) (h1 : 1 ≤ s) (h2 : s ≤ (n : Int)) :
    ((List.range' 1 n).map (fun (m : Nat) => (m : Int)))[s.toNat - 1]? = some s := by
  have hlt : s.toNat - 1 < n := by omega
  rw [List.getElem?_map, List.getElem?_range' 1 1 hlt]
  simp only [Option.map_some', Option.some.injEq]
  omega

theorem kmerInLexicographicPos_of_range (k : Nat) (s : Int) (h1 : 1 ≤ s)
    (h2 : s ≤ (4 : Int) ^ k) :
    ∃ kmer, IsKmer k kmer ∧ kmerInLexicographicPos s k = some kmer ∧
      kmerToLexicographicPos kmer = some s := by
  have h3 : (s - 1).toNat < 4 ^ k := by
    have : ((4 : Int) ^ k) = ((4 ^ k : Nat) : Int) := by push_cast; rfl
    rw [this] at h2
    omega
  obtain ⟨w, hw, hval⟩ := exists_kmer_of_val k (s - 1).toNat h3
  refine ⟨w, hw, ?_, ?_⟩
  · unfold kmerInLexicographicPos
    rw [numKmersOf_eq]
    have hd := decodeKmer_code w hw.2
    rw [hw.1, hval] at hd
    have he : s - 1 + (4 : Int) ^ k = (4 : Int) ^ k + (((s - 1).toNat : Nat) : Int) := by
      rw [Int.toNat_of_nonneg (by omega)]
      ring
    rw [he, hd]
  · rw [kmerToLexicographicPos_eq w hw.2, hval, Int.toNat_of_nonneg (by omega)]
    simp

theorem isKmer_of_mem_allNextKmers {k : Nat} {kmer : List Char} (hk : IsKmer k kmer)
    {d : Nat} {t : List Char} (ht : t ∈ allNextKmers kmer d) : IsKmer k t := by
  unfold allNextKmers at ht
  obtain ⟨y, hy, rfl⟩ := List.mem_map.1 ht
  have hyk := (mem_allKmers_iff d y).1 hy
  constructor
  · simp [hk.1, hyk.1]
  · intro c hc
    have hc1 := List.mem_of_mem_drop hc
    rcases List.mem_append.1 hc1 with h | h
    · exact hk.2 c h
    · exact hyk.2 c h

theorem isKmer_of_mem_kmersUpToDist {k : Nat} {kmer : List Char} (hk : IsKmer k kmer)
    {dist : Int} {t : List Char} (ht : t ∈ kmersUpToDist kmer dist) : IsKmer k t := by
  unfold kmersUpToDist at ht
  rw [List.mem_dedup, List.mem_flatMap] at ht
  obtain ⟨d, _, hd⟩ := ht
  exact isKmer_of_mem_allNextKmers hk hd

theorem self_mem_kmersUpToDist (kmer : List Char) (dist : Int) :
    kmer ∈ kmersUpToDist kmer dist := by
  unfold kmersUpToDist
  rw [List.mem_dedup, List.mem_flatMap]
  refine ⟨0, List.mem_range.2 (by omega), ?_⟩
  simp [allNextKmers, allKmers]

theorem nodup_kmersUpToDist (kmer : List Char) (dist : Int) :
    (kmersUpToDist kmer dist).Nodup := by
  unfold kmersUpToDist
  exact List.nodup_dedup _

theorem stateIdOf_eq {w : List Char} (hw : IsDna w) : stateIdOf w = (kmerVal w : Int) + 1 := by
  simp [stateIdOf, kmerToLexicographicPos_eq w hw]

theorem table_row (iterate : List Char → Int → List (List Char)) (mt pc : Int)
    (k : Nat) (reads : List (List MoveKmer)) (table : List (List Transition))
    (hiter : ∀ kmer dist, (iterate kmer dist).Perm (kmersUpToDist kmer dist))
    (h : constructTransitions iterate mt pc k reads = Except.ok table)
    (s : Int) (h1 : 1 ≤ s) (h2 : s ≤ (4 : Int) ^ k) :
    ∃ kmer, IsKmer k kmer ∧ kmerInLexicographicPos s k = some kmer ∧
      kmerToLexicographicPos kmer = some s ∧
      reachableKmers k mt s = kmersUpToDist kmer mt ∧
      table[s.toNat]? = some ((iterate kmer mt).map (fun t =>
        { to_state_ := stateIdOf t,
          prob_ := ((smoothedCount pc reads s t : Int) : ℚ) /
            ((totalCount k mt pc reads s : Int) : ℚ) })) := by
  obtain ⟨cnt, rows, hc, hb, rfl⟩ := constructTransitions_ok iterate mt pc k reads table h
  obtain ⟨kmer, hk, hin, hpos⟩ := kmerInLexicographicPos_of_range k s h1 h2
  have h2' : s ≤ ((4 ^ k : Nat) : Int) := by push_cast; exact h2
  have hid := range'_cast_getElem? (4 ^ k) s h1 h2'
  obtain ⟨row, hrow, htr⟩ := forall₂_getElem? (buildRows_ok iterate mt pc k cnt _ rows hb) _ _ hid
  obtain ⟨kmer1, hin1, _, hrow1⟩ := transitionsFrom_ok iterate mt pc k cnt s row htr
  rw [hin] at hin1
  have hkk : kmer = kmer1 := Option.some.inj hin1
  subst hkk
  have hreach : reachableKmers k mt s = kmersUpToDist kmer mt := by
    simp [reachableKmers, hin]
  refine ⟨kmer, hk, hin, hpos, hreach, ?_⟩
  have hidx : s.toNat = (s.toNat - 1) + 1 := by omega
  rw [hidx, List.getElem?_cons_succ, hrow, hrow1]
  have hcnt : ∀ t, pc + cnt (s, stateIdOf t) = smoothedCount pc reads s t := by
    intro t
    have := countReads_ok mt reads _ cnt hc s (stateIdOf t)
    rw [this]
    simp [smoothedCount, stateIdOf]
  have hsum : ((iterate kmer mt).map (fun t1 => pc + cnt (s, stateIdOf t1))).sum
      = totalCount k mt pc reads s := by
    unfold totalCount
    rw [hreach]
    have hf : (fun t1 => pc + cnt (s, stateIdOf t1)) = smoothedCount pc reads s := by
      funext t; exact hcnt t
    rw [hf]
    exact ((hiter kmer mt).map _).sum_eq
  rw [hsum]
  congr 1
  apply List.map_congr_left
  intro t _
  rw [hcnt t]

theorem sum_map_div (l : List (List Char)) (f : List Char → Int) (d : ℚ) :
    (l.map (fun t => ((f t : Int) : ℚ) / d)).sum = (((l.map f).sum : Int) : ℚ) / d := by
  induction l with
  | nil => simp
  | cons a l ih =>
    simp only [List.map_cons, List.sum_cons, ih]
    push_cast
    ring

theorem totalCount_pos (k : Nat) (mt pc : Int) (reads : List (List MoveKmer)) (s : Int)
    (h1 : 1 ≤ s) (h2 : s ≤ (4 : Int) ^ k) (hpc : 1 ≤ pc) :
    0 < totalCount k mt pc reads s := by
  obtain ⟨kmer, _, hin, _⟩ := kmerInLexicographicPos_of_range k s h1 h2
  have hreach : reachableKmers k mt s = kmersUpToDist kmer mt := by
    simp [reachableKmers, hin]
  unfold totalCount
  rw [hreach]
  have hmem := self_mem_kmersUpToDist kmer mt
  generalize kmersUpToDist kmer mt = l at hmem
  induction l with
  | nil => simp at hmem
  | cons a l ih =>
    have ha : 1 ≤ smoothedCount pc reads s a := by
      unfold smoothedCount; omega
    have hl : 0 ≤ (l.map (smoothedCount pc reads s)).sum := by
      apply List.sum_nonneg
      intro x hx
      obtain ⟨t, _, rfl⟩ := List.mem_map.1 hx
      unfold smoothedCount; omega
    simp only [List.map_cons, List.sum_cons]
    omega

theorem stateIdOf_injOn {k : Nat} {v w : List Char} (hv : IsKmer k v) (hw : IsKmer k w)
    (h : stateIdOf v = stateIdOf w) : v = w := by
  rw [stateIdOf_eq hv.2, stateIdOf_eq hw.2] at h
  exact kmerVal_injective k v w hv hw (by omega)

theorem exists_index_iff_mem_tail (read : List MoveKmer) (P : MoveKmer → Prop) :
    (∃ i, 1 ≤ i ∧ ∃ e, read[i]? = some e ∧ P e) ↔ ∃ e ∈ read.tail, P e := by
  cases read with
  | nil => simp
  | cons a tl =>
    simp only [List.tail_cons]
    constructor
    · rintro ⟨i, hi, e, he, hp⟩
      obtain ⟨j, rfl⟩ : ∃ j, i = j + 1 := ⟨i - 1, by omega⟩
      rw [List.getElem?_cons_succ] at he
      exact ⟨e, List.mem_iff_getElem?.2 ⟨j, he⟩, hp⟩
    · rintro ⟨e, he, hp⟩
      obtain ⟨j, hj⟩ := List.mem_iff_getElem?.1 he
      exact ⟨j + 1, by omega, e, by rw [List.getElem?_cons_succ]; exact hj, hp⟩

theorem countRead_wf (mt : Int) :
    ∀ (rest : List MoveKmer) (pid : Int) (cnt : CountMap),
      (∀ e ∈ rest, IsDna e.kmer_) →
      ((∃ e ∈ rest, mt < e.move_) ∧
          countRead mt rest pid cnt = Except.error (Failure.moveLongerThan mt)) ∨
      ((∀ e ∈ rest, e.move_ ≤ mt) ∧ ∃ cnt1, countRead mt rest pid cnt = Except.ok cnt1)
  | [], pid, cnt, _ => Or.inr ⟨by simp, cnt, rfl⟩
  | entry :: rest, pid, cnt, hwf => by
    have he : IsDna entry.kmer_ := hwf entry (List.mem_cons_self _ _)
    have hrest : ∀ e ∈ rest, IsDna e.kmer_ := fun e h => hwf e (List.mem_cons_of_mem _ h)
    rw [countRead, kmerToLexicographicPos_eq _ he]
    simp only
    by_cases hm : entry.move_ > mt
    · rw [if_pos hm]
      exact Or.inl ⟨⟨entry, List.mem_cons_self _ _, hm⟩, rfl⟩
    · rw [if_neg hm]
      rcases countRead_wf mt rest ((kmerVal entry.kmer_ : Int) + 1)
          (cnt.increment (pid, (kmerVal entry.kmer_ : Int) + 1)) hrest with
        ⟨⟨e, hmem, hlt⟩, herr⟩ | ⟨hall, hok⟩
      · exact Or.inl ⟨⟨e, List.mem_cons_of_mem _ hmem, hlt⟩, herr⟩
      · refine Or.inr ⟨?_, hok⟩
        intro e hmem
        rcases List.mem_cons.1 hmem with rfl | hmem
        · omega
        · exact hall e hmem

theorem countReads_wf (mt : Int) :
    ∀ (reads : List (List MoveKmer)) (cnt : CountMap), WellFormedReads reads →
      ((∃ read ∈ reads, ∃ e ∈ read.tail, mt < e.move_) ∧
          countReads mt reads cnt = Except.error (Failure.moveLongerThan mt)) ∨
      ((∀ read ∈ reads, ∀ e ∈ read.tail, e.move_ ≤ mt) ∧
          ∃ cnt1, countReads mt reads cnt = Except.ok cnt1)
  | [], cnt, _ => Or.inr ⟨by simp, cnt, rfl⟩
  | [] :: _, _, hwf => absurd rfl (hwf [] (List.mem_cons_self _ _)).1
  | (first :: tail) :: rest, cnt, hwf => by
    have hr := (hwf (first :: tail) (List.mem_cons_self _ _)).2
    have hf : IsDna first.kmer_ := hr first (List.mem_cons_self _ _)
    have ht : ∀ e ∈ tail, IsDna e.kmer_ := fun e h => hr e (List.mem_cons_of_mem _ h)
    have hrest : WellFormedReads rest := fun r h => hwf r (List.mem_cons_of_mem _ h)
    rw [countReads, kmerToLexicographicPos_eq _ hf]
    simp only
    rcases countRead_wf mt tail ((kmerVal first.kmer_ : Int) + 1) cnt ht with
      ⟨⟨e, hmem, hlt⟩, herr⟩ | ⟨hall, cnt1, hok⟩
    · rw [herr]
      exact Or.inl ⟨⟨first :: tail, List.mem_cons_self _ _, e, hmem, hlt⟩, rfl⟩
    · rw [hok]
      simp only
      rcases countReads_wf mt rest cnt1 hrest with
        ⟨⟨r, hr1, e, hmem, hlt⟩, herr⟩ | ⟨hall1, hok1⟩
      · exact Or.inl ⟨⟨r, List.mem_cons_of_mem _ hr1, e, hmem, hlt⟩, herr⟩
      · refine Or.inr ⟨?_, hok1⟩
        intro r hr1 e hmem
        rcases List.mem_cons.1 hr1 with rfl | hr1
        · exact hall e hmem
        · exact hall1 r hr1 e hmem

theorem collectCounts_total (pc : Int) (cnt : CountMap) (id : Int) :
    ∀ (l : List (List Char)) (twc : List (Int × Int)) (all : Int),
      (∀ t ∈ l, IsDna t) → ∃ res, collectCounts pc cnt id l twc all = Except.ok res
  | [], twc, all, _ => ⟨_, rfl⟩
  | t :: rest, twc, all, h => by
    rw [collectCounts, kmerToLexicographicPos_eq t (h t (List.mem_cons_self _ _))]
    exact collectCounts_total pc cnt id rest _ _ (fun x hx => h x (List.mem_cons_of_mem _ hx))

theorem transitionsFrom_total (iterate : List Char → Int → List (List Char)) (mt pc : Int)
    (k : Nat) (cnt : CountMap)
    (hiter : ∀ kmer dist, (iterate kmer dist).Perm (kmersUpToDist kmer dist))
    (id : Int) (h1 : 1 ≤ id) (h2 : id ≤ (4 : Int) ^ k) :
    ∃ row, transitionsFrom iterate mt pc k cnt id = Except.ok row := by
  obtain ⟨kmer, hk, hin, _⟩ := kmerInLexicographicPos_of_range k id h1 h2
  obtain ⟨res, hres⟩ := collectCounts_total pc cnt id (iterate kmer mt) [] 0
    (fun t ht => (isKmer_of_mem_kmersUpToDist hk ((hiter kmer mt).mem_iff.1 ht)).2)
  unfold transitionsFrom
  rw [hin]
  simp only
  rw [hres]
  exact ⟨_, rfl⟩

theorem buildRows_total (iterate : List Char → Int → List (List Char)) (mt pc : Int)
    (k : Nat) (cnt : CountMap)
    (hiter : ∀ kmer dist, (iterate kmer dist).Perm (kmersUpToDist kmer dist)) :
    ∀ (ids : List Int), (∀ id ∈ ids, 1 ≤ id ∧ id ≤ (4 : Int) ^ k) →
      ∃ rows, buildRows iterate mt pc k cnt ids = Except.ok rows
  | [], _ => ⟨_, rfl⟩
  | id :: rest, h => by
    obtain ⟨h1, h2⟩ := h id (List.mem_cons_self _ _)
    obtain ⟨row, hrow⟩ := transitionsFrom_total iterate mt pc k cnt hiter id h1 h2
    obtain ⟨rows, hrows⟩ := buildRows_total iterate mt pc k cnt hiter rest
      (fun x hx => h x (List.mem_cons_of_mem _ hx))
    rw [buildRows, hrow]
    simp only
    rw [hrows]
    exact ⟨_, rfl⟩

theorem emittingIds_range (k : Nat) :
    ∀ id ∈ emittingIds (numKmersOf k + 1), 1 ≤ id ∧ id ≤ (4 : Int) ^ k := by
  intro id hid
  rw [emittingIds_eq] at hid
  obtain ⟨n, hn, rfl⟩ := List.mem_map.1 hid
  have := List.mem_range'_1.1 hn
  constructor
  · omega
  · have h : ((n : Int)) ≤ ((4 ^ k : Nat) : Int) := by omega
    simpa using h

/-- C9. For reads that are non-empty sequences of well-formed k-mers,
`constructTransitions` fails with the error "Found move longer than
<move_threshold>" if and only if some read has an entry at a position `i ≥ 1` whose
move is greater than the threshold; otherwise it returns a table. The move of the first
entry of a read is never inspected. -/
theorem constructTransitions_fails_iff (iterate : List Char → Int → List (List Char))
    (move_threshold pseudo_count : Int) (k : Nat) (reads : List (List MoveKmer))
    (hiter : ∀ kmer dist, (iterate kmer dist).Perm (kmersUpToDist kmer dist))
    (hwf : WellFormedReads reads) :
    (constructTransitions iterate move_threshold pseudo_count k reads
        = Except.error (Failure.moveLongerThan move_threshold)
      ↔ MoveExceeds move_threshold reads) ∧
    (¬ MoveExceeds move_threshold reads →
      ∃ table, constructTransitions iterate move_threshold pseudo_count k reads
        = Except.ok table) := by
  have hex : MoveExceeds move_threshold reads
      ↔ ∃ read ∈ reads, ∃ e ∈ read.tail, move_threshold < e.move_ := by
    unfold MoveExceeds
    constructor
    · rintro ⟨r, hr, hi⟩
      exact ⟨r, hr, (exists_index_iff_mem_tail r _).1 hi⟩
    · rintro ⟨r, hr, he⟩
      exact ⟨r, hr, (exists_index_iff_mem_tail r _).2 he⟩
  rcases countReads_wf move_threshold reads (fun _ => 0) hwf with ⟨hexc, herr⟩ | ⟨hall, cnt, hok⟩
  · have hfail : constructTransitions iterate move_threshold pseudo_count k reads
        = Except.error (Failure.moveLongerThan move_threshold) := by
      unfold constructTransitions
      simp only [herr]
    exact ⟨⟨fun _ => hex.2 hexc, fun _ => hfail⟩, fun hno => absurd (hex.2 hexc) hno⟩
  · obtain ⟨rows, hrows⟩ := buildRows_total iterate move_threshold pseudo_count k cnt hiter
      (emittingIds (numKmersOf k + 1)) (emittingIds_range k)
    have hsucc : ∃ table, constructTransitions iterate move_threshold pseudo_count k reads
        = Except.ok table := by
      unfold constructTransitions
      simp only [hok, hrows]
      exact ⟨_, rfl⟩
    have hno : ¬ MoveExceeds move_threshold reads := by
      rw [hex]
      rintro ⟨r, hr, e, he, hlt⟩
      have := hall r hr e he
      omega
    refine ⟨⟨fun hfail => ?_, fun h => absurd h hno⟩, fun _ => hsucc⟩
    obtain ⟨table, ht⟩ := hsucc
    rw [ht] at hfail
    exact absurd hfail (by simp)

/-- Witness of C9: the read `[(0,ACG),(2,GTG)]` with threshold 1 (k = 3, pseudo count 1)
fails with the move error; the same read with a first move of 9 and a second move of 1
does not. -/
theorem constructTransitions_fails_iff_witness :
    constructTransitions kmersUpToDist 1 1 3
        [[⟨0, ['A', 'C', 'G']⟩, ⟨2, ['G', 'T', 'G']⟩]]
      = Except.error (Failure.moveLongerThan 1) ∧
    ∃ table, constructTransitions kmersUpToDist 1 1 3
        [[⟨9, ['A', 'C', 'G']⟩, ⟨1, ['G', 'T', 'G']⟩]] = Except.ok table :=
  ⟨(constructTransitions_fails_iff kmersUpToDist 1 1 3
        [[⟨0, ['A', 'C', 'G']⟩, ⟨2, ['G', 'T', 'G']⟩]]
        (fun _ _ => List.Perm.refl _) (by unfold WellFormedReads; decide)).1.2
      ⟨_, List.mem_singleton_self _, 1, le_refl 1, ⟨2, ['G', 'T', 'G']⟩, rfl, by decide⟩,
   (constructTransitions_fails_iff kmersUpToDist 1 1 3
        [[⟨9, ['A', 'C', 'G']⟩, ⟨1, ['G', 'T', 'G']⟩]]
        (fun _ _ => List.Perm.refl _) (by unfold WellFormedReads; decide)).2
      (by
        rintro ⟨r, hr, i, hi, e, he, hlt⟩
        rw [List.mem_singleton] at hr
        subst hr
        obtain ⟨j, rfl⟩ : ∃ j, i = j + 1 := ⟨i - 1, by omega⟩
        cases j with
        | zero =>
          simp only [zero_add, List.getElem?_cons_succ, List.getElem?_cons_zero,
            Option.some.injEq] at he
          subst he
          exact absurd hlt (by decide)
        | succ j => simp at he)⟩

theorem emissionWrites_length (gs : List GaussianParamsKmer) :
    ∀ res, (emissionWrites gs res).length = res.length := by
  induction gs with
  | nil => intro res; rfl
  | cons g gs ih =>
    intro res
    simp only [emissionWrites, List.foldl_cons] at ih ⊢
    rw [ih]
    simp

theorem fillEmissions_eq (k : Nat) :
    ∀ (gs : List GaussianParamsKmer) (res : List (Option State)),
      (∀ g ∈ gs, IsKmer k g.kmer_) → res.length = 4 ^ k + 1 →
      fillEmissions k gs res = Except.ok (emissionWrites gs res)
  | [], res, _, _ => rfl
  | g :: gs, res, hk, hlen => by
    have hg := hk g (List.mem_cons_self _ _)
    have hlt := kmerVal_lt g.kmer_
    rw [hg.1] at hlt
    rw [fillEmissions, if_neg (by simp [hg.1]), kmerToLexicographicPos_eq _ hg.2]
    simp only
    have htn : ((kmerVal g.kmer_ : Int) + 1).toNat = kmerVal g.kmer_ + 1 := by omega
    rw [if_pos ⟨by omega, by rw [htn, hlen]; omega⟩, htn]
    rw [fillEmissions_eq k gs _ (fun x hx => hk x (List.mem_cons_of_mem _ hx))
      (by simp [hlen])]
    rfl

theorem emissionWrites_get_other (i : Nat) :
    ∀ (gs : List GaussianParamsKmer) (res : List (Option State)),
      (∀ g ∈ gs, kmerVal g.kmer_ + 1 ≠ i) → (emissionWrites gs res)[i]? = res[i]?
  | [], _, _ => rfl
  | g :: gs, res, h => by
    have hg := h g (List.mem_cons_self _ _)
    simp only [emissionWrites, List.foldl_cons]
    have ih := emissionWrites_get_other i gs
      (res.set (kmerVal g.kmer_ + 1) (some (State.GaussianState g.mu_ g.sigma_)))
      (fun x hx => h x (List.mem_cons_of_mem _ hx))
    simp only [emissionWrites] at ih
    rw [ih, List.getElem?_set_ne hg]

theorem emissionWrites_get_self :
    ∀ (gs : List GaussianParamsKmer) (res : List (Option State)) (g : GaussianParamsKmer),
      g ∈ gs → (gs.map (fun x => kmerVal x.kmer_)).Nodup → kmerVal g.kmer_ + 1 < res.length →
      (emissionWrites gs res)[kmerVal g.kmer_ + 1]?
        = some (some (State.GaussianState g.mu_ g.sigma_))
  | [], _, _, h, _, _ => by simp at h
  | g0 :: gs, res, g, h, hnd, hlt => by
    rw [List.map_cons, List.nodup_cons] at hnd
    rcases List.mem_cons.1 h with rfl | hmem
    · have hother : ∀ x ∈ gs, kmerVal x.kmer_ + 1 ≠ kmerVal g.kmer_ + 1 := by
        intro x hx heq
        exact hnd.1 (List.mem_map.2 ⟨x, hx, by omega⟩)
      have := emissionWrites_get_other (kmerVal g.kmer_ + 1) gs
        (res.set (kmerVal g.kmer_ + 1) (some (State.GaussianState g.mu_ g.sigma_))) hother
      simp only [emissionWrites, List.foldl_cons] at this ⊢
      rw [this, List.getElem?_set_self hlt]
    · have := emissionWrites_get_self gs
        (res.set (kmerVal g0.kmer_ + 1) (some (State.GaussianState g0.mu_ g0.sigma_))) g hmem
        hnd.2 (by simpa using hlt)
      simp only [emissionWrites, List.foldl_cons] at this ⊢
      exact this

/-- C10. For every `k` and every list of records (kmer, mu, sigma) that covers every
k-mer of length `k` exactly once, `constructEmissions` returns an array of length
`4^k + 1` whose entry 0 is a silent state, whose entry at the state id of each record's
k-mer is `Gaussian(mu, sigma)` of that record, and in which no entry is left unset. -/
theorem constructEmissions_spec (k : Nat) (kmer_gaussians : List GaussianParamsKmer)
    (hcover : (kmer_gaussians.map (fun g => g.kmer_)).Perm (allKmers k)) :
    ∃ res, constructEmissions k kmer_gaussians = Except.ok res ∧
      res.length = 4 ^ k + 1 ∧
      res[0]? = some (some State.SilentState) ∧
      (∀ g ∈ kmer_gaussians, ∃ id, kmerToLexicographicPos g.kmer_ = some id ∧
        res[id.toNat]? = some (some (State.GaussianState g.mu_ g.sigma_))) ∧
      (∀ i, i < res.length → ∃ st, res[i]? = some (some st)) := by
  have hkm : ∀ g ∈ kmer_gaussians, IsKmer k g.kmer_ := fun g hg =>
    (mem_allKmers_iff k _).1 (hcover.mem_iff.1 (List.mem_map.2 ⟨g, hg, rfl⟩))
  have hlenA : (allKmers k).length = 4 ^ k := by
    have := congrArg List.length (map_kmerVal_allKmers k)
    simpa using this
  have hlen : kmer_gaussians.length = 4 ^ k := by
    have := hcover.length_eq
    rw [List.length_map, hlenA] at this
    exact this
  have hnd : (kmer_gaussians.map (fun x => kmerVal x.kmer_)).Nodup := by
    have h1 : ((kmer_gaussians.map (fun g => g.kmer_)).map kmerVal).Perm (List.range (4 ^ k)) := by
      rw [← map_kmerVal_allKmers k]
      exact hcover.map kmerVal
    rw [List.map_map] at h1
    exact h1.nodup_iff.2 (List.nodup_range _)
  have hn : ((numKmersOf k + 1).toNat) = 4 ^ k + 1 := by
    rw [numKmersOf_eq]
    have h : ((4 : Int) ^ k + 1) = ((4 ^ k + 1 : Nat) : Int) := by push_cast; ring
    rw [h, Int.toNat_ofNat]
  have hinit : ((List.replicate (numKmersOf k + 1).toNat (none : Option State)).set
      kInitialState (some State.SilentState)).length = 4 ^ k + 1 := by
    simp [hn]
  have hrun : constructEmissions k kmer_gaussians = Except.ok (emissionWrites kmer_gaussians
      ((List.replicate (numKmersOf k + 1).toNat (none : Option State)).set
        kInitialState (some State.SilentState))) := by
    unfold constructEmissions
    have hnk : ¬ (numKmersOf k ≠ (kmer_gaussians.length : Int)) := by
      rw [numKmersOf_eq, hlen]
      push_cast
      simp
    simp only [hnk, if_false]
    exact fillEmissions_eq k _ _ hkm hinit
  have hzero : (emissionWrites kmer_gaussians
      ((List.replicate (numKmersOf k + 1).toNat (none : Option State)).set
        kInitialState (some State.SilentState)))[0]? = some (some State.SilentState) := by
    rw [emissionWrites_get_other 0 _ _ (fun g _ => by omega)]
    rw [kInitialState, List.getElem?_set_self (by rw [List.length_replicate, hn]; omega)]
  have hself : ∀ g ∈ kmer_gaussians, (emissionWrites kmer_gaussians
      ((List.replicate (numKmersOf k + 1).toNat (none : Option State)).set
        kInitialState (some State.SilentState)))[kmerVal g.kmer_ + 1]?
      = some (some (State.GaussianState g.mu_ g.sigma_)) := by
    intro g hg
    apply emissionWrites_get_self _ _ g hg hnd
    rw [hinit]
    have := kmerVal_lt g.kmer_
    rw [(hkm g hg).1] at this
    omega
  refine ⟨_, hrun, ?_, hzero, ?_, ?_⟩
  · rw [emissionWrites_length, hinit]
  · intro g hg
    refine ⟨_, kmerToLexicographicPos_eq _ (hkm g hg).2, ?_⟩
    have htn : ((kmerVal g.kmer_ : Int) + 1).toNat = kmerVal g.kmer_ + 1 := by omega
    rw [htn]
    exact hself g hg
  · intro i hi
    rw [emissionWrites_length, hinit] at hi
    cases i with
    | zero => exact ⟨_, hzero⟩
    | succ n =>
      obtain ⟨w, hw, hval⟩ := exists_kmer_of_val k n (by omega)
      have hwm : w ∈ kmer_gaussians.map (fun g => g.kmer_) :=
        hcover.mem_iff.2 ((mem_allKmers_iff k w).2 hw)
      obtain ⟨g, hg, hgw⟩ := List.mem_map.1 hwm
      have := hself g hg
      rw [hgw, hval] at this
      exact ⟨_, this⟩

/-- Witness of C10: the input of the test `ConstructEmissionsTest` with k = 1. -/
theorem constructEmissions_spec_witness :
    constructEmissions 1
        [⟨['G'], 1, 1 / 10⟩, ⟨['A'], 0, 1 / 2⟩, ⟨['T'], 1 / 2, 1 / 5⟩, ⟨['C'], 1 / 2, 1 / 10⟩]
      = Except.ok [some State.SilentState, some (State.GaussianState 0 (1 / 2)),
          some (State.GaussianState (1 / 2) (1 / 10)), some (State.GaussianState (1 / 2) (1 / 5)),
          some (State.GaussianState 1 (1 / 10))] ∧
    ∃ res, constructEmissions 1
        [⟨['G'], 1, 1 / 10⟩, ⟨['A'], 0, 1 / 2⟩, ⟨['T'], 1 / 2, 1 / 5⟩, ⟨['C'], 1 / 2, 1 / 10⟩]
      = Except.ok res ∧ res.length = 4 ^ 1 + 1 ∧ res[0]? = some (some State.SilentState) :=
  ⟨rfl,
   match constructEmissions_spec 1
      [⟨['G'], 1, 1 / 10⟩, ⟨['A'], 0, 1 / 2⟩, ⟨['T'], 1 / 2, 1 / 5⟩, ⟨['C'], 1 / 2, 1 / 10⟩]
      (by decide) with
   | ⟨res, h1, h2, h3, _⟩ => ⟨res, h1, h2, h3⟩⟩

/-- C11. `baseCharToInt(c)` succeeds exactly for the characters A, C, T, G, with the
results 0, 1, 2, 3, which are the indices of `c` in `kBases`; for every other
character it ends in the fatal abort and returns no index. -/
theorem baseCharToInt_spec (c : Char) :
    baseCharToInt 'A' = some 0 ∧ baseCharToInt 'C' = some 1 ∧
    baseCharToInt 'T' = some 2 ∧ baseCharToInt 'G' = some 3 ∧
    ((∃ i, baseCharToInt c = some i) ↔ (c = 'A' ∨ c = 'C' ∨ c = 'T' ∨ c = 'G')) ∧
    (∀ i, baseCharToInt c = some i → 0 ≤ i ∧ kBases.get? i.toNat = some c) ∧
    (¬ (c = 'A' ∨ c = 'C' ∨ c = 'T' ∨ c = 'G') → baseCharToInt c = none) := by
  have hnone : ¬ (c = 'A' ∨ c = 'C' ∨ c = 'T' ∨ c = 'G') → baseCharToInt c = none := by
    intro h
    simp only [not_or] at h
    obtain ⟨h1, h2, h3, h4⟩ := h
    simp [baseCharToInt, baseCharToIntLoop, kBases, Ne.symm h1, Ne.symm h2, Ne.symm h3,
      Ne.symm h4]
  refine ⟨by decide, by decide, by decide, by decide, ?_, ?_, hnone⟩
  · constructor
    · rintro ⟨i, hi⟩
      by_contra hc
      rw [hnone hc] at hi
      exact absurd hi (by simp)
    · intro h
      exact ⟨_, baseCharToInt_of_mem ((mem_kBases_iff c).2 h)⟩
  · intro i hi
    by_cases hc : c = 'A' ∨ c = 'C' ∨ c = 'T' ∨ c = 'G'
    · have hm := (mem_kBases_iff c).2 hc
      rw [baseCharToInt_of_mem hm] at hi
      have := Option.some.inj hi
      subst this
      refine ⟨by omega, ?_⟩
      rw [Int.toNat_ofNat]
      exact kBases_get_digitValue hm
    · rw [hnone hc] at hi
      exact absurd hi (by simp)

theorem next_of_not_hasNext (it : KmerWindowIterator) (h : it.hasNext = false) :
    it.next = some (-1, it) := by
  simp [KmerWindowIterator.next, h]

theorem construct_reach (k : Nat) (s : List Char) (hs : IsDna s) :
    ∃ it0, KmerWindowIterator.construct k s = some it0 ∧ IterReach k s it0 := by
  by_cases hlt : s.length < k
  · refine ⟨_, ?_, Or.inl ⟨hlt, rfl⟩⟩
    unfold KmerWindowIterator.construct
    rw [if_pos (by omega)]
    rfl
  · by_cases hk : 1 ≤ k
    · exact ⟨_, construct_eq hs hk (by omega), Or.inr (Or.inl ⟨hk, 0, by omega, rfl⟩)⟩
    · have hk0 : k = 0 := by omega
      subst hk0
      have hc : KmerWindowIterator.construct 0 s
          = some { str := s, most_significant_ := 1, first_one_ := 4,
                   current_window_code_ := 1, begin_window_ := 0, end_window_ := 0,
                   string_end_ := s.length } := by
        unfold KmerWindowIterator.construct
        rw [if_neg (by omega)]
        rfl
      exact ⟨_, hc, Or.inr (Or.inr ⟨rfl, rfl, rfl, rfl, rfl, Nat.zero_le _, rfl, Or.inl rfl⟩)⟩

theorem next_reach (k : Nat) (s : List Char) (hs : IsDna s) (it : KmerWindowIterator)
    (hr : IterReach k s it) :
    ∃ c it1, it.next = some (c, it1) ∧ IterReach k s it1 ∧
      (it.hasNext = true → c ≠ -1) := by
  by_cases hn : it.hasNext = true
  · rcases hr with ⟨hlt, rfl⟩ | ⟨hk, m, hm, rfl⟩ | ⟨hk, hstr, hms, hfo, hbe, hle, hse, hcode⟩
    · simp [KmerWindowIterator.hasNext, shortState] at hn
    · have hlt := (hasNext_windowState k s m hm).1 hn
      refine ⟨_, _, next_windowState hs hk (by omega), Or.inr (Or.inl ⟨hk, m + 1, by omega, rfl⟩), ?_⟩
      intro _
      have hp : (0 : Int) < (4 : Int) ^ k := by positivity
      omega
    · have hne : it.end_window_ ≠ it.string_end_ := by
        intro h
        simp [KmerWindowIterator.hasNext, h] at hn
      have hlt : it.end_window_ < s.length := by omega
      have hlt' : it.end_window_ < it.str.length := by rw [hstr]; exact hlt
      have hmem : it.str[it.end_window_] ∈ kBases := by
        apply hs
        rw [← hstr]
        exact List.getElem_mem _
      have hd := digitValue_lt (it.str[it.end_window_])
      have hnext : it.next = some
          ((it.current_window_code_ -
              (it.most_significant_ * (digitValue (it.str[it.end_window_]) : Int) + it.first_one_))
                * kNumBases + ((digitValue (it.str[it.end_window_]) : Int) + it.first_one_),
            { it with
              current_window_code_ := (it.current_window_code_ -
                (it.most_significant_ * (digitValue (it.str[it.end_window_]) : Int) + it.first_one_))
                  * kNumBases + ((digitValue (it.str[it.end_window_]) : Int) + it.first_one_),
              begin_window_ := it.begin_window_ + 1,
              end_window_ := it.end_window_ + 1 }) := by
        unfold KmerWindowIterator.next
        simp only [hn, Bool.not_true, Bool.false_eq_true, if_false, hbe, List.get?_eq_getElem?,
          List.getElem?_eq_getElem hlt', Option.some_bind, baseCharToInt_of_mem hmem]
      refine ⟨_, _, hnext, Or.inr (Or.inr ⟨hk, hstr, hms, hfo, ?_, ?_, hse, ?_⟩), ?_⟩
      · simp [hbe]
      · show it.end_window_ + 1 ≤ s.length
        omega
      · dsimp only
        right
        rw [hms, hfo, kNumBases]
        rcases hcode with h | h <;> omega
      · intro _
        rw [hms, hfo, kNumBases]
        rcases hcode with h | h <;> omega
  · have hf : it.hasNext = false := by simpa using hn
    exact ⟨-1, it, next_of_not_hasNext it hf, hr, fun h => absurd h hn⟩

theorem nextN_reach (k : Nat) (s : List Char) (hs : IsDna s) :
    ∀ (j : Nat) (it : KmerWindowIterator), IterReach k s it →
      ∃ it1, KmerWindowIterator.nextN j it = some it1 ∧ IterReach k s it1
  | 0, it, hr => ⟨it, rfl, hr⟩
  | j + 1, it, hr => by
    obtain ⟨c, it1, hnext, hr1, _⟩ := next_reach k s hs it hr
    obtain ⟨it2, h2, hr2⟩ := nextN_reach k s hs j it1 hr1
    refine ⟨it2, ?_, hr2⟩
    rw [KmerWindowIterator.nextN, hnext]
    exact h2

theorem nodup_allKmers (k : Nat) : (allKmers k).Nodup := by
  apply List.Nodup.of_map kmerVal
  rw [map_kmerVal_allKmers]
  exact List.nodup_range _

theorem length_allKmers (k : Nat) : (allKmers k).length = 4 ^ k := by
  have := congrArg List.length (map_kmerVal_allKmers k)
  simpa using this

theorem mem_kmersUpToDist_of_isKmer {k : Nat} {kmer t : List Char} (hk : IsKmer k kmer)
    (ht : IsKmer k t) {dist : Int} (hd : (k : Int) ≤ dist) : t ∈ kmersUpToDist kmer dist := by
  unfold kmersUpToDist
  rw [List.mem_dedup, List.mem_flatMap]
  refine ⟨k, List.mem_range.2 (by omega), ?_⟩
  unfold allNextKmers
  refine List.mem_map.2 ⟨t, (mem_allKmers_iff k t).2 ht, ?_⟩
  rw [← hk.1, List.drop_left]

theorem kmersUpToDist_perm_allKmers {k : Nat} {kmer : List Char} (hk : IsKmer k kmer)
    {dist : Int} (hd : (k : Int) ≤ dist) : (kmersUpToDist kmer dist).Perm (allKmers k) := by
  rw [List.perm_ext_iff_of_nodup (nodup_kmersUpToDist kmer dist) (nodup_allKmers k)]
  intro t
  constructor
  · intro h
    exact (mem_allKmers_iff k t).2 (isKmer_of_mem_kmersUpToDist hk h)
  · intro h
    exact mem_kmersUpToDist_of_isKmer hk ((mem_allKmers_iff k t).1 h) hd

theorem map_stateIdOf_allKmers (k : Nat) :
    (allKmers k).map stateIdOf = (List.range' 1 (4 ^ k)).map (fun (n : Nat) => (n : Int)) := by
  have h1 : (allKmers k).map stateIdOf
      = ((allKmers k).map kmerVal).map (fun (n : Nat) => ((n : Int) + 1)) := by
    rw [List.map_map]
    apply List.map_congr_left
    intro w hw
    exact stateIdOf_eq ((mem_allKmers_iff k w).1 hw).2
  rw [h1, map_kmerVal_allKmers, List.range'_eq_map_range, List.map_map]
  apply List.map_congr_left
  intro n _
  simp only [Function.comp]
  push_cast
  rw [add_comm]

theorem count_range'_cast (n : Nat) (d : Int) (h1 : 1 ≤ d) (h2 : d ≤ (n : Int)) :
    ((List.range' 1 n).map (fun (m : Nat) => (m : Int))).count d = 1 := by
  apply List.count_eq_one_of_mem
  · exact (List.nodup_range' 1 n).map (fun a b hab => by exact_mod_cast hab)
  · exact List.mem_map.2 ⟨d.toNat, List.mem_range'_1.2 (by omega), by omega⟩

theorem encodeSteps_bound (w : List Char) (hw : IsDna w) (acc : Nat)
    (hb : acc * 4 ^ w.length + kmerVal w < 2 ^ 31) :
    ∀ v ∈ encodeSteps w (acc : Int), 0 ≤ v ∧ v < 2 ^ 31 := by
  induction w generalizing acc with
  | nil => intro v hv; simp [encodeSteps] at hv
  | cons c t ih =>
    obtain ⟨hc, ht⟩ := hw.cons
    rw [kmerVal_cons, List.length_cons, pow_succ] at hb
    have hpos : 0 < 4 ^ t.length := by positivity
    have hd := digitValue_lt c
    have hstep : (acc * 4 + digitValue c) * 4 ^ t.length + kmerVal t
        = acc * (4 ^ t.length * 4) + (digitValue c * 4 ^ t.length + kmerVal t) := by ring
    have hb2 : (acc * 4 + digitValue c) * 4 ^ t.length + kmerVal t < 2 ^ 31 := by
      rw [hstep]; exact hb
    have hsmall : acc * 4 + digitValue c < 2 ^ 31 := by
      have : acc * 4 + digitValue c ≤ (acc * 4 + digitValue c) * 4 ^ t.length :=
        Nat.le_mul_of_pos_right _ hpos
      omega
    intro v hv
    rw [encodeSteps, baseCharToInt_of_mem hc] at hv
    simp only [List.mem_cons, kNumBases] at hv
    rcases hv with rfl | rfl | hv
    · omega
    · omega
    · have hcast : ((acc : Int) * 4 + (digitValue c : Int))
          = ((acc * 4 + digitValue c : Nat) : Int) := by push_cast; rfl
      rw [hcast] at hv
      exact ih ht (acc * 4 + digitValue c) hb2 v hv

/-- C15. For every k-mer of length `k ≤ 14` over {A,C,T,G}, `encodeKmer` with the
32-bit signed `int` does not overflow: every value that the accumulator and the
product take in exact arithmetic lies in `[0, 2^31)`, and the 32-bit result equals the
exact encoding `4^k + Σ b_i * 4^(k-1-i)`, which is what `encodeKmer` returns over the
unbounded integers. -/
theorem encodeKmerInt32_no_overflow (w : List Char) (hw : IsDna w) (hlen : w.length ≤ 14) :
    (∀ v ∈ (1 : Int) :: encodeSteps w 1, 0 ≤ v ∧ v < 2 ^ 31) ∧
    encodeKmerInt32 w = some (specEncoding w) ∧
    encodeKmerInt32 w = encodeKmer w := by
  have hv := kmerVal_lt w
  have hp : 4 ^ w.length ≤ 4 ^ 14 := Nat.pow_le_pow_right (by norm_num) hlen
  have hb : 1 * 4 ^ w.length + kmerVal w < 2 ^ 31 := by norm_num at hp ⊢; omega
  refine ⟨?_, ?_, ?_⟩
  · intro v hvm
    rcases List.mem_cons.1 hvm with rfl | hvm
    · norm_num
    · have h1 : ((1 : Nat) : Int) = 1 := rfl
      rw [← h1] at hvm
      exact encodeSteps_bound w hw 1 hb v hvm
  · rw [encodeKmerInt32_eq w hw (by omega), specEncoding_eq]
  · rw [encodeKmerInt32_eq w hw (by omega), encodeKmer_eq w hw]

/-- Witness of C15 at the 14-mer GGGGGGGGGGGGGG, the largest code of that length. -/
theorem encodeKmerInt32_no_overflow_witness :
    IsDna (List.replicate 14 'G') ∧ (List.replicate 14 'G').length ≤ 14 ∧
    encodeKmerInt32 (List.replicate 14 'G') = some 536870911 ∧
    encodeKmerInt32 (List.replicate 14 'G') = encodeKmer (List.replicate 14 'G') :=
  ⟨by decide, by decide,
   (encodeKmerInt32_no_overflow (List.replicate 14 'G') (by decide) (by decide)).2.1,
   (encodeKmerInt32_no_overflow (List.replicate 14 'G') (by decide) (by decide)).2.2⟩

/-- C16. For every non-negative real `x`, `Log2Num(x) * Log2Num(0)` (also as the result
of `prod *= Log2Num(0)`) equals `Log2Num(0)`, and its `value()` is 0. -/
theorem log2Num_mul_zero {R : Type} [LinearOrderedField R] (log2 exp2 : R → R) (x : R)
    (hx : 0 ≤ x) :
    ∃ a z, Log2Num.ofValue log2 x = some a ∧ Log2Num.ofValue log2 0 = some z ∧
      a.mul z = z ∧ (a.mul z).value exp2 = 0 ∧ z.value exp2 = 0 := by
  have hz : Log2Num.ofValue log2 (0 : R) = some { is_zero := true, log2x := 0 } := by
    simp [Log2Num.ofValue]
  have ha : ∃ a, Log2Num.ofValue log2 x = some a := by
    unfold Log2Num.ofValue
    rw [if_neg (not_lt.2 hx)]
    split_ifs
    · exact ⟨_, rfl⟩
    · exact ⟨_, rfl⟩
  obtain ⟨a, ha⟩ := ha
  refine ⟨a, _, ha, hz, ?_, ?_, ?_⟩
  · simp [Log2Num.mul]
  · simp [Log2Num.mul, Log2Num.value]
  · simp [Log2Num.value]

/-- Witness of C16 at x = 10^-300, the value of the test `Log2NumZeroProdTest`. -/
theorem log2Num_mul_zero_witness :
    (0 : ℚ) ≤ 1 / 10 ^ 300 ∧
    ∃ a z, Log2Num.ofValue (fun r : ℚ => r) (1 / 10 ^ 300) = some a ∧
      Log2Num.ofValue (fun r : ℚ => r) 0 = some z ∧
      a.mul z = z ∧ (a.mul z).value (fun r : ℚ => r) = 0 ∧ z.value (fun r : ℚ => r) = 0 :=
  ⟨by positivity, log2Num_mul_zero (fun r : ℚ => r) (fun r : ℚ => r) (1 / 10 ^ 300)
    (by positivity)⟩

theorem vectorAt_of_range {α : Type} (v : List α) (i : Int) (h0 : 0 ≤ i)
    (h1 : i < (v.length : Int)) : ∃ a, vectorAt v i = some a ∧ v[i.toNat]? = some a := by
  have hlt : i.toNat < v.length := by omega
  refine ⟨v[i.toNat], ?_, List.getElem?_eq_getElem hlt⟩
  unfold vectorAt
  rw [if_neg (by omega), List.getElem?_eq_getElem hlt]

theorem checkEdges_spec {E : Type} (initial : Int) (states : List (StateObj E)) (s : Int) :
    ∀ (row : List Transition),
      (∀ tr ∈ row, 0 ≤ tr.to_state_ ∧ tr.to_state_ < (states.length : Int)) →
      (checkEdges initial states s row = Except.ok () ∧
        ∀ tr ∈ row, tr.to_state_ ≠ initial ∧
          ∀ st, vectorAt states tr.to_state_ = some st → st.isSilent = true →
            ¬ (s ≥ tr.to_state_)) ∨
      (checkEdges initial states s row = Except.error HmmError.InvalidTopology ∧
        ∃ tr ∈ row, tr.to_state_ = initial ∨
          ∃ st, vectorAt states tr.to_state_ = some st ∧ st.isSilent = true ∧
            s ≥ tr.to_state_)
  | [], _ => Or.inl ⟨rfl, by simp⟩
  | tr :: rest, hwf => by
    have htr := hwf tr (List.mem_cons_self _ _)
    have hrest : ∀ x ∈ rest, 0 ≤ x.to_state_ ∧ x.to_state_ < (states.length : Int) :=
      fun x hx => hwf x (List.mem_cons_of_mem _ hx)
    obtain ⟨st, hst, _⟩ := vectorAt_of_range states tr.to_state_ htr.1 htr.2
    rw [checkEdges]
    by_cases h1 : tr.to_state_ = initial
    · rw [if_pos h1]
      exact Or.inr ⟨rfl, tr, List.mem_cons_self _ _, Or.inl h1⟩
    · rw [if_neg h1, hst]
      simp only
      by_cases h2 : st.isSilent = true ∧ s ≥ tr.to_state_
      · have hc : (st.isSilent && decide (s ≥ tr.to_state_)) = true := by
          simp [h2.1, h2.2]
        rw [if_pos hc]
        exact Or.inr ⟨rfl, tr, List.mem_cons_self _ _, Or.inr ⟨st, hst, h2.1, h2.2⟩⟩
      · have hc : ¬ ((st.isSilent && decide (s ≥ tr.to_state_)) = true) := by
          simpa using h2
        rw [if_neg hc]
        rcases checkEdges_spec initial states s rest hrest with ⟨hok, hall⟩ | ⟨herr, x, hx, hbad⟩
        · refine Or.inl ⟨hok, ?_⟩
          intro x hx
          rcases List.mem_cons.1 hx with rfl | hx
          · refine ⟨h1, ?_⟩
            intro st1 hst1 hsil hge
            rw [hst] at hst1
            have := Option.some.inj hst1
            subst this
            exact h2 ⟨hsil, hge⟩
          · exact hall x hx
        · exact Or.inr ⟨herr, x, List.mem_cons_of_mem _ hx, hbad⟩

theorem checkRows_spec {E : Type} (initial : Int) (states : List (StateObj E)) :
    ∀ (rows : List (List Transition)) (s0 : Nat),
      (∀ row ∈ rows, ∀ tr ∈ row, 0 ≤ tr.to_state_ ∧ tr.to_state_ < (states.length : Int)) →
      (checkRows initial states s0 rows = Except.ok () ∧
        ∀ (i : Nat) (row : List Transition), rows[i]? = some row →
          ∀ tr ∈ row, tr.to_state_ ≠ initial ∧
            ∀ st, vectorAt states tr.to_state_ = some st → st.isSilent = true →
              ¬ (((s0 + i : Nat) : Int) ≥ tr.to_state_)) ∨
      (checkRows initial states s0 rows = Except.error HmmError.InvalidTopology ∧
        ∃ (i : Nat) (row : List Transition), rows[i]? = some row ∧
          ∃ tr ∈ row, tr.to_state_ = initial ∨
            ∃ st, vectorAt states tr.to_state_ = some st ∧ st.isSilent = true ∧
              ((s0 + i : Nat) : Int) ≥ tr.to_state_)
  | [], s0, _ => Or.inl ⟨rfl, by simp⟩
  | row :: rows, s0, hwf => by
    have hrow := hwf row (List.mem_cons_self _ _)
    have hrest : ∀ r ∈ rows, ∀ tr ∈ r, 0 ≤ tr.to_state_ ∧ tr.to_state_ < (states.length : Int) :=
      fun r hr => hwf r (List.mem_cons_of_mem _ hr)
    rw [checkRows]
    rcases checkEdges_spec initial states (s0 : Int) row hrow with ⟨hok, hall⟩ | ⟨herr, x, hx, hbad⟩
    · rw [hok]
      simp only
      rcases checkRows_spec initial states rows (s0 + 1) hrest with
        ⟨hok1, hall1⟩ | ⟨herr1, i, r, hr, x, hx, hbad⟩
      · refine Or.inl ⟨hok1, ?_⟩
        intro i r hr
        cases i with
        | zero =>
          simp only [List.getElem?_cons_zero, Option.some.injEq] at hr
          subst hr
          simpa using hall
        | succ i =>
          simp only [List.getElem?_cons_succ] at hr
          have := hall1 i r hr
          have he : s0 + 1 + i = s0 + (i + 1) := by omega
          rw [he] at this
          exact this
      · refine Or.inr ⟨herr1, i + 1, r, by simpa using hr, x, hx, ?_⟩
        have he : s0 + 1 + i = s0 + (i + 1) := by omega
        rw [he] at hbad
        exact hbad
    · rw [herr]
      exact Or.inr ⟨rfl, 0, row, by simp, x, hx, by simpa using hbad⟩

theorem pushBackAt_spec (inv : List (List Transition)) (d : Int) (x : Transition)
    (h0 : 0 ≤ d) (h1 : d < (inv.length : Int)) :
    ∃ inv1, pushBackAt inv d x = some inv1 ∧ inv1.length = inv.length ∧
      ∀ t : Nat, inv1[t]? = (inv[t]?).map
        (fun r => r ++ (if (t : Int) = d then [x] else [])) := by
  obtain ⟨row, hrow, hget⟩ := vectorAt_of_range inv d h0 h1
  refine ⟨inv.set d.toNat (row ++ [x]), ?_, by simp, ?_⟩
  · unfold pushBackAt
    rw [hrow]
  · intro t
    by_cases ht : (t : Int) = d
    · have htn : d.toNat = t := by omega
      rw [htn] at hget ⊢
      have hlt : t < inv.length := by omega
      rw [List.getElem?_set_self hlt, hget]
      simp [ht]
    · have htn : d.toNat ≠ t := by omega
      rw [List.getElem?_set_ne htn]
      cases inv[t]? <;> simp [ht]

theorem invScanRow_spec (s : Int) :
    ∀ (row : List Transition) (inv : List (List Transition)),
      (∀ tr ∈ row, 0 ≤ tr.to_state_ ∧ tr.to_state_ < (inv.length : Int)) →
      ∃ inv1, invScanRow s row inv = some inv1 ∧ inv1.length = inv.length ∧
        ∀ t : Nat, inv1[t]? = (inv[t]?).map (fun r => r ++ incomingFrom (t : Int) s row)
  | [], inv, _ => ⟨inv, rfl, rfl, by intro t; cases inv[t]? <;> simp [incomingFrom]⟩
  | tr :: rest, inv, hwf => by
    have htr := hwf tr (List.mem_cons_self _ _)
    obtain ⟨inv1, h1, hl1, hg1⟩ :=
      pushBackAt_spec inv tr.to_state_ { to_state_ := s, prob_ := tr.prob_ } htr.1 htr.2
    obtain ⟨inv2, h2, hl2, hg2⟩ := invScanRow_spec s rest inv1
      (fun x hx => by rw [hl1]; exact hwf x (List.mem_cons_of_mem _ hx))
    refine ⟨inv2, ?_, by rw [hl2, hl1], ?_⟩
    · rw [invScanRow, h1]
      exact h2
    · intro t
      rw [hg2 t, hg1 t]
      cases inv[t]? with
      | none => rfl
      | some r =>
        simp only [Option.map_some', Option.some.injEq, incomingFrom, List.filter_cons]
        by_cases ht : (t : Int) = tr.to_state_
        · simp [ht]
        · have ht' : ¬ (tr.to_state_ = (t : Int)) := fun h => ht h.symm
          simp [ht, ht']

theorem invScanRows_spec :
    ∀ (rows : List (List Transition)) (s0 : Nat) (inv : List (List Transition)),
      (∀ row ∈ rows, ∀ tr ∈ row, 0 ≤ tr.to_state_ ∧ tr.to_state_ < (inv.length : Int)) →
      ∃ inv1, invScanRows s0 rows inv = some inv1 ∧ inv1.length = inv.length ∧
        ∀ t : Nat, inv1[t]? = (inv[t]?).map (fun r => r ++ incomingEdges (t : Int) s0 rows)
  | [], s0, inv, _ => ⟨inv, rfl, rfl, by intro t; cases inv[t]? <;> simp [incomingEdges]⟩
  | row :: rows, s0, inv, hwf => by
    obtain ⟨inv1, h1, hl1, hg1⟩ := invScanRow_spec (s0 : Int) row inv
      (hwf row (List.mem_cons_self _ _))
    obtain ⟨inv2, h2, hl2, hg2⟩ := invScanRows_spec rows (s0 + 1) inv1
      (fun r hr => by rw [hl1]; exact hwf r (List.mem_cons_of_mem _ hr))
    refine ⟨inv2, ?_, by rw [hl2, hl1], ?_⟩
    · rw [invScanRows, h1]
      exact h2
    · intro t
      rw [hg2 t, hg1 t]
      cases inv[t]? with
      | none => rfl
      | some r => simp [incomingEdges]

theorem computeInvTransitions_spec (transitions : List (List Transition))
    (hwf : ∀ row ∈ transitions, ∀ tr ∈ row,
      0 ≤ tr.to_state_ ∧ tr.to_state_ < (transitions.length : Int)) :
    ∃ inv, computeInvTransitions transitions = some inv ∧ inv.length = transitions.length ∧
      ∀ t : Nat, t < transitions.length → inv[t]? = some (incomingEdges (t : Int) 0 transitions) := by
  obtain ⟨inv, h1, hl, hg⟩ := invScanRows_spec transitions 0
    (List.replicate transitions.length []) (by simpa using hwf)
  refine ⟨inv, h1, by simpa using hl, ?_⟩
  intro t ht
  rw [hg t]
  simp [List.getElem?_replicate, ht]

theorem count_incomingFrom (t s : Int) (row : List Transition) (s1 : Int) (p : ℚ) :
    (incomingFrom t s row).count { to_state_ := s1, prob_ := p }
      = if s1 = s then row.count { to_state_ := t, prob_ := p } else 0 := by
  induction row with
  | nil => simp [incomingFrom]
  | cons tr rest ih =>
    simp only [incomingFrom, List.filter_cons] at ih ⊢
    by_cases ht : tr.to_state_ = t
    · simp only [ht, decide_True, if_true, List.map_cons, List.count_cons, ih]
      by_cases hs : s1 = s
      · subst hs
        subst ht
        by_cases hp : tr.prob_ = p
        · subst hp; simp
        · have h1 : ¬ (({ to_state_ := s1, prob_ := tr.prob_ } : Transition)
              == { to_state_ := s1, prob_ := p }) = true := by
            simp [hp]
          have h2 : ¬ ((tr == ({ to_state_ := tr.to_state_, prob_ := p } : Transition)) = true) := by
            intro h
            have := eq_of_beq h
            rw [this] at hp
            exact hp rfl
          simp [h1, h2]
      · have h1 : ¬ (({ to_state_ := s, prob_ := tr.prob_ } : Transition)
            == { to_state_ := s1, prob_ := p }) = true := by
          simp [Ne.symm hs]
        simp [hs, h1]
    · have h2 : ¬ ((tr == ({ to_state_ := t, prob_ := p } : Transition)) = true) := by
        intro h
        have := eq_of_beq h
        rw [this] at ht
        exact ht rfl
      simp only [ht, decide_False, Bool.false_eq_true, if_false, List.count_cons, ih, h2]
      simp

theorem count_incomingEdges (t : Int) (p : ℚ) :
    ∀ (rows : List (List Transition)) (s0 : Nat) (s : Nat),
      (incomingEdges t s0 rows).count { to_state_ := (s : Int), prob_ := p }
        = if s0 ≤ s then
            (rows.getD (s - s0) []).count { to_state_ := t, prob_ := p }
          else 0
  | [], s0, s => by simp [incomingEdges]
  | row :: rows, s0, s => by
    rw [incomingEdges, List.count_append, count_incomingFrom, count_incomingEdges t p rows (s0 + 1) s]
    by_cases h1 : s0 ≤ s
    · by_cases h2 : s = s0
      · subst h2
        simp
      · have h3 : s0 + 1 ≤ s := by omega
        have h4 : ¬ ((s : Int) = (s0 : Int)) := by omega
        obtain ⟨m, hm⟩ : ∃ m, s - s0 = m + 1 := ⟨s - s0 - 1, by omega⟩
        have h5 : s - (s0 + 1) = m := by omega
        simp [h1, h3, h4, hm, h5]
    · have h3 : ¬ (s0 + 1 ≤ s) := by omega
      have h4 : ¬ ((s : Int) = (s0 : Int)) := by omega
      simp [h1, h3, h4]

theorem construct_spec (initial : Int) (transitions : List (List Transition))
    (hwf : ∀ row ∈ transitions, ∀ tr ∈ row,
      0 ≤ tr.to_state_ ∧ tr.to_state_ < (transitions.length : Int)) :
    ∃ hmm, HMM.construct initial transitions = Except.ok hmm ∧
      hmm.initial_state_ = initial ∧ hmm.transitions_ = transitions ∧
      computeInvTransitions transitions = some hmm.inv_transitions_ := by
  obtain ⟨inv, h, _, _⟩ := computeInvTransitions_spec transitions hwf
  refine ⟨⟨initial, (transitions.length : Int), transitions, inv⟩, ?_, rfl, rfl, h⟩
  unfold HMM.construct
  rw [h]

theorem isValid_spec {E : Type} (hmm : HMM) (states : List (StateObj E))
    (hwf : WellFormedTopology hmm.initial_state_ hmm.transitions_ states) :
    (hmm.isValid states = Except.ok () ∧
      ¬ (InitialNotSilent hmm.initial_state_ states ∨
         TargetsInitial hmm.initial_state_ hmm.transitions_ ∨
         SilentFromHigher hmm.transitions_ states)) ∨
    (hmm.isValid states = Except.error HmmError.InvalidTopology ∧
      (InitialNotSilent hmm.initial_state_ states ∨
       TargetsInitial hmm.initial_state_ hmm.transitions_ ∨
       SilentFromHigher hmm.transitions_ states)) := by
  obtain ⟨hlen, h0, h1, hdest⟩ := hwf
  obtain ⟨st, hst, _⟩ := vectorAt_of_range states hmm.initial_state_ h0 (by rw [hlen]; exact h1)
  unfold HMM.isValid
  rw [hst]
  simp only
  by_cases hsil : st.isSilent = true
  · have hc : ¬ ((!st.isSilent) = true) := by simp [hsil]
    rw [if_neg hc]
    rcases checkRows_spec hmm.initial_state_ states hmm.transitions_ 0
        (by rw [hlen]; exact hdest) with ⟨hok, hall⟩ | ⟨herr, i, row, hrow, tr, htr, hbad⟩
    · refine Or.inl ⟨hok, ?_⟩
      rintro (⟨st1, hst1, hns⟩ | ⟨s, row, tr, hrow, htr, hto⟩ | ⟨s, row, tr, st1, hrow, htr, hst1, hs1, hge⟩)
      · rw [hst] at hst1
        have := Option.some.inj hst1
        subst this
        rw [hsil] at hns
        exact absurd hns (by simp)
      · exact (hall s row hrow tr htr).1 hto
      · have := (hall s row hrow tr htr).2 st1 hst1 hs1
        simp only [zero_add] at this
        exact this hge
    · refine Or.inr ⟨herr, ?_⟩
      rcases hbad with hto | ⟨st1, hst1, hs1, hge⟩
      · exact Or.inr (Or.inl ⟨i, row, tr, hrow, htr, hto⟩)
      · simp only [zero_add] at hge
        exact Or.inr (Or.inr ⟨i, row, tr, st1, hrow, htr, hst1, hs1, hge⟩)
  · have hf : st.isSilent = false := by simpa using hsil
    have hc : (!st.isSilent) = true := by simp [hf]
    rw [if_pos hc]
    exact Or.inr ⟨rfl, Or.inl ⟨st, hst, hf⟩⟩

theorem constructChecked_cases {E : Type} (initial_state : Int)
    (transitions : List (List Transition)) (states : List (StateObj E))
    (hwf : WellFormedTopology initial_state transitions states) :
    ((∃ hmm, HMM.constructChecked initial_state transitions states = Except.ok hmm) ∧
      ¬ (InitialNotSilent initial_state states ∨ TargetsInitial initial_state transitions ∨
        SilentFromHigher transitions states)) ∨
    (HMM.constructChecked initial_state transitions states
        = Except.error HmmError.InvalidTopology ∧
      (InitialNotSilent initial_state states ∨ TargetsInitial initial_state transitions ∨
        SilentFromHigher transitions states)) := by
  obtain ⟨hmm, hcon, hi, ht, _⟩ := construct_spec initial_state transitions hwf.2.2.2
  have hrun : HMM.constructChecked initial_state transitions states
      = match hmm.isValid states with
        | Except.error e => Except.error e
        | Except.ok _ => Except.ok hmm := by
    unfold HMM.constructChecked
    rw [hcon]
  have hwf1 : WellFormedTopology hmm.initial_state_ hmm.transitions_ states := by
    rw [hi, ht]; exact hwf
  rcases isValid_spec hmm states hwf1 with ⟨hok, hnone⟩ | ⟨herr, hsome⟩
  · rw [hi, ht] at hnone
    rw [hok] at hrun
    exact Or.inl ⟨⟨hmm, hrun⟩, hnone⟩
  · rw [hi, ht] at hsome
    rw [herr] at hrun
    exact Or.inr ⟨hrun, hsome⟩

/-- C17. For a topology with a states array of the same length, an initial state and
destinations inside the table: constructing the HMM with its validation fails with
`InvalidTopology` if and only if (a) the initial state is not silent, or (b) some
transition has the initial state as its destination, or (c) some transition `s -> t`
has `t` silent and `s ≥ t`; and it returns the HMM if and only if none of the three
holds. -/
theorem constructChecked_fails_iff {E : Type} (initial_state : Int)
    (transitions : List (List Transition)) (states : List (StateObj E))
    (hwf : WellFormedTopology initial_state transitions states) :
    (HMM.constructChecked initial_state transitions states
        = Except.error HmmError.InvalidTopology ↔
      (InitialNotSilent initial_state states ∨ TargetsInitial initial_state transitions ∨
        SilentFromHigher transitions states)) ∧
    ((∃ hmm, HMM.constructChecked initial_state transitions states = Except.ok hmm) ↔
      ¬ (InitialNotSilent initial_state states ∨ TargetsInitial initial_state transitions ∨
        SilentFromHigher transitions states)) := by
  rcases constructChecked_cases initial_state transitions states hwf with
    ⟨⟨hmm, hok⟩, hnone⟩ | ⟨herr, hsome⟩
  · refine ⟨⟨fun h => ?_, fun h => absurd h hnone⟩, ⟨fun _ => hnone, fun _ => ⟨hmm, hok⟩⟩⟩
    rw [hok] at h
    exact absurd h (by simp)
  · refine ⟨⟨fun _ => hsome, fun _ => herr⟩, ⟨?_, fun h => absurd hsome h⟩⟩
    rintro ⟨hmm1, h⟩
    rw [herr] at h
    exact absurd h (by simp)

/-- Witness of C17: the chain 0 -> 1 -> 2 -> 3 with an initial state that is not silent
is rejected; with the states silent, silent, emitting, emitting it is accepted. -/
theorem constructChecked_fails_iff_witness :
    WellFormedTopology 0 chainTransitions
      [halfStateObj, silentStateObj ℚ, halfStateObj, halfStateObj] ∧
    HMM.constructChecked 0 chainTransitions
      [halfStateObj, silentStateObj ℚ, halfStateObj, halfStateObj]
      = Except.error HmmError.InvalidTopology ∧
    (∃ hmm, HMM.constructChecked 0 chainTransitions
      [silentStateObj ℚ, silentStateObj ℚ, halfStateObj, halfStateObj] = Except.ok hmm) :=
  ⟨by unfold WellFormedTopology; decide,
   (constructChecked_fails_iff 0 chainTransitions
      [halfStateObj, silentStateObj ℚ, halfStateObj, halfStateObj]
      (by unfold WellFormedTopology; decide)).1.2 (Or.inl ⟨halfStateObj, rfl, rfl⟩),
   ⟨_, rfl⟩⟩

/-- C18. For a transitions table whose destinations lie inside the table, the
constructor returns an HMM in which, for every state `t`, `inv_transitions[t]` is the
list of the edges arriving at `t`, as entries `(s, p)`, ordered by ascending source
state `s` and then by the position inside `transitions[s]`; so `(s, p)` occurs in
`inv_transitions[t]` exactly as often as `(t, p)` occurs in `transitions[s]`. -/
theorem construct_inv_transitions (initial_state : Int)
    (transitions : List (List Transition))
    (hwf : ∀ row ∈ transitions, ∀ tr ∈ row,
      0 ≤ tr.to_state_ ∧ tr.to_state_ < (transitions.length : Int)) :
    ∃ hmm, HMM.construct initial_state transitions = Except.ok hmm ∧
      hmm.transitions_ = transitions ∧
      hmm.inv_transitions_.length = transitions.length ∧
      ∀ t : Nat, t < transitions.length →
        ∃ inv_t, hmm.inv_transitions_[t]? = some inv_t ∧
          inv_t = incomingEdges (t : Int) 0 transitions ∧
          ∀ (s : Nat) (p : ℚ),
            inv_t.count { to_state_ := (s : Int), prob_ := p }
              = (transitions.getD s []).count { to_state_ := (t : Int), prob_ := p } ∧
            (({ to_state_ := (s : Int), prob_ := p } : Transition) ∈ inv_t ↔
              ({ to_state_ := (t : Int), prob_ := p } : Transition) ∈ transitions.getD s []) := by
  obtain ⟨hmm, hcon, _, htr, hinv⟩ := construct_spec initial_state transitions hwf
  obtain ⟨inv1, hinv1, hlen, hget⟩ := computeInvTransitions_spec transitions hwf
  rw [hinv] at hinv1
  have hiv := Option.some.inj hinv1
  refine ⟨hmm, hcon, htr, by rw [hiv]; exact hlen, ?_⟩
  rw [hiv]
  intro t ht
  refine ⟨_, hget t ht, rfl, ?_⟩
  intro s p
  have hc := count_incomingEdges (t : Int) p transitions 0 s
  simp only [Nat.zero_le, if_true, Nat.sub_zero] at hc
  refine ⟨hc, ?_⟩
  rw [← List.count_pos_iff, ← List.count_pos_iff, hc]

/-- Witness of C18 on the table 0 -> 1 (1/2), 0 -> 2 (1/2), 1 -> 2 (1): the incoming
edges of state 2 are (0, 1/2) and then (1, 1). -/
theorem construct_inv_transitions_witness :
    ∃ hmm, HMM.construct 0
        [[{ to_state_ := 1, prob_ := 1 / 2 }, { to_state_ := 2, prob_ := 1 / 2 }],
         [{ to_state_ := 2, prob_ := 1 }], []] = Except.ok hmm ∧
      hmm.inv_transitions_[2]? =
        some [{ to_state_ := 0, prob_ := 1 / 2 }, { to_state_ := 1, prob_ := 1 }] :=
  match construct_inv_transitions 0
      [[{ to_state_ := 1, prob_ := 1 / 2 }, { to_state_ := 2, prob_ := 1 / 2 }],
       [{ to_state_ := 2, prob_ := 1 }], []] (by decide) with
  | ⟨hmm, h1, _, _, h4⟩ =>
    match h4 2 (by decide) with
    | ⟨inv_t, h5, h6, _⟩ => ⟨hmm, h1, by rw [h5, h6]; rfl⟩

theorem baseCharToInt_some_mem {c : Char} {i : Int} (h : baseCharToInt c = some i) :
    c ∈ kBases := by
  by_contra hc
  have hne : ¬ (c = 'A' ∨ c = 'C' ∨ c = 'T' ∨ c = 'G') := fun hh => hc ((mem_kBases_iff c).2 hh)
  simp only [not_or] at hne
  obtain ⟨h1, h2, h3, h4⟩ := hne
  simp [baseCharToInt, baseCharToIntLoop, kBases, Ne.symm h1, Ne.symm h2, Ne.symm h3,
    Ne.symm h4] at h

theorem encodeFold_some_isDna :
    ∀ (w : List Char) (acc code : Int),
      w.foldlM (fun res c => (baseCharToInt c).map (fun d => res * kNumBases + d)) acc
        = some code → IsDna w
  | [], _, _, _ => fun c hc => by simp at hc
  | a :: t, acc, code, h => by
    rw [List.foldlM_cons] at h
    cases hb : baseCharToInt a with
    | none => rw [hb] at h; simp at h
    | some d =>
      rw [hb] at h
      simp only [Option.map_some', Option.some_bind, Option.bind_eq_bind] at h
      have ht := encodeFold_some_isDna t _ code h
      intro c hc
      rcases List.mem_cons.1 hc with rfl | hc
      · exact baseCharToInt_some_mem hb
      · exact ht c hc

theorem kmerToLexicographicPos_some_isDna {w : List Char} {id : Int}
    (h : kmerToLexicographicPos w = some id) : IsDna w := by
  unfold kmerToLexicographicPos at h
  cases he : encodeKmer w with
  | none => rw [he] at h; simp at h
  | some code => exact encodeFold_some_isDna w 1 code he

theorem fillEmissions_inv (k : Nat) :
    ∀ (gs : List GaussianParamsKmer) (res0 res : List (Option State)),
      fillEmissions k gs res0 = Except.ok res →
      res.length = res0.length ∧ res[0]? = res0[0]? ∧
      ∀ (i : Nat) (st : State), res[i]? = some (some st) →
        res0[i]? = some (some st) ∨ st.isSilent = false
  | [], res0, res, h => by
    simp only [fillEmissions, Except.ok.injEq] at h
    subst h
    exact ⟨rfl, rfl, fun i st hst => Or.inl hst⟩
  | g :: gs, res0, res, h => by
    rw [fillEmissions] at h
    split_ifs at h with hlen
    cases hp : kmerToLexicographicPos g.kmer_ with
    | none => rw [hp] at h; simp at h
    | some state =>
      rw [hp] at h
      simp only at h
      split_ifs at h with hr
      have hd := kmerToLexicographicPos_some_isDna hp
      rw [kmerToLexicographicPos_eq _ hd] at hp
      have hs := Option.some.inj hp
      obtain ⟨h1, h2, h3⟩ := fillEmissions_inv k gs _ res h
      have hne : state.toNat ≠ 0 := by omega
      refine ⟨by rw [h1]; simp, by rw [h2, List.getElem?_set_ne hne], ?_⟩
      intro i st hst
      rcases h3 i st hst with h4 | h4
      · by_cases hi : state.toNat = i
        · subst hi
          rw [List.getElem?_set_self hr.2] at h4
          simp only [Option.some.injEq] at h4
          subst h4
          exact Or.inr rfl
        · rw [List.getElem?_set_ne hi] at h4
          exact Or.inl h4
      · exact Or.inr h4

theorem constructEmissions_inv (k : Nat) (gs : List GaussianParamsKmer)
    (res : List (Option State)) (h : constructEmissions k gs = Except.ok res) :
    res.length = 4 ^ k + 1 ∧ res[0]? = some (some State.SilentState) ∧
    ∀ (i : Nat) (st : State), 1 ≤ i → res[i]? = some (some st) → st.isSilent = false := by
  unfold constructEmissions at h
  simp only at h
  split_ifs at h with hn
  have hl : (numKmersOf k + 1).toNat = 4 ^ k + 1 := by
    rw [numKmersOf_eq]
    have he : ((4 : Int) ^ k + 1) = ((4 ^ k + 1 : Nat) : Int) := by push_cast; ring
    rw [he, Int.toNat_ofNat]
  obtain ⟨h1, h2, h3⟩ := fillEmissions_inv k gs _ res h
  rw [hl] at h1 h2 h3
  refine ⟨by rw [h1]; simp, ?_, ?_⟩
  · rw [h2, kInitialState, List.getElem?_set_self (by simp)]
  · intro i st hi hst
    rcases h3 i st hst with h4 | h4
    · rw [kInitialState, List.getElem?_set_ne (by omega)] at h4
      rw [List.getElem?_replicate] at h4
      split_ifs at h4
      simp at h4
    · exact h4

theorem table_length (iterate : List Char → Int → List (List Char)) (mt pc : Int)
    (k : Nat) (reads : List (List MoveKmer)) (table : List (List Transition))
    (h : constructTransitions iterate mt pc k reads = Except.ok table) :
    table.length = 4 ^ k + 1 ∧ table[0]? = some (initialRow k) := by
  obtain ⟨cnt, rows, _, hb, rfl⟩ := constructTransitions_ok iterate mt pc k reads table h
  have hlen := (buildRows_ok iterate mt pc k cnt _ rows hb).length_eq
  simp only [List.length_map, List.length_range'] at hlen
  exact ⟨by simp [← hlen], by simp⟩

theorem table_destinations (iterate : List Char → Int → List (List Char)) (mt pc : Int)
    (k : Nat) (reads : List (List MoveKmer)) (table : List (List Transition))
    (hiter : ∀ kmer dist, (iterate kmer dist).Perm (kmersUpToDist kmer dist))
    (h : constructTransitions iterate mt pc k reads = Except.ok table) :
    ∀ row ∈ table, ∀ tr ∈ row, 1 ≤ tr.to_state_ ∧ tr.to_state_ ≤ (4 : Int) ^ k := by
  obtain ⟨hlen, h0⟩ := table_length iterate mt pc k reads table h
  intro row hrow tr htr
  obtain ⟨i, hi⟩ := List.mem_iff_getElem?.1 hrow
  have hil : i < table.length := by
    by_contra hc
    rw [List.getElem?_eq_none (by omega)] at hi
    exact absurd hi (by simp)
  have hcast : ((4 : Int) ^ k) = ((4 ^ k : Nat) : Int) := by push_cast; rfl
  cases i with
  | zero =>
    rw [h0] at hi
    have := Option.some.inj hi
    subst this
    obtain ⟨n, hn, rfl⟩ := List.mem_map.1 htr
    have := List.mem_range'_1.1 hn
    simp only
    rw [hcast]
    omega
  | succ j =>
    have h1 : (1 : Int) ≤ ((j + 1 : Nat) : Int) := by omega
    have h2 : ((j + 1 : Nat) : Int) ≤ (4 : Int) ^ k := by rw [hcast]; omega
    obtain ⟨kmer, hk, _, _, _, hr⟩ :=
      table_row iterate mt pc k reads table hiter h ((j + 1 : Nat) : Int) h1 h2
    rw [Int.toNat_ofNat, hi] at hr
    have := Option.some.inj hr
    subst this
    obtain ⟨t, ht, rfl⟩ := List.mem_map.1 htr
    have htk := isKmer_of_mem_kmersUpToDist hk ((hiter kmer mt).mem_iff.1 ht)
    have hv := kmerVal_lt t
    rw [htk.1] at hv
    simp only
    rw [stateIdOf_eq htk.2, hcast]
    omega

theorem toObj_isSilent (gaussianProb : ℚ → ℚ → ℚ → ℚ) (st : State) :
    (State.toObj gaussianProb st).isSilent = st.isSilent := by
  cases st <;> rfl

theorem vectorAt_map_toObj (gaussianProb : ℚ → ℚ → ℚ → ℚ) (states : List State) (i : Int)
    (obj : StateObj ℚ)
    (h : vectorAt (states.map (State.toObj gaussianProb)) i = some obj) :
    0 ≤ i ∧ ∃ st, (states.map some)[i.toNat]? = some (some st) ∧
      obj = State.toObj gaussianProb st := by
  unfold vectorAt at h
  split_ifs at h with hneg
  rw [List.getElem?_map] at h
  cases hs : states[i.toNat]? with
  | none => rw [hs] at h; simp at h
  | some st =>
    rw [hs] at h
    simp only [Option.map_some', Option.some.injEq] at h
    refine ⟨by omega, st, ?_, h.symm⟩
    rw [List.getElem?_map, hs]
    rfl

/-- C20. Whenever `constructEmissions` and `constructTransitions` both return for the
same `k`, their outputs satisfy the topology invariants with initial state 0: state 0
is silent, every destination id of every row lies in `[1, 4^k]` (so no transition leads
to state 0), no state with an id in `[1, 4^k]` is silent, and the two arrays have the
same length; hence for every states array that holds these states the validity check
of the HMM finds none of the three defects and accepts the topology. -/
theorem builder_output_is_valid_topology (iterate : List Char → Int → List (List Char))
    (move_threshold pseudo_count : Int) (k : Nat) (reads : List (List MoveKmer))
    (kmer_gaussians : List GaussianParamsKmer)
    (table : List (List Transition)) (res : List (Option State))
    (hiter : ∀ kmer dist, (iterate kmer dist).Perm (kmersUpToDist kmer dist))
    (hT : constructTransitions iterate move_threshold pseudo_count k reads = Except.ok table)
    (hE : constructEmissions k kmer_gaussians = Except.ok res) :
    res[0]? = some (some State.SilentState) ∧
    (∀ row ∈ table, ∀ tr ∈ row, 1 ≤ tr.to_state_ ∧ tr.to_state_ ≤ (4 : Int) ^ k) ∧
    (∀ (i : Nat) (st : State), 1 ≤ i → res[i]? = some (some st) → st.isSilent = false) ∧
    table.length = res.length ∧
    (∀ (gaussianProb : ℚ → ℚ → ℚ → ℚ) (states : List State), res = states.map some →
      ¬ (InitialNotSilent 0 (states.map (State.toObj gaussianProb)) ∨
          TargetsInitial 0 table ∨
          SilentFromHigher table (states.map (State.toObj gaussianProb))) ∧
      ∃ hmm, HMM.constructChecked 0 table (states.map (State.toObj gaussianProb))
        = Except.ok hmm) := by
  obtain ⟨hlenE, h0, hns⟩ := constructEmissions_inv k kmer_gaussians res hE
  obtain ⟨hlenT, _⟩ := table_length iterate move_threshold pseudo_count k reads table hT
  have hdest := table_destinations iterate move_threshold pseudo_count k reads table hiter hT
  refine ⟨h0, hdest, hns, by rw [hlenT, hlenE], ?_⟩
  intro gaussianProb states hres
  have hcast : ((4 : Int) ^ k) = ((4 ^ k : Nat) : Int) := by push_cast; rfl
  have hwf : WellFormedTopology 0 table (states.map (State.toObj gaussianProb)) := by
    unfold WellFormedTopology
    refine ⟨?_, le_refl 0, ?_, ?_⟩
    · have := congrArg List.length hres
      rw [List.length_map] at this
      rw [List.length_map, ← this, hlenE, hlenT]
    · rw [hlenT]
      exact_mod_cast Nat.succ_pos (4 ^ k)
    · intro row hrow tr htr
      have := hdest row hrow tr htr
      rw [hcast] at this
      rw [hlenT]
      omega
  have hnone : ¬ (InitialNotSilent 0 (states.map (State.toObj gaussianProb)) ∨
      TargetsInitial 0 table ∨
      SilentFromHigher table (states.map (State.toObj gaussianProb))) := by
    rintro (⟨obj, hobj, hsil⟩ | ⟨s, row, tr, hrow, htr, hto⟩ | ⟨s, row, tr, obj, hrow, htr, hobj, hsil, _⟩)
    · obtain ⟨_, st, hst, rfl⟩ := vectorAt_map_toObj gaussianProb states 0 obj hobj
      rw [← hres] at hst
      simp only [Int.toNat_zero] at hst
      rw [h0] at hst
      simp only [Option.some.injEq] at hst
      subst hst
      simp [State.toObj, silentStateObj] at hsil
    · have := (hdest row (List.mem_iff_getElem?.2 ⟨s, hrow⟩) tr htr).1
      omega
    · obtain ⟨_, st, hst, rfl⟩ := vectorAt_map_toObj gaussianProb states tr.to_state_ obj hobj
      have h1 := (hdest row (List.mem_iff_getElem?.2 ⟨s, hrow⟩) tr htr).1
      rw [← hres] at hst
      have := hns tr.to_state_.toNat st (by omega) hst
      rw [toObj_isSilent, this] at hsil
      exact absurd hsil (by simp)
  refine ⟨hnone, ?_⟩
  rcases constructChecked_cases 0 table (states.map (State.toObj gaussianProb)) hwf with
    ⟨hok, _⟩ | ⟨_, hsome⟩
  · exact hok
  · exact absurd hsome hnone

/-- Witness of C20 for k = 1 with the Gaussians of the test `ConstructEmissionsTest`, no
reads, move threshold 1 and pseudo count 1: the outputs of the two builders form a
topology that the validity check accepts. -/
theorem builder_output_is_valid_topology_witness :
    ∃ table hmm, constructTransitions kmersUpToDist 1 1 1 [] = Except.ok table ∧
      constructEmissions 1
        [⟨['G'], 1, 1 / 10⟩, ⟨['A'], 0, 1 / 2⟩, ⟨['T'], 1 / 2, 1 / 5⟩, ⟨['C'], 1 / 2, 1 / 10⟩]
        = Except.ok ([State.SilentState, State.GaussianState 0 (1 / 2),
            State.GaussianState (1 / 2) (1 / 10), State.GaussianState (1 / 2) (1 / 5),
            State.GaussianState 1 (1 / 10)].map some) ∧
      HMM.constructChecked 0 table
        ([State.SilentState, State.GaussianState 0 (1 / 2),
            State.GaussianState (1 / 2) (1 / 10), State.GaussianState (1 / 2) (1 / 5),
            State.GaussianState 1 (1 / 10)].map (State.toObj (fun _ _ _ => 1)))
        = Except.ok hmm := by
  obtain ⟨table, hT⟩ : ∃ table, constructTransitions kmersUpToDist 1 1 1 [] = Except.ok table :=
    ⟨_, rfl⟩
  have hE : constructEmissions 1
        [⟨['G'], 1, 1 / 10⟩, ⟨['A'], 0, 1 / 2⟩, ⟨['T'], 1 / 2, 1 / 5⟩, ⟨['C'], 1 / 2, 1 / 10⟩]
        = Except.ok ([State.SilentState, State.GaussianState 0 (1 / 2),
            State.GaussianState (1 / 2) (1 / 10), State.GaussianState (1 / 2) (1 / 5),
            State.GaussianState 1 (1 / 10)].map some) := rfl
  obtain ⟨_, _, _, _, hv⟩ :=
    builder_output_is_valid_topology kmersUpToDist 1 1 1 [] _ table _
      (fun _ _ => List.Perm.refl _) hT hE
  obtain ⟨_, hmm, hok⟩ := hv (fun _ _ _ => 1) _ rfl
  exact ⟨table, hmm, hT, hE, hok⟩

theorem bestPathScan_ge (src : List ProbStateId) (emission : ℚ) :
    ∀ (l : List Transition) (best : ProbStateId),
      best.1 ≤ (bestPathScan src emission l best).1 ∧
      ∀ tr ∈ l, (cellAt src tr.to_state_).1 * tr.prob_ * emission
        ≤ (bestPathScan src emission l best).1
  | [], best => ⟨le_refl _, by simp⟩
  | tr :: rest, best => by
    rw [bestPathScan]
    split_ifs with h
    · obtain ⟨h1, h2⟩ := bestPathScan_ge src emission rest
        ((cellAt src tr.to_state_).1 * tr.prob_ * emission, tr.to_state_)
      refine ⟨le_trans (le_of_lt h) h1, ?_⟩
      intro x hx
      rcases List.mem_cons.1 hx with rfl | hx
      · exact h1
      · exact h2 x hx
    · obtain ⟨h1, h2⟩ := bestPathScan_ge src emission rest best
      refine ⟨h1, ?_⟩
      intro x hx
      rcases List.mem_cons.1 hx with rfl | hx
      · exact le_trans (not_lt.1 h) h1
      · exact h2 x hx

theorem bestPathScan_cases (src : List ProbStateId) (emission : ℚ) :
    ∀ (l : List Transition) (best : ProbStateId),
      bestPathScan src emission l best = best ∨
      ∃ tr ∈ l, bestPathScan src emission l best
          = ((cellAt src tr.to_state_).1 * tr.prob_ * emission, tr.to_state_) ∧
        best.1 < (cellAt src tr.to_state_).1 * tr.prob_ * emission
  | [], best => Or.inl rfl
  | tr :: rest, best => by
    rw [bestPathScan]
    split_ifs with h
    · rcases bestPathScan_cases src emission rest
          ((cellAt src tr.to_state_).1 * tr.prob_ * emission, tr.to_state_) with h1 | ⟨x, hx, h1, h2⟩
      · exact Or.inr ⟨tr, List.mem_cons_self _ _, h1, h⟩
      · exact Or.inr ⟨x, List.mem_cons_of_mem _ hx, h1, lt_trans h h2⟩
    · rcases bestPathScan_cases src emission rest best with h1 | ⟨x, hx, h1, h2⟩
      · exact Or.inl h1
      · exact Or.inr ⟨x, List.mem_cons_of_mem _ hx, h1, h2⟩

theorem bestPathScan_congr (src1 src2 : List ProbStateId) (emission : ℚ) :
    ∀ (l : List Transition) (best : ProbStateId),
      (∀ tr ∈ l, cellAt src1 tr.to_state_ = cellAt src2 tr.to_state_) →
      bestPathScan src1 emission l best = bestPathScan src2 emission l best
  | [], _, _ => rfl
  | tr :: rest, best, h => by
    have h1 := h tr (List.mem_cons_self _ _)
    have h2 : ∀ x ∈ rest, cellAt src1 x.to_state_ = cellAt src2 x.to_state_ :=
      fun x hx => h x (List.mem_cons_of_mem _ hx)
    rw [bestPathScan, bestPathScan, h1]
    split_ifs
    · exact bestPathScan_congr src1 src2 emission rest _ h2
    · exact bestPathScan_congr src1 src2 emission rest _ h2

theorem mem_incomingFrom (t s : Int) (row : List Transition) (tr : Transition) :
    tr ∈ incomingFrom t s row ↔
      tr.to_state_ = s ∧ ({ to_state_ := t, prob_ := tr.prob_ } : Transition) ∈ row := by
  unfold incomingFrom
  simp only [List.mem_map, List.mem_filter, decide_eq_true_eq]
  constructor
  · rintro ⟨x, ⟨hx, hxt⟩, rfl⟩
    refine ⟨rfl, ?_⟩
    have : ({ to_state_ := t, prob_ := x.prob_ } : Transition) = x := by
      cases x; simp only [Transition.mk.injEq, and_true]; exact hxt.symm
    simp only
    rw [this]
    exact hx
  · rintro ⟨h1, h2⟩
    refine ⟨_, ⟨h2, rfl⟩, ?_⟩
    cases tr
    simp only [Transition.mk.injEq, and_true] at h1 ⊢
    exact h1.symm

theorem mem_incomingEdges (t : Int) (tr : Transition) :
    ∀ (rows : List (List Transition)) (s0 : Nat),
      tr ∈ incomingEdges t s0 rows ↔
        ∃ (j : Nat) (row : List Transition), rows[j]? = some row ∧
          tr.to_state_ = ((s0 + j : Nat) : Int) ∧
          ({ to_state_ := t, prob_ := tr.prob_ } : Transition) ∈ row
  | [], s0 => by simp [incomingEdges]
  | row :: rows, s0 => by
    rw [incomingEdges, List.mem_append, mem_incomingFrom, mem_incomingEdges t tr rows (s0 + 1)]
    constructor
    · rintro (⟨h1, h2⟩ | ⟨j, r, hr, h1, h2⟩)
      · exact ⟨0, row, by simp, by simpa using h1, h2⟩
      · refine ⟨j + 1, r, by simpa using hr, ?_, h2⟩
        rw [h1]
        congr 1
        omega
    · rintro ⟨j, r, hr, h1, h2⟩
      cases j with
      | zero =>
        simp only [List.getElem?_cons_zero, Option.some.injEq] at hr
        subst hr
        exact Or.inl ⟨by simpa using h1, h2⟩
      | succ j =>
        simp only [List.getElem?_cons_succ] at hr
        refine Or.inr ⟨j, r, hr, ?_, h2⟩
        rw [h1]
        congr 1
        omega

theorem viterbiRowLoop_spec {E : Type} (hmm : HMM) (i : Nat) (e : Option E)
    (prob : ViterbiMatrix) :
    ∀ (sts : List (StateObj E)) (s0 : Nat) (cur : List ProbStateId),
      ∃ tail, viterbiRowLoop hmm i e prob s0 sts cur = cur ++ tail ∧
        tail.length = sts.length ∧
        ∀ (j : Nat) (st : StateObj E), sts[j]? = some st →
          tail[j]? = some
            (if i = 0 ∧ ((s0 + j : Nat) : Int) = hmm.initial_state_ then (1, kNoState)
             else hmm.bestPathTo ((s0 + j : Nat) : Int) st i e (prob ++ [cur ++ tail.take j]))
  | [], s0, cur => ⟨[], by simp [viterbiRowLoop], rfl, by intro j st h; simp at h⟩
  | st0 :: rest, s0, cur => by
    obtain ⟨tail, h1, h2, h3⟩ := viterbiRowLoop_spec hmm i e prob rest (s0 + 1)
      (cur ++ [if i = 0 ∧ (s0 : Int) = hmm.initial_state_ then (1, kNoState)
               else hmm.bestPathTo (s0 : Int) st0 i e (prob ++ [cur])])
    refine ⟨(if i = 0 ∧ (s0 : Int) = hmm.initial_state_ then (1, kNoState)
               else hmm.bestPathTo (s0 : Int) st0 i e (prob ++ [cur])) :: tail, ?_, ?_, ?_⟩
    · rw [viterbiRowLoop, h1]
      simp
    · simp [h2]
    · intro j st hst
      cases j with
      | zero =>
        simp only [List.getElem?_cons_zero, Option.some.injEq] at hst
        subst hst
        simp
      | succ j =>
        simp only [List.getElem?_cons_succ] at hst
        have := h3 j st hst
        simp only [List.getElem?_cons_succ, List.take_succ_cons]
        rw [this]
        have he : s0 + 1 + j = s0 + (j + 1) := by omega
        simp [he]

theorem viterbiRows_spec {E : Type} (hmm : HMM) (states : List (StateObj E)) :
    ∀ (es : List E) (prob : ViterbiMatrix),
      ∃ rows, viterbiRows hmm states es prob = prob ++ rows ∧ rows.length = es.length ∧
        ∀ (j : Nat) (e : E), es[j]? = some e →
          rows[j]? = some (viterbiRowLoop hmm (prob.length + j) (some e)
            (prob ++ rows.take j) 0 states [])
  | [], prob => ⟨[], by simp [viterbiRows], rfl, by intro j e h; simp at h⟩
  | e0 :: rest, prob => by
    obtain ⟨rows, h1, h2, h3⟩ := viterbiRows_spec hmm states rest
      (prob ++ [viterbiRowLoop hmm prob.length (some e0) prob 0 states []])
    refine ⟨viterbiRowLoop hmm prob.length (some e0) prob 0 states [] :: rows, ?_, ?_, ?_⟩
    · rw [viterbiRows, h1]
      simp
    · simp [h2]
    · intro j e he
      cases j with
      | zero =>
        simp only [List.getElem?_cons_zero, Option.some.injEq] at he
        subst he
        simp
      | succ j =>
        simp only [List.getElem?_cons_succ] at he
        have := h3 j e he
        simp only [List.getElem?_cons_succ, List.take_succ_cons]
        rw [this]
        have hl : (prob ++ [viterbiRowLoop hmm prob.length (some e0) prob 0 states []]).length + j
            = prob.length + (j + 1) := by simp; omega
        rw [hl]
        simp

theorem cellAt_nat (row : List ProbStateId) (s : Nat) :
    cellAt row (s : Int) = (row[s]?).getD (0, kNoState) := by
  unfold cellAt vectorAt
  rw [if_neg (by omega), Int.toNat_ofNat]

theorem cellAt_take (row : List ProbStateId) (s : Nat) (t : Int) (ht : t < (s : Int)) :
    cellAt (row.take s) t = cellAt row t := by
  unfold cellAt vectorAt
  by_cases h : t < 0
  · rw [if_pos h, if_pos h]
  · rw [if_neg h, if_neg h, List.getElem?_take_of_lt (by omega)]

theorem bestPathTo_silent {E : Type} (hmm : HMM) (s : Int) (st : StateObj E) (i : Nat)
    (e : Option E) (prob : ViterbiMatrix) (cur : List ProbStateId) (hs : st.isSilent = true)
    (hl : prob.length = i) :
    hmm.bestPathTo s st i e (prob ++ [cur])
      = bestPathScan cur 1 ((vectorAt hmm.inv_transitions_ s).getD []) (0, kNoState) := by
  unfold HMM.bestPathTo
  rw [if_pos hs]
  have : (prob ++ [cur]).getD i [] = cur := by
    rw [List.getD_eq_getElem?_getD, List.getElem?_append_right (by omega)]
    simp [hl]
  rw [this]

theorem bestPathTo_emitting {E : Type} (hmm : HMM) (s : Int) (st : StateObj E) (i : Nat)
    (e : E) (prob : ViterbiMatrix) (cur : List ProbStateId) (hs : st.isSilent = false)
    (hl : prob.length = i + 1) :
    hmm.bestPathTo s st (i + 1) (some e) (prob ++ [cur])
      = bestPathScan (prob.getD i []) (st.prob e)
          ((vectorAt hmm.inv_transitions_ s).getD []) (0, kNoState) := by
  unfold HMM.bestPathTo
  rw [if_neg (by simp [hs])]
  simp only
  have : (prob ++ [cur]).getD i [] = prob.getD i [] := by
    rw [List.getD_eq_getElem?_getD, List.getD_eq_getElem?_getD,
      List.getElem?_append_left (by omega)]
  rw [this]

theorem bestPathTo_emitting_zero {E : Type} (hmm : HMM) (s : Int) (st : StateObj E)
    (e : Option E) (prob : ViterbiMatrix) (hs : st.isSilent = false) :
    hmm.bestPathTo s st 0 e prob = (0, kNoState) := by
  unfold HMM.bestPathTo
  rw [if_neg (by simp [hs])]

theorem matrix_rows {E : Type} (hmm : HMM) (emissions : List E) (states : List (StateObj E)) :
    ∃ rows, hmm.computeViterbiMatrix emissions states
        = viterbiRowLoop hmm 0 none [] 0 states [] :: rows ∧
      rows.length = emissions.length ∧
      ∀ (j : Nat) (e : E), emissions[j]? = some e →
        rows[j]? = some (viterbiRowLoop hmm (j + 1) (some e)
          (viterbiRowLoop hmm 0 none [] 0 states [] :: rows.take j) 0 states []) := by
  obtain ⟨rows, h1, h2, h3⟩ := viterbiRows_spec hmm states emissions
    [viterbiRowLoop hmm 0 none [] 0 states []]
  refine ⟨rows, ?_, h2, ?_⟩
  · unfold HMM.computeViterbiMatrix
    rw [h1]
    rfl
  · intro j e he
    rw [h3 j e he]
    simp [Nat.add_comm]

theorem cell_zero {E : Type} (hmm : HMM) (emissions : List E) (states : List (StateObj E))
    (s : Nat) (st : StateObj E) (hst : states[s]? = some st) :
    cellAt ((hmm.computeViterbiMatrix emissions states).getD 0 []) (s : Int)
      = if (s : Int) = hmm.initial_state_ then (1, kNoState)
        else if st.isSilent then
          bestPathScan (((hmm.computeViterbiMatrix emissions states).getD 0 []).take s) 1
            ((vectorAt hmm.inv_transitions_ (s : Int)).getD []) (0, kNoState)
        else (0, kNoState) := by
  obtain ⟨rows, hM, _, _⟩ := matrix_rows hmm emissions states
  obtain ⟨tail, ht1, _, ht3⟩ := viterbiRowLoop_spec hmm 0 (none : Option E) [] states 0 []
  rw [hM]
  simp only [List.getD_cons_zero]
  rw [ht1, cellAt_nat]
  simp only [List.nil_append] at ht3 ⊢
  rw [ht3 s st hst]
  simp only [Option.getD_some, zero_add, true_and]
  split_ifs with h1 h2
  · rfl
  · have := bestPathTo_silent hmm (s : Int) st 0 (none : Option E) [] (tail.take s) h2 rfl
    simp only [List.nil_append] at this
    exact this
  · exact bestPathTo_emitting_zero hmm (s : Int) st none _ (by simpa using h2)

theorem cell_succ {E : Type} (hmm : HMM) (emissions : List E) (states : List (StateObj E))
    (i : Nat) (e : E) (he : emissions[i]? = some e)
    (s : Nat) (st : StateObj E) (hst : states[s]? = some st) :
    cellAt ((hmm.computeViterbiMatrix emissions states).getD (i + 1) []) (s : Int)
      = if st.isSilent then
          bestPathScan (((hmm.computeViterbiMatrix emissions states).getD (i + 1) []).take s) 1
            ((vectorAt hmm.inv_transitions_ (s : Int)).getD []) (0, kNoState)
        else
          bestPathScan ((hmm.computeViterbiMatrix emissions states).getD i []) (st.prob e)
            ((vectorAt hmm.inv_transitions_ (s : Int)).getD []) (0, kNoState) := by
  obtain ⟨rows, hM, hlen, hrows⟩ := matrix_rows hmm emissions states
  have hi : i < rows.length := by
    rw [hlen]
    by_contra hc
    rw [List.getElem?_eq_none (by omega)] at he
    exact absurd he (by simp)
  obtain ⟨tail, ht1, _, ht3⟩ := viterbiRowLoop_spec hmm (i + 1) (some e)
    (viterbiRowLoop hmm 0 none [] 0 states [] :: rows.take i) states 0 []
  have hrow : (hmm.computeViterbiMatrix emissions states).getD (i + 1) [] = tail := by
    rw [hM, List.getD_cons_succ, List.getD_eq_getElem?_getD, hrows i e he, ht1]
    simp
  have hprev : (viterbiRowLoop hmm 0 none [] 0 states [] :: rows.take i).getD i []
      = (hmm.computeViterbiMatrix emissions states).getD i [] := by
    rw [hM]
    cases i with
    | zero => simp
    | succ j =>
      simp only [List.getD_cons_succ, List.getD_eq_getElem?_getD, List.getElem?_cons_succ]
      rw [List.getElem?_take_of_lt (Nat.lt_succ_self j)]
  have hpl : (viterbiRowLoop hmm 0 none [] 0 states [] :: rows.take i).length = i + 1 := by
    simp [List.length_take]; omega
  rw [hrow, cellAt_nat]
  simp only [List.nil_append] at ht3
  rw [ht3 s st hst]
  simp only [Option.getD_some, zero_add]
  rw [if_neg (by omega)]
  split_ifs with h2
  · exact bestPathTo_silent hmm (s : Int) st (i + 1) (some e) _ (tail.take s) h2 hpl
  · rw [bestPathTo_emitting hmm (s : Int) st i e _ (tail.take s) (by simpa using h2) hpl, hprev]

theorem vectorAt_nat {α : Type} (v : List α) (s : Nat) : vectorAt v (s : Int) = v[s]? := by
  unfold vectorAt
  rw [if_neg (by omega), Int.toNat_ofNat]

theorem vectorAt_some {α : Type} {v : List α} {i : Int} {a : α} (h : vectorAt v i = some a) :
    ∃ n : Nat, i = (n : Int) ∧ n < v.length ∧ v[n]? = some a := by
  unfold vectorAt at h
  split_ifs at h with hneg
  refine ⟨i.toNat, by omega, ?_, h⟩
  by_contra hc
  rw [List.getElem?_eq_none (by omega)] at h
  exact absurd h (by simp)

theorem validated_of_constructChecked {E : Type} (initial_state : Int)
    (transitions : List (List Transition)) (states : List (StateObj E)) (hmm : HMM)
    (hwf : WellFormedTopology initial_state transitions states)
    (hnn : NonnegProbs transitions states)
    (hcon : HMM.constructChecked initial_state transitions states = Except.ok hmm) :
    hmm.initial_state_ = initial_state ∧ hmm.transitions_ = transitions ∧
      ValidatedHmm hmm states := by
  obtain ⟨hmm1, hc1, hi, ht, hinv⟩ := construct_spec initial_state transitions hwf.2.2.2
  obtain ⟨inv, hinv1, _, hget⟩ := computeInvTransitions_spec transitions hwf.2.2.2
  have hnum : hmm1.num_states_ = (transitions.length : Int) := by
    unfold HMM.construct at hc1
    rw [hinv1] at hc1
    simp only [Except.ok.injEq] at hc1
    rw [← hc1]
  have heq : hmm = hmm1 := by
    unfold HMM.constructChecked at hcon
    rw [hc1] at hcon
    simp only at hcon
    cases hv : hmm1.isValid states with
    | error e => rw [hv] at hcon; simp at hcon
    | ok u =>
      rw [hv] at hcon
      simp only [Except.ok.injEq] at hcon
      exact hcon.symm
  subst heq
  have hdef : ¬ (InitialNotSilent initial_state states ∨ TargetsInitial initial_state transitions ∨
        SilentFromHigher transitions states) := by
    rcases constructChecked_cases initial_state transitions states hwf with
      ⟨_, hnone⟩ | ⟨herr, _⟩
    · exact hnone
    · rw [hcon] at herr
      exact absurd herr (by simp)
  simp only [not_or] at hdef
  rw [hinv] at hinv1
  have hiv := Option.some.inj hinv1
  refine ⟨hi, ht, ?_⟩
  exact
    { len := by rw [ht]; exact hwf.1
      num := by rw [ht]; exact hnum
      inv := by rw [ht, hiv]; exact hget
      initial := by rw [hi, ht]; exact ⟨hwf.2.1, hwf.2.2.1⟩
      dest := by rw [ht]; exact hwf.2.2.2
      noInitial := by rw [hi, ht]; exact hdef.2.1
      noHigher := by rw [ht]; exact hdef.2.2
      nonneg := by rw [ht]; exact hnn }

theorem inv_getD {E : Type} {hmm : HMM} {states : List (StateObj E)}
    (hv : ValidatedHmm hmm states) (s : Nat) (hs : s < states.length) :
    (vectorAt hmm.inv_transitions_ (s : Int)).getD []
      = incomingEdges (s : Int) 0 hmm.transitions_ := by
  rw [vectorAt_nat, hv.inv s (by rw [← hv.len]; exact hs)]
  rfl

theorem edge_of_incoming {E : Type} {hmm : HMM} {states : List (StateObj E)}
    (hv : ValidatedHmm hmm states) (s : Nat) (st : StateObj E) (hst : states[s]? = some st)
    (tr : Transition) (htr : tr ∈ incomingEdges (s : Int) 0 hmm.transitions_) :
    ∃ (t : Nat) (row : List Transition), tr.to_state_ = (t : Int) ∧
      t < states.length ∧ hmm.transitions_[t]? = some row ∧
      ({ to_state_ := (s : Int), prob_ := tr.prob_ } : Transition) ∈ row ∧
      0 ≤ tr.prob_ ∧ (st.isSilent = true → t < s) := by
  obtain ⟨j, row, hrow, hto, hmem⟩ := (mem_incomingEdges (s : Int) tr hmm.transitions_ 0).1 htr
  simp only [zero_add] at hto
  have hj : j < hmm.transitions_.length := by
    by_contra hc
    rw [List.getElem?_eq_none (by omega)] at hrow
    exact absurd hrow (by simp)
  refine ⟨j, row, hto, by rw [hv.len]; exact hj, hrow, hmem, ?_, ?_⟩
  · exact hv.nonneg.1 row (List.mem_iff_getElem?.2 ⟨j, hrow⟩)
      { to_state_ := (s : Int), prob_ := tr.prob_ } hmem
  · intro hsil
    by_contra hc
    apply hv.noHigher
    refine ⟨j, row, _, st, hrow, hmem, ?_, hsil, ?_⟩
    · simp only
      rw [vectorAt_nat]
      exact hst
    · simp only
      omega

theorem cell_silent {E : Type} {hmm : HMM} {states : List (StateObj E)}
    (hv : ValidatedHmm hmm states) (emissions : List E) (i : Nat) (hi : i ≤ emissions.length)
    (s : Nat) (st : StateObj E) (hst : states[s]? = some st) (hsil : st.isSilent = true)
    (hne : ¬ (i = 0 ∧ (s : Int) = hmm.initial_state_)) :
    cellAt ((hmm.computeViterbiMatrix emissions states).getD i []) (s : Int)
      = bestPathScan ((hmm.computeViterbiMatrix emissions states).getD i []) 1
          (incomingEdges (s : Int) 0 hmm.transitions_) (0, kNoState) := by
  have hs : s < states.length := by
    by_contra hc
    rw [List.getElem?_eq_none (by omega)] at hst
    exact absurd hst (by simp)
  have hcongr : ∀ row : List ProbStateId,
      bestPathScan (row.take s) 1 (incomingEdges (s : Int) 0 hmm.transitions_) (0, kNoState)
        = bestPathScan row 1 (incomingEdges (s : Int) 0 hmm.transitions_) (0, kNoState) := by
    intro row
    apply bestPathScan_congr
    intro tr htr
    obtain ⟨t, _, hto, _, _, _, _, hlt⟩ := edge_of_incoming hv s st hst tr htr
    rw [hto]
    exact cellAt_take row s (t : Int) (by have := hlt hsil; omega)
  cases i with
  | zero =>
    rw [cell_zero hmm emissions states s st hst, if_neg (fun h => hne ⟨rfl, h⟩), if_pos hsil,
      inv_getD hv s hs, hcongr]
  | succ j =>
    have hj : j < emissions.length := by omega
    rw [cell_succ hmm emissions states j emissions[j] (List.getElem?_eq_getElem hj) s st hst,
      if_pos hsil, inv_getD hv s hs, hcongr]

theorem cell_emitting {E : Type} {hmm : HMM} {states : List (StateObj E)}
    (hv : ValidatedHmm hmm states) (emissions : List E) (i : Nat) (e : E)
    (he : emissions[i]? = some e)
    (s : Nat) (st : StateObj E) (hst : states[s]? = some st) (hsil : st.isSilent = false) :
    cellAt ((hmm.computeViterbiMatrix emissions states).getD (i + 1) []) (s : Int)
      = bestPathScan ((hmm.computeViterbiMatrix emissions states).getD i []) (st.prob e)
          (incomingEdges (s : Int) 0 hmm.transitions_) (0, kNoState) := by
  have hs : s < states.length := by
    by_contra hc
    rw [List.getElem?_eq_none (by omega)] at hst
    exact absurd hst (by simp)
  rw [cell_succ hmm emissions states i e he s st hst, if_neg (by simp [hsil]), inv_getD hv s hs]

theorem pos_of_mul_pos_three (a p e : ℚ) (hp : 0 ≤ p) (he : 0 ≤ e) (h : 0 < a * p * e) :
    0 < a := by
  by_contra hc
  have ha : a ≤ 0 := not_lt.1 hc
  have hpe : 0 ≤ p * e := mul_nonneg hp he
  have : a * p * e ≤ 0 := by
    rw [mul_assoc]
    exact mul_nonpos_of_nonpos_of_nonneg ha hpe
  exact absurd h (not_lt.2 this)

theorem getElem?_of_lt {α : Type} (l : List α) (n : Nat) (h : n < l.length) :
    ∃ a, l[n]? = some a := ⟨l[n], List.getElem?_eq_getElem h⟩

theorem path_le_cell {E : Type} {hmm : HMM} {states : List (StateObj E)}
    (hv : ValidatedHmm hmm states) (emissions : List E) :
    ∀ (i : Nat) (s : Int) (path : List Int) (q : ℚ),
      PathTo hmm states emissions i s path q →
      i ≤ emissions.length ∧ (∃ sn : Nat, s = (sn : Int) ∧ sn < states.length) ∧
      q ≤ (cellAt ((hmm.computeViterbiMatrix emissions states).getD i []) s).1 := by
  intro i s path q h
  induction h with
  | initial =>
    have hin := hv.initial
    have hsn : hmm.initial_state_.toNat < states.length := by rw [hv.len]; omega
    have hcast : hmm.initial_state_ = ((hmm.initial_state_.toNat : Nat) : Int) := by omega
    obtain ⟨st, hst⟩ := getElem?_of_lt states _ hsn
    refine ⟨Nat.zero_le _, ⟨_, hcast, hsn⟩, ?_⟩
    rw [hcast, cell_zero hmm emissions states _ st hst, if_pos hcast.symm]
  | silent i t s path q row tr st _ hrow htr hto hst hsil ih =>
    obtain ⟨hi, ⟨tn, rfl, htn⟩, hq⟩ := ih
    obtain ⟨sn, rfl, hsn, hst'⟩ := vectorAt_some hst
    rw [vectorAt_nat] at hrow
    have hp : 0 ≤ tr.prob_ := hv.nonneg.1 row (List.mem_iff_getElem?.2 ⟨tn, hrow⟩) tr htr
    have hne : ¬ (i = 0 ∧ ((sn : Nat) : Int) = hmm.initial_state_) := by
      rintro ⟨_, h2⟩
      exact hv.noInitial ⟨tn, row, tr, hrow, htr, by rw [hto, h2]⟩
    have hmem : ({ to_state_ := (tn : Int), prob_ := tr.prob_ } : Transition)
        ∈ incomingEdges (sn : Int) 0 hmm.transitions_ := by
      refine (mem_incomingEdges (sn : Int) _ hmm.transitions_ 0).2 ⟨tn, row, hrow, by simp, ?_⟩
      have : ({ to_state_ := (sn : Int), prob_ := tr.prob_ } : Transition) = tr := by
        cases tr
        simp only [Transition.mk.injEq, and_true] at hto ⊢
        exact hto.symm
      simp only
      rw [this]
      exact htr
    refine ⟨hi, ⟨sn, rfl, hsn⟩, ?_⟩
    rw [cell_silent hv emissions i hi sn st hst' hsil hne]
    have hge := (bestPathScan_ge ((hmm.computeViterbiMatrix emissions states).getD i []) 1
      (incomingEdges (sn : Int) 0 hmm.transitions_) (0, kNoState)).2 _ hmem
    simp only [mul_one] at hge
    exact le_trans (mul_le_mul_of_nonneg_right hq hp) hge
  | emitting i t s path q row tr st e _ hrow htr hto hst hsil he ih =>
    obtain ⟨_, ⟨tn, rfl, htn⟩, hq⟩ := ih
    obtain ⟨sn, rfl, hsn, hst'⟩ := vectorAt_some hst
    rw [vectorAt_nat] at hrow
    have hp : 0 ≤ tr.prob_ := hv.nonneg.1 row (List.mem_iff_getElem?.2 ⟨tn, hrow⟩) tr htr
    have hem : 0 ≤ st.prob e := hv.nonneg.2 st (List.mem_iff_getElem?.2 ⟨sn, hst'⟩) e
    have hi1 : i + 1 ≤ emissions.length := by
      by_contra hc
      rw [List.getElem?_eq_none (by omega)] at he
      exact absurd he (by simp)
    have hmem : ({ to_state_ := (tn : Int), prob_ := tr.prob_ } : Transition)
        ∈ incomingEdges (sn : Int) 0 hmm.transitions_ := by
      refine (mem_incomingEdges (sn : Int) _ hmm.transitions_ 0).2 ⟨tn, row, hrow, by simp, ?_⟩
      have : ({ to_state_ := (sn : Int), prob_ := tr.prob_ } : Transition) = tr := by
        cases tr
        simp only [Transition.mk.injEq, and_true] at hto ⊢
        exact hto.symm
      simp only
      rw [this]
      exact htr
    refine ⟨hi1, ⟨sn, rfl, hsn⟩, ?_⟩
    rw [cell_emitting hv emissions i e he sn st hst' hsil]
    have hge := (bestPathScan_ge ((hmm.computeViterbiMatrix emissions states).getD i [])
      (st.prob e) (incomingEdges (sn : Int) 0 hmm.transitions_) (0, kNoState)).2 _ hmem
    exact le_trans (mul_le_mul_of_nonneg_right (mul_le_mul_of_nonneg_right hq hp) hem) hge

theorem cell_sound {E : Type} {hmm : HMM} {states : List (StateObj E)}
    (hv : ValidatedHmm hmm states) (emissions : List E) :
    ∀ (m i s : Nat) (st : StateObj E), i * states.length + s = m → i ≤ emissions.length →
      states[s]? = some st →
      0 < (cellAt ((hmm.computeViterbiMatrix emissions states).getD i []) (s : Int)).1 →
      ∃ path, PathTo hmm states emissions i (s : Int) path
          (cellAt ((hmm.computeViterbiMatrix emissions states).getD i []) (s : Int)).1 ∧
        ∀ (fuel : Nat) (acc : List Int), i * states.length + s < fuel →
          backtrackLoop states
            (fun row state =>
              (cellAt ((hmm.computeViterbiMatrix emissions states).getD row []) state).2)
            fuel (s : Int) i ((s : Int) :: acc) = path ++ acc := by
  intro m
  induction m using Nat.strong_induction_on with
  | _ m ih =>
    intro i s st hm hi hst hpos
    have hs : s < states.length := by
      by_contra hc
      rw [List.getElem?_eq_none (by omega)] at hst
      exact absurd hst (by simp)
    by_cases h0 : i = 0 ∧ (s : Int) = hmm.initial_state_
    · obtain ⟨rfl, h0s⟩ := h0
      have hcell := cell_zero hmm emissions states s st hst
      rw [if_pos h0s] at hcell
      refine ⟨[(s : Int)], ?_, ?_⟩
      · rw [hcell, h0s]
        exact PathTo.initial
      · intro fuel acc hf
        obtain ⟨f, rfl⟩ : ∃ f, fuel = f + 1 := ⟨fuel - 1, by omega⟩
        rw [backtrackLoop]
        simp only [hcell, if_true, List.singleton_append]
    · cases hsil : st.isSilent with
      | true =>
        have hcell := cell_silent hv emissions i hi s st hst hsil h0
        rcases bestPathScan_cases ((hmm.computeViterbiMatrix emissions states).getD i []) 1
            (incomingEdges (s : Int) 0 hmm.transitions_) (0, kNoState) with hz | ⟨tr, htr, hval, hgt⟩
        · rw [hcell, hz] at hpos
          exact absurd hpos (lt_irrefl _)
        · obtain ⟨t, row, hto, htn, hrow, hmem, hp, hlt⟩ := edge_of_incoming hv s st hst tr htr
          have hts := hlt hsil
          rw [hto] at hval hgt
          simp only [mul_one] at hval hgt
          obtain ⟨stt, hstt⟩ := getElem?_of_lt states t htn
          have hpt : 0 < (cellAt ((hmm.computeViterbiMatrix emissions states).getD i [])
              (t : Int)).1 := by
            apply pos_of_mul_pos_three _ tr.prob_ 1 hp zero_le_one
            simpa using hgt
          obtain ⟨path, hpath, hback⟩ := ih (i * states.length + t) (by omega) i t stt rfl hi
            hstt hpt
          refine ⟨path ++ [(s : Int)], ?_, ?_⟩
          · rw [hcell, hval]
            exact PathTo.silent i (t : Int) (s : Int) path _ row
              { to_state_ := (s : Int), prob_ := tr.prob_ } st hpath
              (by rw [vectorAt_nat]; exact hrow) hmem rfl (by rw [vectorAt_nat]; exact hst) hsil
          · intro fuel acc hf
            obtain ⟨f, rfl⟩ : ∃ f, fuel = f + 1 := ⟨fuel - 1, by omega⟩
            rw [backtrackLoop]
            have hnext : (cellAt ((hmm.computeViterbiMatrix emissions states).getD i [])
                (s : Int)).2 = (t : Int) := by rw [hcell, hval]
            simp only [hnext]
            rw [if_neg (by unfold kNoState; omega), vectorAt_nat, hst]
            simp only [hsil, if_true]
            rw [hback f ((s : Int) :: acc) (by omega)]
            simp
      | false =>
        cases i with
        | zero =>
          have hcell := cell_zero hmm emissions states s st hst
          rw [if_neg (fun h => h0 ⟨rfl, h⟩), if_neg (by simp [hsil])] at hcell
          rw [hcell] at hpos
          exact absurd hpos (lt_irrefl _)
        | succ j =>
          have hj : j < emissions.length := by omega
          have he : emissions[j]? = some emissions[j] := List.getElem?_eq_getElem hj
          have hcell := cell_emitting hv emissions j emissions[j] he s st hst hsil
          have hem : 0 ≤ st.prob emissions[j] :=
            hv.nonneg.2 st (List.mem_iff_getElem?.2 ⟨s, hst⟩) _
          rcases bestPathScan_cases ((hmm.computeViterbiMatrix emissions states).getD j [])
              (st.prob emissions[j]) (incomingEdges (s : Int) 0 hmm.transitions_)
              (0, kNoState) with hz | ⟨tr, htr, hval, hgt⟩
          · rw [hcell, hz] at hpos
            exact absurd hpos (lt_irrefl _)
          · obtain ⟨t, row, hto, htn, hrow, hmem, hp, _⟩ := edge_of_incoming hv s st hst tr htr
            rw [hto] at hval hgt
            obtain ⟨stt, hstt⟩ := getElem?_of_lt states t htn
            have hpt : 0 < (cellAt ((hmm.computeViterbiMatrix emissions states).getD j [])
                (t : Int)).1 := by
              apply pos_of_mul_pos_three _ tr.prob_ (st.prob emissions[j]) hp hem
              simpa using hgt
            have hlt : j * states.length + t < m := by
              rw [← hm, Nat.succ_mul]
              omega
            obtain ⟨path, hpath, hback⟩ := ih (j * states.length + t) hlt j t stt rfl
              (by omega) hstt hpt
            refine ⟨path ++ [(s : Int)], ?_, ?_⟩
            · rw [hcell, hval]
              exact PathTo.emitting j (t : Int) (s : Int) path _ row
                { to_state_ := (s : Int), prob_ := tr.prob_ } st emissions[j] hpath
                (by rw [vectorAt_nat]; exact hrow) hmem rfl (by rw [vectorAt_nat]; exact hst)
                hsil he
            · intro fuel acc hf
              obtain ⟨f, rfl⟩ : ∃ f, fuel = f + 1 := ⟨fuel - 1, by omega⟩
              rw [backtrackLoop]
              have hnext : (cellAt ((hmm.computeViterbiMatrix emissions states).getD (j + 1) [])
                  (s : Int)).2 = (t : Int) := by rw [hcell, hval]
              simp only [hnext]
              rw [if_neg (by unfold kNoState; omega), vectorAt_nat, hst]
              simp only [hsil, Bool.false_eq_true, if_false, Nat.add_sub_cancel]
              rw [Nat.succ_mul] at hf
              rw [hback f ((s : Int) :: acc) (by omega)]
              simp

theorem pathTo_ne_nil {E : Type} {hmm : HMM} {states : List (StateObj E)}
    {emissions : List E} {i : Nat} {s : Int} {path : List Int} {q : ℚ}
    (h : PathTo hmm states emissions i s path q) : path ≠ [] := by
  cases h <;> simp

theorem row_length {E : Type} (hmm : HMM) (emissions : List E) (states : List (StateObj E))
    (i : Nat) (hi : i ≤ emissions.length) :
    ((hmm.computeViterbiMatrix emissions states).getD i []).length = states.length := by
  obtain ⟨rows, hM, hlen, hrows⟩ := matrix_rows hmm emissions states
  rw [hM]
  cases i with
  | zero =>
    obtain ⟨tail, ht1, ht2, _⟩ := viterbiRowLoop_spec hmm 0 (none : Option E) [] states 0 []
    simp only [List.getD_cons_zero]
    rw [ht1]
    simpa using ht2
  | succ j =>
    have hj : j < emissions.length := by omega
    have he : emissions[j]? = some emissions[j] := List.getElem?_eq_getElem hj
    obtain ⟨tail, ht1, ht2, _⟩ := viterbiRowLoop_spec hmm (j + 1) (some emissions[j])
      (viterbiRowLoop hmm 0 none [] 0 states [] :: rows.take j) states 0 []
    rw [List.getD_cons_succ, List.getD_eq_getElem?_getD, hrows j _ he, ht1]
    simpa using ht2

theorem bestLastScan_spec :
    ∀ (l : List ProbStateId) (s0 : Nat) (best : ProbStateId),
      best.1 ≤ (bestLastScan s0 l best).1 ∧
      (∀ (j : Nat) (c : ProbStateId), l[j]? = some c → c.1 ≤ (bestLastScan s0 l best).1) ∧
      (bestLastScan s0 l best = best ∨
        ∃ (j : Nat) (c : ProbStateId), l[j]? = some c ∧
          bestLastScan s0 l best = (c.1, ((s0 + j : Nat) : Int)) ∧ best.1 < c.1)
  | [], s0, best => ⟨le_refl _, by intro j c h; simp at h, Or.inl rfl⟩
  | cell :: rest, s0, best => by
    rw [bestLastScan]
    split_ifs with h
    · obtain ⟨h1, h2, h3⟩ := bestLastScan_spec rest (s0 + 1) (cell.1, (s0 : Int))
      refine ⟨le_trans (le_of_lt h) h1, ?_, ?_⟩
      · intro j c hc
        cases j with
        | zero =>
          simp only [List.getElem?_cons_zero, Option.some.injEq] at hc
          subst hc
          exact h1
        | succ j =>
          simp only [List.getElem?_cons_succ] at hc
          exact h2 j c hc
      · right
        rcases h3 with h3 | ⟨j, c, hc, hr, hlt⟩
        · exact ⟨0, cell, by simp, by rw [h3]; simp, h⟩
        · refine ⟨j + 1, c, by simpa using hc, ?_, lt_trans h hlt⟩
          rw [hr]
          have he : s0 + 1 + j = s0 + (j + 1) := by omega
          rw [he]
    · obtain ⟨h1, h2, h3⟩ := bestLastScan_spec rest (s0 + 1) best
      refine ⟨h1, ?_, ?_⟩
      · intro j c hc
        cases j with
        | zero =>
          simp only [List.getElem?_cons_zero, Option.some.injEq] at hc
          subst hc
          exact le_trans (not_lt.1 h) h1
        | succ j =>
          simp only [List.getElem?_cons_succ] at hc
          exact h2 j c hc
      · rcases h3 with h3 | ⟨j, c, hc, hr, hlt⟩
        · exact Or.inl h3
        · right
          refine ⟨j + 1, c, by simpa using hc, ?_, hlt⟩
          rw [hr]
          have he : s0 + 1 + j = s0 + (j + 1) := by omega
          rw [he]

/-- C19. For an HMM that was constructed and validated on `states` (probabilities not
negative) and every finite emission sequence: if no path from the initial state that
consumes the whole sequence has positive probability, `runViterbiReturnStateIds` returns
the empty path, and only then; otherwise what it returns is such a path (silent states
included), whose probability, the product of its edge probabilities and of the emission
probabilities of its emitting states, is positive and at least that of every path that
consumes the whole sequence. -/
theorem runViterbi_returns_best_path {E : Type} (initial_state : Int)
    (transitions : List (List Transition)) (states : List (StateObj E)) (hmm : HMM)
    (emissions : List E)
    (hwf : WellFormedTopology initial_state transitions states)
    (hnn : NonnegProbs transitions states)
    (hcon : HMM.constructChecked initial_state transitions states = Except.ok hmm) :
    (hmm.runViterbiReturnStateIds emissions states = [] ↔
      ∀ (s : Int) (path : List Int) (q : ℚ),
        PathTo hmm states emissions emissions.length s path q → q ≤ 0) ∧
    ((∃ (s : Int) (path : List Int) (q : ℚ),
        PathTo hmm states emissions emissions.length s path q ∧ 0 < q) →
      ∃ (s : Int) (q : ℚ),
        PathTo hmm states emissions emissions.length s
          (hmm.runViterbiReturnStateIds emissions states) q ∧ 0 < q ∧
        ∀ (s1 : Int) (path1 : List Int) (q1 : ℚ),
          PathTo hmm states emissions emissions.length s1 path1 q1 → q1 ≤ q) := by
  obtain ⟨_, _, hv⟩ := validated_of_constructChecked initial_state transitions states hmm
    hwf hnn hcon
  have hlen := row_length hmm emissions states emissions.length (le_refl _)
  obtain ⟨hb1, hb2, hb3⟩ := bestLastScan_spec
    ((hmm.computeViterbiMatrix emissions states).getD emissions.length []) 0 (0, kNoState)
  have hopt : ∀ (s : Int) (path : List Int) (q : ℚ),
      PathTo hmm states emissions emissions.length s path q →
      q ≤ (bestLastScan 0 ((hmm.computeViterbiMatrix emissions states).getD
        emissions.length []) (0, kNoState)).1 := by
    intro s path q hp
    obtain ⟨_, ⟨sn, rfl, hsn⟩, hq⟩ := path_le_cell hv emissions _ _ _ _ hp
    obtain ⟨c, hc⟩ := getElem?_of_lt
      ((hmm.computeViterbiMatrix emissions states).getD emissions.length []) sn
      (by rw [hlen]; exact hsn)
    rw [cellAt_nat, hc] at hq
    exact le_trans hq (hb2 sn c hc)
  rcases hb3 with hz | ⟨j, c, hc, hr, hlt⟩
  · have hrun : hmm.runViterbiReturnStateIds emissions states = [] := by
      unfold HMM.runViterbiReturnStateIds
      dsimp only
      rw [if_pos (by rw [hz])]
    have hall : ∀ (s : Int) (path : List Int) (q : ℚ),
        PathTo hmm states emissions emissions.length s path q → q ≤ 0 := by
      intro s path q hp
      have := hopt s path q hp
      rw [hz] at this
      exact this
    refine ⟨⟨fun _ => hall, fun _ => hrun⟩, ?_⟩
    rintro ⟨s, path, q, hp, hq⟩
    exact absurd (hall s path q hp) (not_le.2 hq)
  · have hj : j < states.length := by
      by_contra hcon
      rw [List.getElem?_eq_none (by omega)] at hc
      exact absurd hc (by simp)
    obtain ⟨st, hst⟩ := getElem?_of_lt states j hj
    have hcell : cellAt ((hmm.computeViterbiMatrix emissions states).getD
        emissions.length []) (j : Int) = c := by
      rw [cellAt_nat, hc]
      rfl
    have hcpos : 0 < c.1 := hlt
    obtain ⟨path, hpath, hback⟩ := cell_sound hv emissions _ emissions.length j st rfl
      (le_refl _) hst (by rw [hcell]; exact hcpos)
    rw [hcell] at hpath
    have hnum : hmm.num_states_.toNat = states.length := by
      rw [hv.num, hv.len]
      exact Int.toNat_ofNat _
    have hrun : hmm.runViterbiReturnStateIds emissions states = path := by
      unfold HMM.runViterbiReturnStateIds
      dsimp only
      rw [hr, if_neg (ne_of_gt hcpos)]
      unfold HMM.backtrackMatrix
      simp only [zero_add]
      rw [hback _ [] (by rw [hnum, Nat.succ_mul]; omega)]
      simp
    have hbest : (bestLastScan 0 ((hmm.computeViterbiMatrix emissions states).getD
        emissions.length []) (0, kNoState)).1 = c.1 := by rw [hr]
    refine ⟨⟨?_, ?_⟩, ?_⟩
    · intro he
      rw [hrun] at he
      exact absurd he (pathTo_ne_nil hpath)
    · intro hall
      exact absurd (hall _ _ _ hpath) (not_le.2 hcpos)
    · intro _
      refine ⟨(j : Int), c.1, by rw [hrun]; exact hpath, hcpos, ?_⟩
      intro s1 path1 q1 hp
      have := hopt s1 path1 q1 hp
      rw [hbest] at this
      exact this

/-- Witness of C19: on the chain 0 (silent) -> 1 (silent) -> 2 -> 3 and two observations
the result is `[0, 1, 2, 3]`, a path of positive probability that no path consuming
both observations exceeds. -/
theorem runViterbi_returns_best_path_witness :
    WellFormedTopology 0 chainTransitions chainStates ∧
    NonnegProbs chainTransitions chainStates ∧
    HMM.constructChecked 0 chainTransitions chainStates = Except.ok chainHmm ∧
    chainHmm.runViterbiReturnStateIds [0, 0] chainStates = [0, 1, 2, 3] ∧
    ∃ (s : Int) (q : ℚ),
      PathTo chainHmm chainStates [0, 0] 2 s [0, 1, 2, 3] q ∧ 0 < q ∧
      ∀ (s1 : Int) (path1 : List Int) (q1 : ℚ),
        PathTo chainHmm chainStates [0, 0] 2 s1 path1 q1 → q1 ≤ q := by
  have hwf : WellFormedTopology 0 chainTransitions chainStates := by
    unfold WellFormedTopology
    decide
  have hnn : NonnegProbs chainTransitions chainStates := by
    unfold NonnegProbs
    constructor
    · intro row hrow tr htr
      simp only [chainTransitions, List.mem_cons, List.mem_singleton, List.not_mem_nil,
        or_false] at hrow
      rcases hrow with rfl | rfl | rfl | rfl <;> simp at htr <;> subst htr <;> norm_num
    · intro st hst e
      simp only [chainStates, List.mem_cons, List.mem_singleton, List.not_mem_nil,
        or_false] at hst
      rcases hst with rfl | rfl | rfl | rfl <;> simp [silentStateObj, halfStateObj]
  have hcon : HMM.constructChecked 0 chainTransitions chainStates = Except.ok chainHmm := rfl
  have hrun : chainHmm.runViterbiReturnStateIds [0, 0] chainStates = [0, 1, 2, 3] := by
    decide!
  have h := runViterbi_returns_best_path 0 chainTransitions chainStates chainHmm [0, 0]
    hwf hnn hcon
  have hex : ∃ (s : Int) (path : List Int) (q : ℚ),
      PathTo chainHmm chainStates [0, 0] ([0, 0] : List ℚ).length s path q ∧ 0 < q := by
    by_contra hc
    have hall : ∀ (s : Int) (path : List Int) (q : ℚ),
        PathTo chainHmm chainStates [0, 0] ([0, 0] : List ℚ).length s path q → q ≤ 0 := by
      intro s path q hp
      by_contra hq
      exact hc ⟨s, path, q, hp, not_le.1 hq⟩
    have hnil := h.1.2 hall
    rw [hrun] at hnil
    exact absurd hnil (by simp)
  have h2 := h.2 hex
  rw [hrun] at h2
  exact ⟨hwf, hnn, hcon, hrun, h2⟩

theorem kBases_get_of_lt (r : Nat) (hr : r < 4) : ∃ c, kBases.get? r = some c ∧ c ∈ kBases := by
  have h : r = 0 ∨ r = 1 ∨ r = 2 ∨ r = 3 := by omega
  rcases h with rfl | rfl | rfl | rfl <;> simp [kBases]

theorem decodeLoop_total :
    ∀ (m : Nat) (num : Int), num.toNat ≤ m →
      ∃ digits, (∀ (fuel : Nat) (res : List Char), num.toNat ≤ fuel →
          decodeLoop fuel num res = some (res ++ digits)) ∧
        (0 < num → digits ≠ []) ∧ (num ≤ 0 → digits = []) ∧ IsDna digits
  | 0, num, hm => by
    have hn : ¬ num > 0 := by omega
    refine ⟨[], ?_, fun h => absurd h hn, fun _ => rfl, by intro c hc; simp at hc⟩
    intro fuel res _
    cases fuel with
    | zero => simp [decodeLoop]
    | succ f => simp [decodeLoop, hn]
  | m + 1, num, hm => by
    by_cases hn : num > 0
    · have hq : (num / kNumBases).toNat ≤ m := by
        unfold kNumBases
        omega
      obtain ⟨digits, hd, _, _, hdna⟩ := decodeLoop_total m (num / kNumBases) hq
      have hr : (num % kNumBases).toNat < 4 := by
        unfold kNumBases
        omega
      obtain ⟨c, hc, hcm⟩ := kBases_get_of_lt _ hr
      refine ⟨c :: digits, ?_, fun _ => by simp, fun h => absurd hn (by omega), ?_⟩
      · intro fuel res hf
        obtain ⟨f, rfl⟩ : ∃ f, fuel = f + 1 := ⟨fuel - 1, by omega⟩
        rw [decodeLoop, if_pos hn, hc]
        simp only
        rw [hd f (res ++ [c]) (by unfold kNumBases; omega)]
        simp
      · intro x hx
        rcases List.mem_cons.1 hx with rfl | hx
        · exact hcm
        · exact hdna x hx
    · refine ⟨[], ?_, fun h => absurd h hn, fun _ => rfl, by intro c hc; simp at hc⟩
      intro fuel res _
      cases fuel with
      | zero => simp [decodeLoop]
      | succ f => simp [decodeLoop, hn]

/-- C21. For every `k ≥ 0` and every code `n` with `4^k ≤ n < 2 * 4^k`, `decodeKmer(n)`
returns a string of length exactly `k` over {A,C,T,G} whose encoding is `n`. For every
code `n ≥ 1` the loop of `decodeKmer` ends (no bound on the number of iterations from
`n` on changes its result) with a non-empty string over the alphabet, so that `pop_back`
is defined and `decodeKmer` returns; for `n ≤ 0` the loop leaves the string empty and
`pop_back` is undefined. -/
theorem decodeKmer_in_code_range (k : Nat) (n : Int) :
    ((4 : Int) ^ k ≤ n → n < 2 * (4 : Int) ^ k →
      ∃ w, decodeKmer n = some w ∧ w.length = k ∧ IsDna w ∧ encodeKmer w = some n) ∧
    (1 ≤ n →
      ∃ res, res ≠ [] ∧ IsDna res ∧
        (∀ fuel, n.toNat ≤ fuel → decodeLoop fuel n [] = some res) ∧
        decodeKmer n = some res.dropLast.reverse) ∧
    (n ≤ 0 →
      (∀ fuel, decodeLoop fuel n [] = some []) ∧ decodeKmer n = none) := by
  refine ⟨?_, ?_, ?_⟩
  · intro h1 h2
    have hv : (n - (4 : Int) ^ k).toNat < 4 ^ k := by
      have : ((4 ^ k : Nat) : Int) = (4 : Int) ^ k := by push_cast; rfl
      omega
    obtain ⟨w, hw, hval⟩ := exists_kmer_of_val k _ hv
    have hn : (4 : Int) ^ w.length + (kmerVal w : Int) = n := by
      rw [hw.1, hval]
      omega
    refine ⟨w, ?_, hw.1, hw.2, ?_⟩
    · rw [← hn]
      exact decodeKmer_code w hw.2
    · rw [← hn]
      exact encodeKmer_eq w hw.2
  · intro h1
    obtain ⟨digits, hd, hne, _, hdna⟩ := decodeLoop_total n.toNat n le_rfl
    have hd0 : ∀ fuel, n.toNat ≤ fuel → decodeLoop fuel n [] = some digits := by
      intro fuel hf
      simpa using hd fuel [] hf
    refine ⟨digits, hne (by omega), hdna, hd0, ?_⟩
    unfold decodeKmer
    rw [hd0 n.toNat le_rfl]
    simp only
    rw [if_neg (hne (by omega))]
  · intro h0
    have hl : ∀ fuel, decodeLoop fuel n [] = some [] := by
      intro fuel
      cases fuel with
      | zero => simp [decodeLoop]
      | succ f => simp [decodeLoop, not_lt.2 h0]
    refine ⟨hl, ?_⟩
    unfold decodeKmer
    rw [hl]
    simp

/-- Witness of C21 at k = 2 and the code 27 = 16 + 11, which decodes to TG; the string
before `pop_back` is GTC, the digits 3, 2 and the leading 1. -/
theorem decodeKmer_in_code_range_witness :
    (4 : Int) ^ 2 ≤ 27 ∧ (27 : Int) < 2 * (4 : Int) ^ 2 ∧
    (∃ w, decodeKmer 27 = some w ∧ w.length = 2 ∧ IsDna w ∧ encodeKmer w = some 27) ∧
    (∃ res, res ≠ [] ∧ IsDna res ∧
      (∀ fuel, (27 : Int).toNat ≤ fuel → decodeLoop fuel 27 [] = some res) ∧
      decodeKmer 27 = some res.dropLast.reverse) ∧
    decodeKmer 27 = some ['T', 'G'] ∧
    decodeLoop 27 27 [] = some ['G', 'T', 'C'] ∧
    decodeKmer 0 = none :=
  ⟨by decide, by decide,
   (decodeKmer_in_code_range 2 27).1 (by decide) (by decide),
   (decodeKmer_in_code_range 2 27).2.1 (by decide),
   by decide, by decide, ((decodeKmer_in_code_range 2 0).2.2 (by decide)).2⟩

theorem countRead_succeeds_iff (mt : Int) :
    ∀ (rest : List MoveKmer) (pid : Int) (cnt : CountMap),
      (∃ cnt1, countRead mt rest pid cnt = Except.ok cnt1) ↔
        ∀ e ∈ rest, (kmerToLexicographicPos e.kmer_).isSome = true ∧ e.move_ ≤ mt
  | [], pid, cnt => by simp [countRead]
  | entry :: rest, pid, cnt => by
    rw [countRead]
    cases hn : kmerToLexicographicPos entry.kmer_ with
    | none => simp [hn]
    | some next_state =>
      simp only
      by_cases hm : entry.move_ > mt
      · rw [if_pos hm]
        simp only [List.mem_cons, forall_eq_or_imp, hn, Option.isSome_some, true_and]
        constructor
        · rintro ⟨c, hc⟩
          exact absurd hc (by simp)
        · rintro ⟨h, _⟩
          omega
      · rw [if_neg hm, countRead_succeeds_iff mt rest next_state _]
        simp only [List.mem_cons, forall_eq_or_imp, hn, Option.isSome_some, true_and]
        constructor
        · intro h
          exact ⟨by omega, h⟩
        · intro h
          exact h.2

theorem countReads_succeeds_iff (mt : Int) :
    ∀ (reads : List (List MoveKmer)) (cnt : CountMap),
      (∃ cnt1, countReads mt reads cnt = Except.ok cnt1) ↔
        ∀ read ∈ reads, read ≠ [] ∧
          (∀ e ∈ read, (kmerToLexicographicPos e.kmer_).isSome = true) ∧
          ∀ e ∈ read.tail, e.move_ ≤ mt
  | [], cnt => by simp [countReads]
  | [] :: rest, cnt => by
    rw [countReads]
    constructor
    · rintro ⟨c, hc⟩
      exact absurd hc (by simp)
    · intro h
      exact absurd rfl (h [] (List.mem_cons_self _ _)).1
  | (first :: tail) :: rest, cnt => by
    rw [countReads]
    cases hf : kmerToLexicographicPos first.kmer_ with
    | none =>
      constructor
      · rintro ⟨c, hc⟩
        exact absurd hc (by simp)
      · intro h
        have := (h (first :: tail) (List.mem_cons_self _ _)).2.1 first (List.mem_cons_self _ _)
        rw [hf] at this
        exact absurd this (by simp)
    | some pid =>
      simp only
      have hrd := countRead_succeeds_iff mt tail pid cnt
      cases hc : countRead mt tail pid cnt with
      | error e =>
        constructor
        · rintro ⟨c, hc1⟩
          exact absurd hc1 (by simp)
        · intro h
          have h1 := h (first :: tail) (List.mem_cons_self _ _)
          have : ∃ cnt1, countRead mt tail pid cnt = Except.ok cnt1 := by
            rw [hrd]
            intro e he
            exact ⟨h1.2.1 e (List.mem_cons_of_mem _ he), h1.2.2 e he⟩
          rw [hc] at this
          obtain ⟨c, hc1⟩ := this
          exact absurd hc1 (by simp)
      | ok cnt1 =>
        simp only
        rw [countReads_succeeds_iff mt rest cnt1]
        have hall := hrd.1 ⟨cnt1, hc⟩
        constructor
        · intro h read hread
          rcases List.mem_cons.1 hread with rfl | hread
          · refine ⟨by simp, ?_, ?_⟩
            · intro e he
              rcases List.mem_cons.1 he with rfl | he
              · rw [hf]; rfl
              · exact (hall e he).1
            · intro e he
              exact (hall e he).2
          · exact h read hread
        · intro h read hread
          exact h read (List.mem_cons_of_mem _ hread)

theorem pairs_of_kmersOf (read : List MoveKmer) :
    (read.zip read.tail).map (fun p => (p.1.kmer_, p.2.kmer_))
      = (kmersOf read).zip (kmersOf read).tail := by
  unfold kmersOf
  rw [← List.map_tail, List.zip_map]
  apply List.map_congr_left
  intro p _
  rfl

theorem adjacentPairs_eq (reads : List (List MoveKmer)) :
    adjacentPairs reads = (reads.map kmersOf).flatMap (fun ks => ks.zip ks.tail) := by
  unfold adjacentPairs
  induction reads with
  | nil => rfl
  | cons read rest ih =>
    simp only [List.flatMap_cons, List.map_cons]
    rw [ih, pairs_of_kmersOf]

theorem pairCount_eq_countP (reads : List (List MoveKmer)) (s t : Int) :
    pairCount reads s t = (adjacentPairs reads).countP
      (fun p => decide (kmerToLexicographicPos p.1 = some s ∧
                        kmerToLexicographicPos p.2 = some t)) := by
  unfold pairCount adjacentPairs
  induction reads with
  | nil => rfl
  | cons read rest ih =>
    simp only [List.map_cons, List.sum_cons, List.flatMap_cons, List.countP_append]
    rw [ih, List.countP_map]
    rfl

theorem constructTransitions_congr (iterate : List Char → Int → List (List Char))
    (mt pc : Int) (k : Nat) (reads1 reads2 : List (List MoveKmer)) (cnt1 cnt2 : CountMap)
    (h1 : countReads mt reads1 (fun _ => 0) = Except.ok cnt1)
    (h2 : countReads mt reads2 (fun _ => 0) = Except.ok cnt2)
    (hp : ∀ s t, pairCount reads2 s t = pairCount reads1 s t) :
    constructTransitions iterate mt pc k reads2 = constructTransitions iterate mt pc k reads1 := by
  have hc : cnt2 = cnt1 := by
    funext key
    obtain ⟨s, t⟩ := key
    rw [countReads_ok mt reads1 _ cnt1 h1 s t, countReads_ok mt reads2 _ cnt2 h2 s t, hp s t]
  unfold constructTransitions
  rw [h1, h2, hc]

theorem movesWithin_of_countReads (mt : Int) (reads : List (List MoveKmer)) (cnt : CountMap)
    (h : countReads mt reads (fun _ => 0) = Except.ok cnt) : MovesWithin mt reads := by
  intro read hread e he
  exact ((countReads_succeeds_iff mt reads _).1 ⟨cnt, h⟩ read hread).2.2 e he

theorem countReads_of_kmers_perm (mt : Int) (reads1 reads2 : List (List MoveKmer))
    (cnt1 : CountMap) (h1 : countReads mt reads1 (fun _ => 0) = Except.ok cnt1)
    (hperm : (reads2.map kmersOf).Perm (reads1.map kmersOf)) (hm : MovesWithin mt reads2) :
    ∃ cnt2, countReads mt reads2 (fun _ => 0) = Except.ok cnt2 := by
  rw [countReads_succeeds_iff]
  intro read hread
  have hmem : kmersOf read ∈ reads1.map kmersOf :=
    hperm.subset (List.mem_map_of_mem _ hread)
  obtain ⟨read1, hread1, hk⟩ := List.mem_map.1 hmem
  obtain ⟨hne, hsome, _⟩ := (countReads_succeeds_iff mt reads1 _).1 ⟨cnt1, h1⟩ read1 hread1
  refine ⟨?_, ?_, hm read hread⟩
  · intro hnil
    subst hnil
    apply hne
    simpa [kmersOf] using hk
  · intro e he
    have : e.kmer_ ∈ kmersOf read1 := by
      rw [hk]
      exact List.mem_map_of_mem (fun e => e.kmer_) he
    obtain ⟨e1, he1, hke⟩ := List.mem_map.1 this
    rw [← hke]
    exact hsome e1 he1

/-- C22. Let `constructTransitions` return a table on the reads `reads1` (so that no
move exceeds the threshold). On every input on which it returns and whose adjacent
k-mer pairs are, as a multiset, those of `reads1`, it returns the same table. On the
reads delivered in another order it returns the same table, and so it does when in
addition moves are changed to values within the threshold: every transition and its
probability are unchanged. -/
theorem constructTransitions_depends_on_pairs
    (iterate : List Char → Int → List (List Char)) (move_threshold pseudo_count : Int)
    (k : Nat) (reads1 : List (List MoveKmer)) (table1 : List (List Transition))
    (h1 : constructTransitions iterate move_threshold pseudo_count k reads1
      = Except.ok table1) :
    MovesWithin move_threshold reads1 ∧
    (∀ reads2 table2,
      constructTransitions iterate move_threshold pseudo_count k reads2 = Except.ok table2 →
      (adjacentPairs reads2).Perm (adjacentPairs reads1) → table2 = table1) ∧
    (∀ reads2, reads2.Perm reads1 →
      constructTransitions iterate move_threshold pseudo_count k reads2 = Except.ok table1) ∧
    (∀ reads2, (reads2.map kmersOf).Perm (reads1.map kmersOf) →
      MovesWithin move_threshold reads2 →
      constructTransitions iterate move_threshold pseudo_count k reads2
        = Except.ok table1) := by
  obtain ⟨cnt1, _, hc1, _, _⟩ :=
    constructTransitions_ok iterate move_threshold pseudo_count k reads1 table1 h1
  have hpairs : ∀ reads2, (adjacentPairs reads2).Perm (adjacentPairs reads1) →
      ∀ s t, pairCount reads2 s t = pairCount reads1 s t := by
    intro reads2 hperm s t
    rw [pairCount_eq_countP, pairCount_eq_countP]
    exact hperm.countP_eq _
  have hkm : ∀ reads2, (reads2.map kmersOf).Perm (reads1.map kmersOf) →
      MovesWithin move_threshold reads2 →
      constructTransitions iterate move_threshold pseudo_count k reads2
        = Except.ok table1 := by
    intro reads2 hperm hm
    obtain ⟨cnt2, hc2⟩ := countReads_of_kmers_perm move_threshold reads1 reads2 cnt1 hc1 hperm hm
    rw [constructTransitions_congr iterate move_threshold pseudo_count k reads1 reads2 cnt1
      cnt2 hc1 hc2 (hpairs reads2 ?_), h1]
    rw [adjacentPairs_eq, adjacentPairs_eq]
    exact hperm.flatMap_right _
  have hmw := movesWithin_of_countReads move_threshold reads1 cnt1 hc1
  refine ⟨hmw, ?_, ?_, hkm⟩
  · intro reads2 table2 h2 hperm
    obtain ⟨cnt2, _, hc2, _, _⟩ :=
      constructTransitions_ok iterate move_threshold pseudo_count k reads2 table2 h2
    have := constructTransitions_congr iterate move_threshold pseudo_count k reads1 reads2
      cnt1 cnt2 hc1 hc2 (hpairs reads2 hperm)
    rw [h1, h2] at this
    exact Except.ok.inj this
  · intro reads2 hperm
    apply hkm reads2 (hperm.map _)
    intro read hread e he
    exact hmw read (hperm.subset hread) e he

/-- Witness of C22 for k = 2, move threshold 2 and pseudo count 1: the two reads of
`twoReads`, delivered in the other order and with other moves within the threshold,
give the same table. -/
theorem constructTransitions_depends_on_pairs_witness :
    (twoReadsChanged.map kmersOf).Perm (twoReads.map kmersOf) ∧
    MovesWithin 2 twoReadsChanged ∧
    ∃ table, constructTransitions kmersUpToDist 2 1 2 twoReads = Except.ok table ∧
      constructTransitions kmersUpToDist 2 1 2 twoReadsChanged = Except.ok table :=
  ⟨by decide, by unfold MovesWithin; decide,
   match (⟨_, rfl⟩ : ∃ table, constructTransitions kmersUpToDist 2 1 2 twoReads
      = Except.ok table) with
   | ⟨table, h⟩ =>
     ⟨table, h,
      (constructTransitions_depends_on_pairs kmersUpToDist 2 1 2 twoReads table h).2.2.2
        twoReadsChanged (by decide) (by unfold MovesWithin; decide)⟩⟩

theorem wrapInt_modEq (bits : Nat) (x : Int) : wrapInt bits x ≡ x [ZMOD 2 ^ bits] := by
  unfold wrapInt
  have h1 : (x + 2 ^ (bits - 1)) % 2 ^ bits ≡ x + 2 ^ (bits - 1) [ZMOD 2 ^ bits] :=
    Int.mod_modEq _ _
  have h2 := h1.sub_right (2 ^ (bits - 1))
  simpa using h2

theorem wrapInt_congr (bits : Nat) {x y : Int} (h : x ≡ y [ZMOD 2 ^ bits]) :
    wrapInt bits x = wrapInt bits y := by
  unfold wrapInt
  have h1 : (x + 2 ^ (bits - 1)) % 2 ^ bits = (y + 2 ^ (bits - 1)) % 2 ^ bits :=
    h.add_right _
  rw [h1]

theorem wrapInt_wrapInt (bits : Nat) (x : Int) : wrapInt bits (wrapInt bits x) = wrapInt bits x :=
  wrapInt_congr bits (wrapInt_modEq bits x)

theorem wrapInt_of_range (bits : Nat) (x : Int) (hb : 1 ≤ bits)
    (h0 : -(2 : Int) ^ (bits - 1) ≤ x) (h1 : x < (2 : Int) ^ (bits - 1)) :
    wrapInt bits x = x := by
  unfold wrapInt
  obtain ⟨n, rfl⟩ : ∃ n, bits = n + 1 := ⟨bits - 1, by omega⟩
  simp only [Nat.add_sub_cancel] at h0 h1 ⊢
  have hp : (2 : Int) ^ (n + 1) = 2 * 2 ^ n := by rw [pow_succ]; ring
  rw [hp, Int.emod_eq_of_lt (by omega) (by omega)]
  ring

theorem wrapInt_neg_one (bits : Nat) : wrapInt bits (-1) = -1 := by
  cases bits with
  | zero => simp [wrapInt]
  | succ n =>
    apply wrapInt_of_range _ _ (by omega)
    · simp only [Nat.add_sub_cancel]
      have : (0 : Int) < 2 ^ n := by positivity
      omega
    · simp only [Nat.add_sub_cancel]
      have : (0 : Int) < 2 ^ n := by positivity
      omega

theorem toInt32_eq_wrapInt (x : Int) : toInt32 x = wrapInt 32 x := by
  unfold toInt32 wrapInt
  norm_num

theorem encodeFoldAt_eq (bits : Nat) (w : List Char) :
    ∀ acc : Int,
      w.foldlM
        (fun res c => (baseCharToInt c).map
          (fun d => wrapInt bits (wrapInt bits (res * kNumBases) + wrapInt bits d)))
        (wrapInt bits acc)
      = (w.foldlM (fun res c => (baseCharToInt c).map (fun d => res * kNumBases + d)) acc).map
          (wrapInt bits) := by
  induction w with
  | nil => intro acc; simp
  | cons c t ih =>
    intro acc
    rw [List.foldlM_cons, List.foldlM_cons]
    cases hc : baseCharToInt c with
    | none => simp
    | some d =>
      simp only [Option.map_some', Option.some_bind, Option.bind_eq_bind]
      have hstep : wrapInt bits (wrapInt bits (wrapInt bits acc * kNumBases) + wrapInt bits d)
          = wrapInt bits (acc * kNumBases + d) := by
        apply wrapInt_congr
        exact (((wrapInt_modEq bits _).trans ((wrapInt_modEq bits acc).mul_right _)).add
          (wrapInt_modEq bits d))
      rw [hstep, ih]

theorem encodeKmerAt_eq_map (bits : Nat) (w : List Char) :
    encodeKmerAt bits w = (encodeKmer w).map (wrapInt bits) := by
  unfold encodeKmerAt encodeKmer
  exact encodeFoldAt_eq bits w 1

theorem encodeKmerAt_of_fits (bits : Nat) (w : List Char) (hw : IsDna w)
    (hb : 2 * w.length + 2 ≤ bits) :
    encodeKmerAt bits w = some ((4 : Int) ^ w.length + (kmerVal w : Int)) := by
  rw [encodeKmerAt_eq_map, encodeKmer_eq w hw]
  simp only [Option.map_some', Option.some.injEq]
  have hv := kmerVal_lt w
  have hp : (2 : Int) ^ (2 * w.length + 1) ≤ 2 ^ (bits - 1) :=
    pow_le_pow_right₀ (by norm_num) (by omega)
  have h4 : (2 : Int) ^ (2 * w.length + 1) = 2 * 4 ^ w.length := by
    rw [pow_succ, pow_mul]; norm_num; ring
  have hv' : (kmerVal w : Int) < 4 ^ w.length := by exact_mod_cast hv
  have hpos : (0 : Int) < 4 ^ w.length := by positivity
  apply wrapInt_of_range _ _ (by omega)
  · have : (0 : Int) < 2 ^ (bits - 1) := by positivity
    omega
  · omega

theorem hasNext_wrapAll (bits : Nat) (it : KmerWindowIterator) :
    (it.wrapAll bits).hasNext = it.hasNext := rfl

theorem constructAt_eq_map (bits k : Nat) (s : List Char) :
    KmerWindowIterator.constructAt bits k s
      = (KmerWindowIterator.construct k s).map (KmerWindowIterator.wrapAll bits) := by
  unfold KmerWindowIterator.constructAt KmerWindowIterator.construct
  split_ifs with h
  · rfl
  · rw [encodeKmerAt_eq_map]
    cases encodeKmer ((s.drop 0).take k) with
    | none => rfl
    | some code =>
      have hms : ∀ (n : Nat) (a : Int),
          (List.range n).foldl (fun m _ => wrapInt bits (m * kNumBases)) (wrapInt bits a)
            = wrapInt bits ((List.range n).foldl (fun m _ => m * kNumBases) a) := by
        intro n
        induction n with
        | zero => intro a; rfl
        | succ n ih =>
          intro a
          rw [List.range_succ, List.foldl_append, List.foldl_append, ih a]
          simp only [List.foldl_cons, List.foldl_nil]
          exact wrapInt_congr bits ((wrapInt_modEq bits _).mul_right _)
      simp only [Option.map_some', Option.some.injEq, KmerWindowIterator.wrapAll]
      rw [hms (k - 1) 1]
      congr 1
      exact wrapInt_congr bits ((wrapInt_modEq bits _).mul_right _)

theorem nextAt_wrapAll (bits : Nat) (it : KmerWindowIterator) :
    (it.wrapAll bits).nextAt bits
      = it.next.map (fun p => (wrapInt bits p.1, p.2.wrapAll bits)) := by
  unfold KmerWindowIterator.nextAt KmerWindowIterator.next
  rw [hasNext_wrapAll]
  cases hn : it.hasNext with
  | false =>
    simp only [Bool.not_false, if_true, Option.map_some', wrapInt_neg_one]
  | true =>
    simp only [Bool.not_true, Bool.false_eq_true, if_false]
    have hs : (it.wrapAll bits).str = it.str := rfl
    have hb : (it.wrapAll bits).begin_window_ = it.begin_window_ := rfl
    have he : (it.wrapAll bits).end_window_ = it.end_window_ := rfl
    rw [hs, hb, he]
    cases hf : (it.str.get? it.begin_window_).bind baseCharToInt with
    | none => rfl
    | some first_val =>
      cases hnv : (it.str.get? it.end_window_).bind baseCharToInt with
      | none => rfl
      | some new_val =>
        simp only [Option.map_some', Option.some.injEq]
        have hc :
            wrapInt bits
              (wrapInt bits
                  (wrapInt bits
                      ((it.wrapAll bits).current_window_code_ -
                        wrapInt bits
                          (wrapInt bits ((it.wrapAll bits).most_significant_ *
                            wrapInt bits first_val) + (it.wrapAll bits).first_one_)) *
                    kNumBases) +
                wrapInt bits (wrapInt bits new_val + (it.wrapAll bits).first_one_))
            = wrapInt bits
                ((it.current_window_code_ - (it.most_significant_ * first_val + it.first_one_))
                  * kNumBases + (new_val + it.first_one_)) := by
          apply wrapInt_congr
          have w1 := wrapInt_modEq bits
          have hms : (it.wrapAll bits).most_significant_ ≡ it.most_significant_
              [ZMOD 2 ^ bits] := w1 _
          have hfo : (it.wrapAll bits).first_one_ ≡ it.first_one_ [ZMOD 2 ^ bits] := w1 _
          have hcd : (it.wrapAll bits).current_window_code_ ≡ it.current_window_code_
              [ZMOD 2 ^ bits] := w1 _
          have h1 := ((w1 _).trans (hms.mul (w1 first_val))).add hfo
          have h2 := (w1 _).trans (hcd.sub ((w1 _).trans h1))
          have h3 := (w1 _).trans (h2.mul_right kNumBases)
          have h4 := (w1 _).trans ((w1 new_val).add hfo)
          exact h3.add h4
        rw [hc]
        simp only [KmerWindowIterator.wrapAll, Prod.mk.injEq, true_and]

theorem nextNAt_wrapAll (bits : Nat) :
    ∀ (j : Nat) (it : KmerWindowIterator),
      KmerWindowIterator.nextNAt bits j (it.wrapAll bits)
        = (KmerWindowIterator.nextN j it).map (KmerWindowIterator.wrapAll bits)
  | 0, it => rfl
  | j + 1, it => by
    rw [KmerWindowIterator.nextNAt, KmerWindowIterator.nextN, nextAt_wrapAll]
    cases it.next with
    | none => rfl
    | some p =>
      obtain ⟨c, it1⟩ := p
      simp only [Option.map_some']
      exact nextNAt_wrapAll bits j it1

theorem drainLoopAt_wrapAll (bits : Nat) :
    ∀ (fuel : Nat) (it : KmerWindowIterator),
      KmerWindowIterator.drainLoopAt bits fuel (it.wrapAll bits)
        = (KmerWindowIterator.drainLoop fuel it).map (List.map (wrapInt bits))
  | 0, it => rfl
  | fuel + 1, it => by
    rw [KmerWindowIterator.drainLoopAt, KmerWindowIterator.drainLoop, hasNext_wrapAll,
      nextAt_wrapAll]
    cases it.hasNext with
    | false => rfl
    | true =>
      simp only [if_true]
      cases it.next with
      | none => rfl
      | some p =>
        obtain ⟨c, it1⟩ := p
        simp only [Option.map_some']
        rw [drainLoopAt_wrapAll bits fuel it1]
        cases KmerWindowIterator.drainLoop fuel it1 <;> rfl

theorem slidingCodesAt_eq_map (bits k : Nat) (s : List Char) :
    slidingCodesAt bits k s = (slidingCodes k s).map (List.map (wrapInt bits)) := by
  unfold slidingCodesAt slidingCodes
  rw [constructAt_eq_map]
  cases KmerWindowIterator.construct k s with
  | none => rfl
  | some it =>
    simp only [Option.map_some']
    rw [drainLoopAt_wrapAll]
    cases KmerWindowIterator.drainLoop (s.length + 1) it <;> rfl

/-- C1, counterexample. With the 32-bit `int` the 16-mer GGGGGGGGGGGGGGGG, a string over
{A,C,T,G}, is encoded as -1 (the exact encoding `2^33 - 1` does not fit), `decodeKmer(-1)`
pops an empty string, and no code returned by `encodeKmer` decodes to the 16-mer; with
the 64-bit `long long` the same happens for the 32-mer of G. -/
theorem encodeKmerAt_overflow_counterexample :
    IsDna (List.replicate 16 'G') ∧
    encodeKmerAt 32 (List.replicate 16 'G') = some (-1) ∧
    encodeKmerInt32 (List.replicate 16 'G') = some (-1) ∧
    decodeKmer (-1) = none ∧
    (¬ ∃ code, encodeKmerAt 32 (List.replicate 16 'G') = some code ∧
      decodeKmer code = some (List.replicate 16 'G')) ∧
    encodeKmerAt 64 (List.replicate 32 'G') = some (-1) := by
  have h32 : encodeKmerAt 32 (List.replicate 16 'G') = some (-1) := by decide!
  refine ⟨by decide, h32, by decide!, by decide, ?_, by decide!⟩
  rintro ⟨code, hc, hd⟩
  rw [h32] at hc
  have : code = -1 := (Option.some.inj hc).symm
  subst this
  exact absurd hd (by decide)

/-- C1, amended. For every string `w` over {A,C,T,G} whose exact encoding fits the
integer type, that is `2 * |w| + 2 ≤ bits` (length at most 15 for the 32-bit `int`, at
most 31 for the 64-bit `long long`; in particular every k-mer with `1 ≤ k ≤ 8`, leading
A characters included), `decodeKmer(encodeKmer(w))` is `w`. -/
theorem decodeKmer_encodeKmerAt (w : List Char) (hw : IsDna w) :
    (∀ bits, 2 * w.length + 2 ≤ bits →
      ∃ code, encodeKmerAt bits w = some code ∧ decodeKmer code = some w) ∧
    (w.length ≤ 15 → ∃ code, encodeKmerInt32 w = some code ∧ decodeKmer code = some w) ∧
    (w.length ≤ 15 → ∃ code, encodeKmerAt 32 w = some code ∧ decodeKmer code = some w) ∧
    (w.length ≤ 31 → ∃ code, encodeKmerAt 64 w = some code ∧ decodeKmer code = some w) :=
  ⟨fun bits hb => ⟨_, encodeKmerAt_of_fits bits w hw hb, decodeKmer_code w hw⟩,
   fun hlen => ⟨_, encodeKmerInt32_eq w hw hlen, decodeKmer_code w hw⟩,
   fun hlen => ⟨_, encodeKmerAt_of_fits 32 w hw (by omega), decodeKmer_code w hw⟩,
   fun hlen => ⟨_, encodeKmerAt_of_fits 64 w hw (by omega), decodeKmer_code w hw⟩⟩

/-- Witness of the amended C1 at the 3-mer AAG, which starts with two A characters, and
at the 15-mer of G, the longest string whose code fits the 32-bit `int`. -/
theorem decodeKmer_encodeKmerAt_witness :
    IsDna ['A', 'A', 'G'] ∧
    (∃ code, encodeKmerAt 32 ['A', 'A', 'G'] = some code ∧
      decodeKmer code = some ['A', 'A', 'G']) ∧
    (∃ code, encodeKmerAt 64 ['A', 'A', 'G'] = some code ∧
      decodeKmer code = some ['A', 'A', 'G']) ∧
    encodeKmerAt 32 ['A', 'A', 'G'] = some 67 ∧
    IsDna (List.replicate 15 'G') ∧
    (∃ code, encodeKmerInt32 (List.replicate 15 'G') = some code ∧
      decodeKmer code = some (List.replicate 15 'G')) ∧
    (∃ code, encodeKmerAt 32 (List.replicate 15 'G') = some code ∧
      decodeKmer code = some (List.replicate 15 'G')) :=
  ⟨by decide,
   (decodeKmer_encodeKmerAt ['A', 'A', 'G'] (by decide)).1 32 (by decide),
   (decodeKmer_encodeKmerAt ['A', 'A', 'G'] (by decide)).2.2.2 (by decide),
   by decide, by decide,
   (decodeKmer_encodeKmerAt (List.replicate 15 'G') (by decide)).2.1 (by decide),
   (decodeKmer_encodeKmerAt (List.replicate 15 'G') (by decide)).2.2.1 (by decide)⟩

/-- C3. For `k ≥ 1`, a string `s` over {A,C,T,G} with `len ≥ k` and an integer type of
any width, with overflow as two's complement wraparound: the iterator built on `s`
yields (`currentKmerCode()` after construction, then the results of `next()` while
`hasNext()`) exactly `[encodeKmer(s[i..i+k)) for i = 0 .. len-k]`; after `j` calls of
`next()` the current code is the code of the window starting at `j`, and `hasNext()` is
true exactly while `j < len-k`. When the codes fit the type, `2 * k + 2 ≤ bits`, they
are the exact encodings `4^k + Σ_i b_i * 4^(k-1-i)` of the windows. -/
theorem slidingCodesAt_eq_encodeKmerAt_windows (bits k : Nat) (s : List Char) (hk : 1 ≤ k)
    (hs : IsDna s) (hlen : k ≤ s.length) :
    (∃ codes, slidingCodesAt bits k s = some codes ∧
        codes.map some
          = (List.range (s.length - k + 1)).map (fun i => encodeKmerAt bits (window k s i))) ∧
    (∀ j, j ≤ s.length - k →
      ∃ it0 it, KmerWindowIterator.constructAt bits k s = some it0 ∧
        KmerWindowIterator.nextNAt bits j it0 = some it ∧
        encodeKmerAt bits (window k s j) = some it.currentKmerCode ∧
        (it.hasNext = true ↔ j < s.length - k)) ∧
    (2 * k + 2 ≤ bits → ∀ i, i ≤ s.length - k →
      encodeKmerAt bits (window k s i) = some (specEncoding (window k s i))) := by
  obtain ⟨⟨codes, hcodes, hmap⟩, hstate⟩ := slidingCodes_exact_windows k s hk hs hlen
  refine ⟨⟨codes.map (wrapInt bits), ?_, ?_⟩, ?_, ?_⟩
  · rw [slidingCodesAt_eq_map, hcodes]
    rfl
  · have h1 : (codes.map (wrapInt bits)).map some
        = (codes.map some).map (Option.map (wrapInt bits)) := by
      rw [List.map_map, List.map_map]
      rfl
    rw [h1, hmap, List.map_map]
    apply List.map_congr_left
    intro i _
    exact (encodeKmerAt_eq_map bits _).symm
  · intro j hj
    obtain ⟨it0, it, h0, hn, hcode, hnext⟩ := hstate j hj
    refine ⟨it0.wrapAll bits, it.wrapAll bits, ?_, ?_, ?_, ?_⟩
    · rw [constructAt_eq_map, h0]
      rfl
    · rw [nextNAt_wrapAll, hn]
      rfl
    · rw [encodeKmerAt_eq_map, hcode]
      rfl
    · rw [hasNext_wrapAll]
      exact hnext
  · intro hb i hi
    have hl : (window k s i).length = k := window_length (by omega)
    rw [encodeKmerAt_of_fits bits _ (hs.window k i) (by omega), specEncoding_eq]

/-- Witness of C3 on the string ACGTTG with k = 3 and the 32-bit `int` (four windows),
and on the 17-mer of G with k = 16, where the codes of both windows wrap to -1. -/
theorem slidingCodesAt_eq_encodeKmerAt_windows_witness :
    slidingCodesAt 32 3 ['A', 'C', 'G', 'T', 'T', 'G'] = some [71, 94, 122, 107] ∧
    (∃ codes, slidingCodesAt 32 3 ['A', 'C', 'G', 'T', 'T', 'G'] = some codes ∧
        codes.map some = (List.range (6 - 3 + 1)).map
          (fun i => encodeKmerAt 32 (window 3 ['A', 'C', 'G', 'T', 'T', 'G'] i))) ∧
    (∃ it0 it, KmerWindowIterator.constructAt 32 3 ['A', 'C', 'G', 'T', 'T', 'G'] = some it0 ∧
        KmerWindowIterator.nextNAt 32 3 it0 = some it ∧
        encodeKmerAt 32 (window 3 ['A', 'C', 'G', 'T', 'T', 'G'] 3) = some it.currentKmerCode ∧
        (it.hasNext = true ↔ 3 < 6 - 3)) ∧
    encodeKmerAt 32 (window 3 ['A', 'C', 'G', 'T', 'T', 'G'] 1)
      = some (specEncoding (window 3 ['A', 'C', 'G', 'T', 'T', 'G'] 1)) ∧
    slidingCodesAt 32 16 (List.replicate 17 'G') = some [-1, -1] ∧
    (∃ codes, slidingCodesAt 32 16 (List.replicate 17 'G') = some codes ∧
        codes.map some = (List.range ((List.replicate 17 'G').length - 16 + 1)).map
          (fun i => encodeKmerAt 32 (window 16 (List.replicate 17 'G') i))) :=
  ⟨by decide,
   (slidingCodesAt_eq_encodeKmerAt_windows 32 3 ['A', 'C', 'G', 'T', 'T', 'G'] (by decide)
     (by decide) (by decide)).1,
   (slidingCodesAt_eq_encodeKmerAt_windows 32 3 ['A', 'C', 'G', 'T', 'T', 'G'] (by decide)
     (by decide) (by decide)).2.1 3 (by decide),
   (slidingCodesAt_eq_encodeKmerAt_windows 32 3 ['A', 'C', 'G', 'T', 'T', 'G'] (by decide)
     (by decide) (by decide)).2.2 (by decide) 1 (by decide),
   by decide!,
   (slidingCodesAt_eq_encodeKmerAt_windows 32 16 (List.replicate 17 'G') (by decide)
     (by decide) (by decide)).1⟩

theorem next_code_range (k : Nat) (s : List Char) (hs : IsDna s) (it : KmerWindowIterator)
    (hr : IterReach k s it) (hk : 1 ≤ k) (hn : it.hasNext = true) :
    ∃ c it1, it.next = some (c, it1) ∧ (4 : Int) ^ k ≤ c ∧ c < 2 * (4 : Int) ^ k := by
  rcases hr with ⟨_, rfl⟩ | ⟨_, m, hm, rfl⟩ | ⟨hk0, _⟩
  · simp [KmerWindowIterator.hasNext, shortState] at hn
  · have hlt := (hasNext_windowState k s m hm).1 hn
    refine ⟨_, _, next_windowState hs hk (by omega), ?_, ?_⟩
    · omega
    · have hv := kmerVal_lt (window k s (m + 1))
      rw [window_length (by omega)] at hv
      have hv' : (kmerVal (window k s (m + 1)) : Int) < (4 : Int) ^ k := by exact_mod_cast hv
      omega
  · omega

/-- C12, counterexample. With the 32-bit `int`, `k = 16` and the string of 17 G, the
iterator has a next window after construction (`hasNext()` is true) and `next()`
returns -1: the exact code `2^33 - 1` of the window GGGGGGGGGGGGGGGG wraps to -1. The
same happens with the 64-bit `long long`, `k = 32` and the string of 33 G. -/
theorem nextAt_minus_one_counterexample :
    IsDna (List.replicate 17 'G') ∧
    (KmerWindowIterator.constructAt 32 16 (List.replicate 17 'G')).map
        (fun it0 => (it0.hasNext, (it0.nextAt 32).map (fun p => p.1)))
      = some (true, some (-1)) ∧
    (KmerWindowIterator.constructAt 64 32 (List.replicate 33 'G')).map
        (fun it0 => (it0.hasNext, (it0.nextAt 64).map (fun p => p.1)))
      = some (true, some (-1)) :=
  ⟨by decide, by decide!, by decide!⟩

/-- C12, amended. On a string over {A,C,T,G}, for an integer type of any width: the
constructor and every call of `next()` return; when `hasNext()` is false before the
call, `next()` returns -1 and leaves the iterator unchanged; if the string is shorter
than `k`, then right after construction `currentKmerCode()` is -1 and `hasNext()` is
false. When `k ≥ 1` and the codes fit the type, `2 * k + 2 ≤ bits` (`k ≤ 15` for the
32-bit `int`, `k ≤ 31` for the 64-bit `long long`), `next()` returns -1 if and only if
`hasNext()` was false before the call. -/
theorem nextAt_returns_minus_one_iff (bits k : Nat) (s : List Char) (hs : IsDna s) :
    ∃ it0, KmerWindowIterator.constructAt bits k s = some it0 ∧
      (s.length < k → it0.currentKmerCode = -1 ∧ it0.hasNext = false) ∧
      ∀ j, ∃ it c it1, KmerWindowIterator.nextNAt bits j it0 = some it ∧
        it.nextAt bits = some (c, it1) ∧
        (it.hasNext = false → c = -1 ∧ it1 = it) ∧
        (1 ≤ k → 2 * k + 2 ≤ bits → (c = -1 ↔ it.hasNext = false)) := by
  obtain ⟨it0, h0, hr0⟩ := construct_reach k s hs
  refine ⟨it0.wrapAll bits, by rw [constructAt_eq_map, h0]; rfl, ?_, ?_⟩
  · intro hlt
    rcases hr0 with ⟨_, rfl⟩ | ⟨_, m, hm, _⟩ | ⟨hk, _⟩
    · refine ⟨?_, ?_⟩
      · show wrapInt bits (-1) = -1
        exact wrapInt_neg_one bits
      · simp [KmerWindowIterator.hasNext, KmerWindowIterator.wrapAll, shortState]
    · omega
    · omega
  · intro j
    obtain ⟨it, hj, hr⟩ := nextN_reach k s hs j it0 hr0
    obtain ⟨c, it1, hnext, _, _⟩ := next_reach k s hs it hr
    have hfalse : it.hasNext = false → wrapInt bits c = -1 ∧ it1.wrapAll bits = it.wrapAll bits := by
      intro hf
      rw [next_of_not_hasNext it hf] at hnext
      simp only [Option.some.injEq, Prod.mk.injEq] at hnext
      rw [← hnext.1, ← hnext.2]
      exact ⟨wrapInt_neg_one bits, rfl⟩
    refine ⟨it.wrapAll bits, wrapInt bits c, it1.wrapAll bits, ?_, ?_, ?_, ?_⟩
    · rw [nextNAt_wrapAll, hj]
      rfl
    · rw [nextAt_wrapAll, hnext]
      rfl
    · rw [hasNext_wrapAll]
      exact hfalse
    · intro hk hb
      rw [hasNext_wrapAll]
      constructor
      · intro hc
        by_contra hn
        have hn1 : it.hasNext = true := by simpa using hn
        obtain ⟨c1, it2, hnext1, hlo, hhi⟩ := next_code_range k s hs it hr hk hn1
        rw [hnext] at hnext1
        simp only [Option.some.injEq, Prod.mk.injEq] at hnext1
        rw [← hnext1.1] at hlo hhi
        have hp : (2 : Int) ^ (2 * k + 1) ≤ 2 ^ (bits - 1) :=
          pow_le_pow_right₀ (by norm_num) (by omega)
        have h4 : (2 : Int) ^ (2 * k + 1) = 2 * 4 ^ k := by
          rw [pow_succ, pow_mul]; norm_num; ring
        have hpos : (0 : Int) < 4 ^ k := by positivity
        have hw : wrapInt bits c = c := by
          apply wrapInt_of_range _ _ (by omega)
          · have : (0 : Int) < 2 ^ (bits - 1) := by positivity
            omega
          · omega
        rw [hw] at hc
        omega
      · intro hf
        exact (hfalse hf).1

/-- Witness of the amended C12 with the 32-bit `int` on the string ACG with k = 2: after
one call of `next` the iterator is exhausted, the next call returns -1 and leaves it
unchanged; for the string A, shorter than k = 2, the code is -1 from the start. -/
theorem nextAt_returns_minus_one_iff_witness :
    IsDna ['A', 'C', 'G'] ∧
    (∃ it0 it c it1, KmerWindowIterator.constructAt 32 2 ['A', 'C', 'G'] = some it0 ∧
      KmerWindowIterator.nextNAt 32 1 it0 = some it ∧ it.nextAt 32 = some (c, it1) ∧
      (it.hasNext = false → c = -1 ∧ it1 = it) ∧ (c = -1 ↔ it.hasNext = false)) ∧
    ((KmerWindowIterator.constructAt 32 2 ['A', 'C', 'G']).bind
        (KmerWindowIterator.nextNAt 32 1)).map
        (fun it => (it.hasNext, (it.nextAt 32).map (fun p => (p.1, decide (p.2 = it)))))
      = some (false, some (-1, true)) ∧
    (KmerWindowIterator.constructAt 32 2 ['A']).map (fun it => (it.currentKmerCode, it.hasNext))
      = some (-1, false) ∧
    (∃ it0, KmerWindowIterator.constructAt 32 2 ['A'] = some it0 ∧
      it0.currentKmerCode = -1 ∧ it0.hasNext = false) :=
  ⟨by decide,
   match nextAt_returns_minus_one_iff 32 2 ['A', 'C', 'G'] (by decide) with
   | ⟨it0, h0, _, hj⟩ =>
     match hj 1 with
     | ⟨it, c, it1, h1, h2, h3, h4⟩ =>
       ⟨it0, it, c, it1, h0, h1, h2, h3, h4 (by decide) (by decide)⟩,
   by decide!, by decide!,
   match nextAt_returns_minus_one_iff 32 2 ['A'] (by decide) with
   | ⟨it0, h0, hshort, _⟩ => ⟨it0, h0, hshort (by decide)⟩⟩

theorem encodeFoldInt32_eq_map (w : List Char) :
    ∀ acc : Int,
      w.foldlM
        (fun res c => (baseCharToInt c).map (fun d => toInt32 (toInt32 (res * kNumBases) + d)))
        (wrapInt 32 acc)
      = (w.foldlM (fun res c => (baseCharToInt c).map (fun d => res * kNumBases + d)) acc).map
          (wrapInt 32) := by
  induction w with
  | nil => intro acc; simp
  | cons c t ih =>
    intro acc
    rw [List.foldlM_cons, List.foldlM_cons]
    cases hc : baseCharToInt c with
    | none => simp
    | some d =>
      simp only [Option.map_some', Option.some_bind, Option.bind_eq_bind]
      have hstep : toInt32 (toInt32 (wrapInt 32 acc * kNumBases) + d)
          = wrapInt 32 (acc * kNumBases + d) := by
        rw [toInt32_eq_wrapInt, toInt32_eq_wrapInt]
        apply wrapInt_congr
        exact ((wrapInt_modEq 32 _).trans ((wrapInt_modEq 32 acc).mul_right _)).add_right d
      rw [hstep, ih]

theorem encodeKmerInt32_eq_encodeKmerAt (w : List Char) :
    encodeKmerInt32 w = encodeKmerAt 32 w := by
  rw [encodeKmerAt_eq_map]
  unfold encodeKmerInt32 encodeKmer
  have h1 : (1 : Int) = wrapInt 32 1 := by decide
  nth_rewrite 1 [h1]
  exact encodeFoldInt32_eq_map w 1

theorem numKmersOfInt64_modEq (k : Nat) : numKmersOfInt64 k ≡ (4 : Int) ^ k [ZMOD 2 ^ 64] := by
  unfold numKmersOfInt64
  induction k with
  | zero => simp [Int.ModEq]
  | succ n ih =>
    rw [List.range_succ, List.foldl_append]
    simp only [List.foldl_cons, List.foldl_nil]
    have h := (wrapInt_modEq 64 _).trans (ih.mul_right kNumBases)
    rw [pow_succ]
    exact h

theorem statesInt32_modEq (k : Nat) :
    wrapInt 32 (wrapInt 64 (numKmersOfInt64 k + 1)) = wrapInt 32 ((4 : Int) ^ k + 1) := by
  apply wrapInt_congr
  have h := (wrapInt_modEq 64 (numKmersOfInt64 k + 1)).trans
    ((numKmersOfInt64_modEq k).add_right 1)
  exact h.of_mul_left (2 ^ 32)

theorem statesInt32_small (k : Nat) (hk : k ≤ 15) :
    wrapInt 32 (wrapInt 64 (numKmersOfInt64 k + 1)) = (4 : Int) ^ k + 1 := by
  rw [statesInt32_modEq]
  have hp : (4 : Int) ^ k ≤ 4 ^ 15 := pow_le_pow_right₀ (by norm_num) hk
  have hpos : (0 : Int) < 4 ^ k := by positivity
  apply wrapInt_of_range _ _ (by norm_num)
  · norm_num; omega
  · norm_num at hp ⊢; omega

theorem statesInt32_large (k : Nat) (hk : 16 ≤ k) :
    wrapInt 32 (wrapInt 64 (numKmersOfInt64 k + 1)) = 1 := by
  rw [statesInt32_modEq]
  obtain ⟨m, rfl⟩ : ∃ m, k = 16 + m := ⟨k - 16, by omega⟩
  have h0 : (4 : Int) ^ (16 + m) + 1 ≡ 1 [ZMOD 2 ^ 32] := by
    have : (4 : Int) ^ (16 + m) = 2 ^ 32 * 4 ^ m := by rw [pow_add]; norm_num
    rw [this]
    have h1 : (2 : Int) ^ 32 * 4 ^ m ≡ 0 [ZMOD 2 ^ 32] :=
      (Int.modEq_zero_iff_dvd).2 (Dvd.intro _ rfl)
    simpa using h1.add_right 1
  rw [wrapInt_congr 32 h0]
  decide

theorem incrementInt32_wrapCounts (cnt : CountMap) (key : Int × Int) :
    (wrapCounts cnt).incrementInt32 key = wrapCounts (cnt.increment key) := by
  funext key1
  unfold CountMap.incrementInt32 CountMap.increment wrapCounts
  by_cases hk : key1 = key
  · simp only [hk, if_true]
    exact wrapInt_congr 32 ((wrapInt_modEq 32 _).add_right 1)
  · simp only [hk, if_false]

theorem countReadInt32_wrapCounts (mt : Int) :
    ∀ (rest : List MoveKmer) (pid : Int) (cnt : CountMap),
      countReadInt32 mt rest pid (wrapCounts cnt)
        = (countRead mt rest pid cnt).map wrapCounts
  | [], pid, cnt => rfl
  | entry :: rest, pid, cnt => by
    rw [countReadInt32, countRead]
    cases kmerToLexicographicPos entry.kmer_ with
    | none => rfl
    | some nid =>
      simp only
      split_ifs
      · rfl
      · rw [incrementInt32_wrapCounts]
        exact countReadInt32_wrapCounts mt rest nid _

theorem countReadsInt32_wrapCounts (mt : Int) :
    ∀ (reads : List (List MoveKmer)) (cnt : CountMap),
      countReadsInt32 mt reads (wrapCounts cnt)
        = (countReads mt reads cnt).map wrapCounts
  | [], cnt => rfl
  | [] :: _, cnt => rfl
  | (first :: tail) :: rest, cnt => by
    rw [countReadsInt32, countReads]
    cases kmerToLexicographicPos first.kmer_ with
    | none => rfl
    | some pid =>
      simp only
      rw [countReadInt32_wrapCounts]
      cases countRead mt tail pid cnt with
      | error e => rfl
      | ok cnt1 =>
        exact countReadsInt32_wrapCounts mt rest cnt1

theorem countReadsInt32_ok (mt : Int) (reads : List (List MoveKmer)) (cntW : CountMap)
    (h : countReadsInt32 mt reads (fun _ => 0) = Except.ok cntW) :
    (∃ cnt, countReads mt reads (fun _ => 0) = Except.ok cnt) ∧
    ∀ s t, cntW (s, t) = wrapInt 32 (pairCount reads s t : Int) := by
  have h0 : (fun _ => 0 : CountMap) = wrapCounts (fun _ => 0) := by
    funext key
    show (0 : Int) = wrapInt 32 0
    decide
  rw [h0, countReadsInt32_wrapCounts] at h
  cases hc : countReads mt reads (fun _ => 0) with
  | error e => rw [hc] at h; exact absurd h (by simp [Except.map])
  | ok cnt =>
    rw [hc] at h
    simp only [Except.map, Except.ok.injEq] at h
    refine ⟨⟨cnt, rfl⟩, ?_⟩
    intro s t
    rw [← h]
    unfold wrapCounts
    rw [countReads_ok mt reads _ cnt hc s t]
    simp

theorem collectCountsInt32_ok (pc : Int) (cnt : CountMap) (id : Int) :
    ∀ (l : List (List Char)) (twc : List (Int × Int)) (all : Int)
      (res : List (Int × Int) × Int),
      collectCountsInt32 pc (wrapCounts cnt) id l twc (wrapInt 32 all) = Except.ok res →
      res.1 = twc ++ l.map (fun t => (stateIdOf t, wrapInt 32 (pc + cnt (id, stateIdOf t)))) ∧
      res.2 = wrapInt 32 (all + (l.map (fun t => pc + cnt (id, stateIdOf t))).sum)
  | [], twc, all, res, h => by
    simp only [collectCountsInt32, Except.ok.injEq] at h
    subst h
    simp
  | t :: rest, twc, all, res, h => by
    rw [collectCountsInt32] at h
    cases hn : kmerToLexicographicPos t with
    | none => rw [hn] at h; simp at h
    | some tid =>
      rw [hn] at h
      simp only at h
      have hid : stateIdOf t = tid := by simp [stateIdOf, hn]
      have hcount : wrapInt 32 (pc + wrapCounts cnt (id, tid)) = wrapInt 32 (pc + cnt (id, tid)) :=
        wrapInt_congr 32 ((wrapInt_modEq 32 _).add_left pc)
      have hall : wrapInt 32 (wrapInt 32 all + wrapInt 32 (pc + wrapCounts cnt (id, tid)))
          = wrapInt 32 (all + (pc + cnt (id, tid))) := by
        rw [hcount]
        exact wrapInt_congr 32 ((wrapInt_modEq 32 _).add (wrapInt_modEq 32 _))
      rw [hall, hcount] at h
      obtain ⟨h2, h3⟩ := collectCountsInt32_ok pc cnt id rest _ _ res h
      refine ⟨?_, ?_⟩
      · rw [h2]; simp [hid]
      · rw [h3]; simp only [List.map_cons, List.sum_cons, hid]; congr 1; ring

theorem transitionsFromInt32_ok (iterate : List Char → Int → List (List Char)) (mt pc : Int)
    (k : Nat) (cnt : CountMap) (id : Int) (row : List TransitionOfDouble)
    (h : transitionsFromInt32 iterate mt pc k (wrapCounts cnt) id = Except.ok row) :
    ∃ kmer, kmerInLexicographicPos id k = some kmer ∧
      row = (iterate kmer mt).map (fun t =>
        { to_state_ := stateIdOf t,
          prob_ := divDouble (wrapInt 32 (pc + cnt (id, stateIdOf t)))
            (wrapInt 32 ((iterate kmer mt).map (fun t1 => pc + cnt (id, stateIdOf t1))).sum) }) := by
  unfold transitionsFromInt32 at h
  cases hk : kmerInLexicographicPos id k with
  | none => rw [hk] at h; simp at h
  | some kmer =>
    rw [hk] at h
    simp only at h
    have h0 : (0 : Int) = wrapInt 32 0 := by decide
    rw [h0] at h
    cases hc : collectCountsInt32 pc (wrapCounts cnt) id (iterate kmer mt) [] (wrapInt 32 0) with
    | error e => rw [hc] at h; simp at h
    | ok res =>
      obtain ⟨twc, all⟩ := res
      rw [hc] at h
      simp only [Except.ok.injEq] at h
      obtain ⟨h2, h3⟩ := collectCountsInt32_ok pc cnt id _ _ _ _ hc
      simp only [List.nil_append, zero_add] at h2 h3
      subst h2 h3
      refine ⟨kmer, rfl, ?_⟩
      rw [← h, List.map_map]
      rfl

theorem buildRowsInt32_ok (iterate : List Char → Int → List (List Char)) (mt pc : Int)
    (k : Nat) (cnt : CountMap) :
    ∀ (ids : List Int) (rows : List (List TransitionOfDouble)),
      buildRowsInt32 iterate mt pc k cnt ids = Except.ok rows →
      List.Forall₂ (fun id row => transitionsFromInt32 iterate mt pc k cnt id = Except.ok row)
        ids rows
  | [], rows, h => by
    simp only [buildRowsInt32, Except.ok.injEq] at h
    subst h
    exact List.Forall₂.nil
  | id :: rest, rows, h => by
    rw [buildRowsInt32] at h
    cases ht : transitionsFromInt32 iterate mt pc k cnt id with
    | error e => rw [ht] at h; simp at h
    | ok row =>
      rw [ht] at h
      simp only at h
      cases hb : buildRowsInt32 iterate mt pc k cnt rest with
      | error e => rw [hb] at h; simp at h
      | ok rows1 =>
        rw [hb] at h
        simp only [Except.ok.injEq] at h
        subst h
        exact List.Forall₂.cons ht (buildRowsInt32_ok iterate mt pc k cnt rest rows1 hb)

theorem constructTransitionsInt32_ok (iterate : List Char → Int → List (List Char))
    (mt pc : Int) (k : Nat) (reads : List (List MoveKmer))
    (table : List (List TransitionOfDouble))
    (h : constructTransitionsInt32 iterate mt pc k reads = Except.ok table) :
    ∃ cnt rows, countReads mt reads (fun _ => 0) = Except.ok cnt ∧
      buildRowsInt32 iterate mt pc k (wrapCounts cnt)
        (emittingIds (wrapInt 32 (wrapInt 64 (numKmersOfInt64 k + 1)))) = Except.ok rows ∧
      table = (emittingIds (wrapInt 32 (wrapInt 64 (numKmersOfInt64 k + 1)))).map
          (fun id => { to_state_ := id,
                       prob_ := divDouble 1
                         (wrapInt 32 (wrapInt 32 (wrapInt 64 (numKmersOfInt64 k + 1)) - 1)) })
        :: rows := by
  unfold constructTransitionsInt32 at h
  have h0 : (fun _ => 0 : CountMap) = wrapCounts (fun _ => 0) := by
    funext key
    show (0 : Int) = wrapInt 32 0
    decide
  rw [h0, countReadsInt32_wrapCounts] at h
  cases hc : countReads mt reads (fun _ => 0) with
  | error e => rw [hc] at h; simp [Except.map] at h
  | ok cnt =>
    rw [hc] at h
    simp only [Except.map] at h
    cases hb : buildRowsInt32 iterate mt pc k (wrapCounts cnt)
        (emittingIds (wrapInt 32 (wrapInt 64 (numKmersOfInt64 k + 1)))) with
    | error e => rw [hb] at h; simp at h
    | ok rows =>
      rw [hb] at h
      simp only [Except.ok.injEq] at h
      exact ⟨cnt, rows, rfl, hb, h.symm⟩

theorem emittingIds_pow (k : Nat) :
    emittingIds ((4 : Int) ^ k + 1)
      = (List.range' 1 (4 ^ k)).map (fun (n : Nat) => (n : Int)) := by
  unfold emittingIds
  have h : ((4 : Int) ^ k + 1 - 1) = ((4 ^ k : Nat) : Int) := by push_cast; ring
  rw [h, Int.toNat_ofNat]

theorem tableInt32_small (iterate : List Char → Int → List (List Char))
    (mt pc : Int) (k : Nat) (reads : List (List MoveKmer))
    (table : List (List TransitionOfDouble)) (hk : k ≤ 15)
    (h : constructTransitionsInt32 iterate mt pc k reads = Except.ok table) :
    ∃ cnt rows, countReads mt reads (fun _ => 0) = Except.ok cnt ∧
      buildRowsInt32 iterate mt pc k (wrapCounts cnt)
        ((List.range' 1 (4 ^ k)).map (fun (n : Nat) => (n : Int))) = Except.ok rows ∧
      table = initialRowOfDouble k :: rows := by
  obtain ⟨cnt, rows, hc, hb, ht⟩ := constructTransitionsInt32_ok iterate mt pc k reads table h
  rw [statesInt32_small k hk, emittingIds_pow] at hb ht
  refine ⟨cnt, rows, hc, hb, ?_⟩
  rw [ht, initialRowOfDouble, List.map_map]
  congr 1
  apply List.map_congr_left
  intro n _
  have hp : (4 : Int) ^ k ≤ 4 ^ 15 := pow_le_pow_right₀ (by norm_num) hk
  have hpos : (0 : Int) < 4 ^ k := by positivity
  have hw : wrapInt 32 ((4 : Int) ^ k + 1 - 1) = (4 : Int) ^ k := by
    have he : (4 : Int) ^ k + 1 - 1 = 4 ^ k := by ring
    rw [he]
    apply wrapInt_of_range _ _ (by norm_num)
    · norm_num; omega
    · norm_num at hp ⊢; omega
  simp only [Function.comp, hw, divDouble]
  rw [if_neg (by omega)]
  push_cast
  rfl

theorem tableInt32_large (iterate : List Char → Int → List (List Char))
    (mt pc : Int) (k : Nat) (reads : List (List MoveKmer))
    (table : List (List TransitionOfDouble)) (hk : 16 ≤ k)
    (h : constructTransitionsInt32 iterate mt pc k reads = Except.ok table) :
    table = [[]] := by
  obtain ⟨cnt, rows, _, hb, ht⟩ := constructTransitionsInt32_ok iterate mt pc k reads table h
  rw [statesInt32_large k hk] at hb ht
  have he : emittingIds 1 = [] := by decide
  rw [he] at hb ht
  simp only [buildRowsInt32, Except.ok.injEq] at hb
  rw [ht, ← hb]
  rfl

theorem tableInt32_row (iterate : List Char → Int → List (List Char)) (mt pc : Int)
    (k : Nat) (reads : List (List MoveKmer)) (table : List (List TransitionOfDouble))
    (hiter : ∀ kmer dist, (iterate kmer dist).Perm (kmersUpToDist kmer dist))
    (hk15 : k ≤ 15)
    (h : constructTransitionsInt32 iterate mt pc k reads = Except.ok table)
    (s : Int) (h1 : 1 ≤ s) (h2 : s ≤ (4 : Int) ^ k) :
    ∃ kmer, IsKmer k kmer ∧ kmerInLexicographicPos s k = some kmer ∧
      kmerToLexicographicPos kmer = some s ∧
      reachableKmers k mt s = kmersUpToDist kmer mt ∧
      table[s.toNat]? = some ((iterate kmer mt).map (fun t =>
        { to_state_ := stateIdOf t,
          prob_ := divDouble (wrapInt 32 (smoothedCount pc reads s t))
            (wrapInt 32 (totalCount k mt pc reads s)) })) := by
  obtain ⟨cnt, rows, hc, hb, rfl⟩ := tableInt32_small iterate mt pc k reads table hk15 h
  obtain ⟨kmer, hk, hin, hpos⟩ := kmerInLexicographicPos_of_range k s h1 h2
  have h2' : s ≤ ((4 ^ k : Nat) : Int) := by push_cast; exact h2
  have hid := range'_cast_getElem? (4 ^ k) s h1 h2'
  obtain ⟨row, hrow, htr⟩ :=
    forall₂_getElem? (buildRowsInt32_ok iterate mt pc k _ _ rows hb) _ _ hid
  obtain ⟨kmer1, hin1, hrow1⟩ := transitionsFromInt32_ok iterate mt pc k cnt s row htr
  rw [hin] at hin1
  have hkk : kmer = kmer1 := Option.some.inj hin1
  subst hkk
  have hreach : reachableKmers k mt s = kmersUpToDist kmer mt := by
    simp [reachableKmers, hin]
  refine ⟨kmer, hk, hin, hpos, hreach, ?_⟩
  have hidx : s.toNat = (s.toNat - 1) + 1 := by omega
  rw [hidx, List.getElem?_cons_succ, hrow, hrow1]
  have hcnt : ∀ t, pc + cnt (s, stateIdOf t) = smoothedCount pc reads s t := by
    intro t
    have := countReads_ok mt reads _ cnt hc s (stateIdOf t)
    rw [this]
    simp [smoothedCount, stateIdOf]
  have hsum : ((iterate kmer mt).map (fun t1 => pc + cnt (s, stateIdOf t1))).sum
      = totalCount k mt pc reads s := by
    unfold totalCount
    rw [hreach]
    have hf : (fun t1 => pc + cnt (s, stateIdOf t1)) = smoothedCount pc reads s := by
      funext t; exact hcnt t
    rw [hf]
    exact ((hiter kmer mt).map _).sum_eq
  rw [hsum]
  congr 1
  apply List.map_congr_left
  intro t _
  rw [hcnt t]

theorem except_eq_ok_of_toOption {ε α : Type} {r : Except ε α} {a : α}
    (h : r.toOption = some a) : r = Except.ok a := by
  cases r with
  | error e => simp [Except.toOption] at h
  | ok b =>
    simp only [Except.toOption, Option.some.injEq] at h
    rw [h]

theorem except_exists_ok_of_isSome {ε α : Type} {r : Except ε α}
    (h : r.toOption.isSome = true) : ∃ a, r = Except.ok a := by
  cases r with
  | error e => simp [Except.toOption] at h
  | ok b => exact ⟨b, rfl⟩

theorem wrapInt32_of_nonneg (x : Int) (h0 : 0 ≤ x) (h1 : x < 2 ^ 31) : wrapInt 32 x = x := by
  apply wrapInt_of_range _ _ (by norm_num)
  · norm_num; omega
  · norm_num at h1 ⊢; omega

theorem divDouble_finite (x y : Int) (hy : y ≠ 0) :
    divDouble x y = DoubleQuot.finite ((x : ℚ) / (y : ℚ)) := by
  unfold divDouble
  rw [if_neg hy]

theorem smoothedCount_nonneg (pc : Int) (reads : List (List MoveKmer)) (s : Int)
    (t : List Char) (hpc : 0 ≤ pc) : 0 ≤ smoothedCount pc reads s t := by
  unfold smoothedCount
  omega

theorem smoothedCount_le_totalCount (k : Nat) (mt pc : Int) (reads : List (List MoveKmer))
    (s : Int) (t : List Char) (hpc : 0 ≤ pc) (ht : t ∈ reachableKmers k mt s) :
    smoothedCount pc reads s t ≤ totalCount k mt pc reads s := by
  unfold totalCount
  apply List.single_le_sum
  · intro x hx
    obtain ⟨u, _, rfl⟩ := List.mem_map.1 hx
    exact smoothedCount_nonneg pc reads s u hpc
  · exact List.mem_map_of_mem _ ht

theorem tableInt32_row_finite (iterate : List Char → Int → List (List Char)) (mt pc : Int)
    (k : Nat) (reads : List (List MoveKmer)) (table : List (List TransitionOfDouble))
    (hiter : ∀ kmer dist, (iterate kmer dist).Perm (kmersUpToDist kmer dist))
    (hk15 : k ≤ 15)
    (h : constructTransitionsInt32 iterate mt pc k reads = Except.ok table)
    (s : Int) (h1 : 1 ≤ s) (h2 : s ≤ (4 : Int) ^ k)
    (hpc : 0 ≤ pc) (hpos : 0 < totalCount k mt pc reads s)
    (hlt : totalCount k mt pc reads s < 2 ^ 31) :
    ∃ kmer, IsKmer k kmer ∧ kmerToLexicographicPos kmer = some s ∧
      reachableKmers k mt s = kmersUpToDist kmer mt ∧
      table[s.toNat]? = some ((iterate kmer mt).map (fun t =>
        { to_state_ := stateIdOf t,
          prob_ := DoubleQuot.finite (((smoothedCount pc reads s t : Int) : ℚ) /
            ((totalCount k mt pc reads s : Int) : ℚ)) })) := by
  obtain ⟨kmer, hk, _, hid, hreach, hrow⟩ :=
    tableInt32_row iterate mt pc k reads table hiter hk15 h s h1 h2
  refine ⟨kmer, hk, hid, hreach, ?_⟩
  rw [hrow]
  congr 1
  apply List.map_congr_left
  intro t ht
  have htm : t ∈ reachableKmers k mt s := by
    rw [hreach]
    exact (hiter kmer mt).mem_iff.1 ht
  have hsc0 := smoothedCount_nonneg pc reads s t hpc
  have hsc1 := smoothedCount_le_totalCount k mt pc reads s t hpc htm
  rw [wrapInt32_of_nonneg _ hsc0 (by omega), wrapInt32_of_nonneg _ (le_of_lt hpos) hlt,
    divDouble_finite _ _ (ne_of_gt hpos)]

/-- C5, counterexample. With k = 1, move threshold 1, pseudo count `2^30` and no reads
the call succeeds; for the state A (id 1) every smoothed count is `2^30` and their sum
`2^32` wraps to 0 in the 32-bit `int all_transitions`, so that every probability of row
1 is `2^30 / 0.0 = +inf`; the transition to state 1 with the probability
`(pseudo_count + C(s,t)) / total = 1/4` is not in the row. -/
theorem rowProbInt32_counterexample :
    constructTransitionsInt32 kmersUpToDist 1 (2 ^ 30) 1 []
      = Except.ok
        [[⟨1, DoubleQuot.finite (1 / 4)⟩, ⟨2, DoubleQuot.finite (1 / 4)⟩,
          ⟨3, DoubleQuot.finite (1 / 4)⟩, ⟨4, DoubleQuot.finite (1 / 4)⟩],
         [⟨1, DoubleQuot.inf false⟩, ⟨2, DoubleQuot.inf false⟩, ⟨3, DoubleQuot.inf false⟩,
          ⟨4, DoubleQuot.inf false⟩],
         [⟨1, DoubleQuot.inf false⟩, ⟨2, DoubleQuot.inf false⟩, ⟨3, DoubleQuot.inf false⟩,
          ⟨4, DoubleQuot.inf false⟩],
         [⟨1, DoubleQuot.inf false⟩, ⟨2, DoubleQuot.inf false⟩, ⟨3, DoubleQuot.inf false⟩,
          ⟨4, DoubleQuot.inf false⟩],
         [⟨1, DoubleQuot.inf false⟩, ⟨2, DoubleQuot.inf false⟩, ⟨3, DoubleQuot.inf false⟩,
          ⟨4, DoubleQuot.inf false⟩]] ∧
    ['A'] ∈ reachableKmers 1 1 1 ∧ kmerToLexicographicPos ['A'] = some 1 ∧
    pairCount [] 1 1 = 0 ∧ totalCount 1 1 (2 ^ 30) [] 1 = 2 ^ 32 ∧
    wrapInt 32 (totalCount 1 1 (2 ^ 30) [] 1) = 0 ∧
    (⟨1, DoubleQuot.finite (((2 ^ 30 + (pairCount [] 1 1 : Int) : Int) : ℚ) /
        ((totalCount 1 1 (2 ^ 30) [] 1 : Int) : ℚ))⟩ : TransitionOfDouble)
      ∉ [(⟨1, DoubleQuot.inf false⟩ : TransitionOfDouble), ⟨2, DoubleQuot.inf false⟩,
          ⟨3, DoubleQuot.inf false⟩, ⟨4, DoubleQuot.inf false⟩] :=
  ⟨except_eq_ok_of_toOption (by decide!), by decide, by decide, by decide, by decide!,
   by decide!, by simp⟩

/-- C5, amended. On every input with `k ≤ 15` on which `constructTransitions` succeeds,
for every emitting state id `s` in `[1, 4^k]` and every k-mer `t` of `N(s)`, the row
`transitions[s]` contains the transition to the state id of `t` whose probability is
the `double` quotient of the 32-bit values of `pseudo_count + C(s,t)` and of the total
`Σ_{t' ∈ N(s)} (pseudo_count + C(s,t'))`; when `pseudo_count ≥ 0` and the total is
positive and below `2^31`, it is the probability `(pseudo_count + C(s,t)) / total`,
whatever the iteration order of the unordered set. -/
theorem constructTransitionsInt32_row_prob (iterate : List Char → Int → List (List Char))
    (move_threshold pseudo_count : Int) (k : Nat) (reads : List (List MoveKmer))
    (table : List (List TransitionOfDouble))
    (hiter : ∀ kmer dist, (iterate kmer dist).Perm (kmersUpToDist kmer dist))
    (hk15 : k ≤ 15)
    (h : constructTransitionsInt32 iterate move_threshold pseudo_count k reads
      = Except.ok table)
    (s : Int) (h1 : 1 ≤ s) (h2 : s ≤ (4 : Int) ^ k)
    (t : List Char) (ht : t ∈ reachableKmers k move_threshold s) :
    ∃ row tid, table[s.toNat]? = some row ∧ kmerToLexicographicPos t = some tid ∧
      ({ to_state_ := tid,
         prob_ := divDouble (wrapInt 32 (pseudo_count + (pairCount reads s tid : Int)))
           (wrapInt 32 (totalCount k move_threshold pseudo_count reads s)) }
        : TransitionOfDouble) ∈ row ∧
      (0 ≤ pseudo_count → 0 < totalCount k move_threshold pseudo_count reads s →
        totalCount k move_threshold pseudo_count reads s < 2 ^ 31 →
        ({ to_state_ := tid,
           prob_ := DoubleQuot.finite
             (((pseudo_count + (pairCount reads s tid : Int) : Int) : ℚ) /
               ((totalCount k move_threshold pseudo_count reads s : Int) : ℚ)) }
          : TransitionOfDouble) ∈ row) := by
  obtain ⟨kmer, hk, _, _, hreach, hrow⟩ :=
    tableInt32_row iterate move_threshold pseudo_count k reads table hiter hk15 h s h1 h2
  have ht0 := ht
  rw [hreach] at ht
  have htk := isKmer_of_mem_kmersUpToDist hk ht
  have hpos := kmerToLexicographicPos_eq t htk.2
  have hsc : smoothedCount pseudo_count reads s t
      = pseudo_count + (pairCount reads s ((kmerVal t : Int) + 1) : Int) := by
    simp [smoothedCount, hpos]
  have hmem : TransitionOfDouble.mk ((kmerVal t : Int) + 1)
        (divDouble
           (wrapInt 32 (pseudo_count + (pairCount reads s ((kmerVal t : Int) + 1) : Int)))
           (wrapInt 32 (totalCount k move_threshold pseudo_count reads s)))
        ∈ (iterate kmer move_threshold).map (fun t =>
        TransitionOfDouble.mk (stateIdOf t)
          (divDouble (wrapInt 32 (smoothedCount pseudo_count reads s t))
            (wrapInt 32 (totalCount k move_threshold pseudo_count reads s)))) := by
    refine List.mem_map.2 ⟨t, (hiter kmer move_threshold).mem_iff.2 ht, ?_⟩
    rw [hsc, stateIdOf_eq htk.2]
  refine ⟨_, _, hrow, hpos, hmem, ?_⟩
  intro hpc hp hlt
  have hsc0 := smoothedCount_nonneg pseudo_count reads s t hpc
  have hsc1 := smoothedCount_le_totalCount k move_threshold pseudo_count reads s t hpc ht0
  rw [hsc] at hsc0 hsc1
  have hel : divDouble
        (wrapInt 32 (pseudo_count + (pairCount reads s ((kmerVal t : Int) + 1) : Int)))
        (wrapInt 32 (totalCount k move_threshold pseudo_count reads s))
      = DoubleQuot.finite
        (((pseudo_count + (pairCount reads s ((kmerVal t : Int) + 1) : Int) : Int) : ℚ) /
          ((totalCount k move_threshold pseudo_count reads s : Int) : ℚ)) := by
    rw [wrapInt32_of_nonneg _ hsc0 (by omega), wrapInt32_of_nonneg _ (le_of_lt hp) hlt,
      divDouble_finite _ _ (ne_of_gt hp)]
  rw [← hel]
  exact hmem

/-- Witness of the amended C5 on the test input k = 2, threshold 3, pseudo count 1:
prob(AG -> GA) = 3/19, prob(AG -> TG) = 2/19 and prob(GA -> AG) = 3/18. -/
theorem constructTransitionsInt32_row_prob_witness :
    ∃ table, constructTransitionsInt32 kmersUpToDist 3 1 2 [smallRead] = Except.ok table ∧
      (∃ row, table[4]? = some row ∧
        ({ to_state_ := 13, prob_ := DoubleQuot.finite (3 / 19) } : TransitionOfDouble) ∈ row) ∧
      (∃ row, table[4]? = some row ∧
        ({ to_state_ := 12, prob_ := DoubleQuot.finite (2 / 19) } : TransitionOfDouble) ∈ row) ∧
      (∃ row, table[13]? = some row ∧
        ({ to_state_ := 4, prob_ := DoubleQuot.finite (3 / 18) } : TransitionOfDouble) ∈ row) := by
  obtain ⟨table, h⟩ :
      ∃ table, constructTransitionsInt32 kmersUpToDist 3 1 2 [smallRead] = Except.ok table :=
    except_exists_ok_of_isSome (by decide!)
  have hperm : ∀ kmer dist, (kmersUpToDist kmer dist).Perm (kmersUpToDist kmer dist) :=
    fun _ _ => List.Perm.refl _
  have ht4 : totalCount 2 3 1 [smallRead] 4 = 19 := by decide
  have ht13 : totalCount 2 3 1 [smallRead] 13 = 18 := by decide
  refine ⟨table, h, ?_, ?_, ?_⟩
  · obtain ⟨row, tid, hrow, hid, _, hfin⟩ :=
      constructTransitionsInt32_row_prob kmersUpToDist 3 1 2 [smallRead] table hperm (by decide)
        h 4 (by decide) (by norm_num) ['G', 'A'] (by decide)
    have hid1 : kmerToLexicographicPos ['G', 'A'] = some 13 := by decide
    rw [hid1] at hid
    have := Option.some.inj hid
    subst this
    have hm := hfin (by decide) (by rw [ht4]; decide) (by rw [ht4]; decide)
    have hc : pairCount [smallRead] 4 13 = 2 := by decide
    rw [ht4, hc] at hm
    norm_num at hm
    exact ⟨row, hrow, hm⟩
  · obtain ⟨row, tid, hrow, hid, _, hfin⟩ :=
      constructTransitionsInt32_row_prob kmersUpToDist 3 1 2 [smallRead] table hperm (by decide)
        h 4 (by decide) (by norm_num) ['T', 'G'] (by decide)
    have hid1 : kmerToLexicographicPos ['T', 'G'] = some 12 := by decide
    rw [hid1] at hid
    have := Option.some.inj hid
    subst this
    have hm := hfin (by decide) (by rw [ht4]; decide) (by rw [ht4]; decide)
    have hc : pairCount [smallRead] 4 12 = 1 := by decide
    rw [ht4, hc] at hm
    norm_num at hm
    exact ⟨row, hrow, hm⟩
  · obtain ⟨row, tid, hrow, hid, _, hfin⟩ :=
      constructTransitionsInt32_row_prob kmersUpToDist 3 1 2 [smallRead] table hperm (by decide)
        h 13 (by decide) (by norm_num) ['A', 'G'] (by decide)
    have hid1 : kmerToLexicographicPos ['A', 'G'] = some 4 := by decide
    rw [hid1] at hid
    have := Option.some.inj hid
    subst this
    have hm := hfin (by decide) (by rw [ht13]; decide) (by rw [ht13]; decide)
    have hc : pairCount [smallRead] 13 4 = 2 := by decide
    rw [ht13, hc] at hm
    norm_num at hm
    have he : (3 / 18 : ℚ) = 1 / 6 := by norm_num
    rw [he]
    exact ⟨row, hrow, hm⟩

/-- C6, counterexample. With k = 1, move threshold 1, pseudo count 0 and the single
read `[(0,A),(1,C)]` (all conditions of the claim hold) the call succeeds; the states C,
T and G (ids 2, 3, 4) have no observed outgoing transition, their total count is 0 and
every probability of their rows is `0 / 0.0`, NaN: the rows do not sum to 1. -/
theorem rowsSumToOneInt32_counterexample :
    (1 ≤ 1) ∧ (0 : Int) < 1 ∧ (0 : Int) ≤ 0 ∧
    MovesWithin 1 [[⟨0, ['A']⟩, ⟨1, ['C']⟩]] ∧
    totalCount 1 1 0 [[⟨0, ['A']⟩, ⟨1, ['C']⟩]] 2 = 0 ∧
    constructTransitionsInt32 kmersUpToDist 1 0 1 [[⟨0, ['A']⟩, ⟨1, ['C']⟩]]
      = Except.ok
        [[⟨1, DoubleQuot.finite (1 / 4)⟩, ⟨2, DoubleQuot.finite (1 / 4)⟩,
          ⟨3, DoubleQuot.finite (1 / 4)⟩, ⟨4, DoubleQuot.finite (1 / 4)⟩],
         [⟨1, DoubleQuot.finite 0⟩, ⟨2, DoubleQuot.finite 1⟩, ⟨3, DoubleQuot.finite 0⟩,
          ⟨4, DoubleQuot.finite 0⟩],
         [⟨1, DoubleQuot.nan⟩, ⟨2, DoubleQuot.nan⟩, ⟨3, DoubleQuot.nan⟩, ⟨4, DoubleQuot.nan⟩],
         [⟨1, DoubleQuot.nan⟩, ⟨2, DoubleQuot.nan⟩, ⟨3, DoubleQuot.nan⟩, ⟨4, DoubleQuot.nan⟩],
         [⟨1, DoubleQuot.nan⟩, ⟨2, DoubleQuot.nan⟩, ⟨3, DoubleQuot.nan⟩, ⟨4, DoubleQuot.nan⟩]] ∧
    ¬ RowsSumToOneInt32 kmersUpToDist 1 0 1 [[⟨0, ['A']⟩, ⟨1, ['C']⟩]] := by
  have htable : constructTransitionsInt32 kmersUpToDist 1 0 1 [[⟨0, ['A']⟩, ⟨1, ['C']⟩]]
      = Except.ok
        [[⟨1, DoubleQuot.finite (1 / 4)⟩, ⟨2, DoubleQuot.finite (1 / 4)⟩,
          ⟨3, DoubleQuot.finite (1 / 4)⟩, ⟨4, DoubleQuot.finite (1 / 4)⟩],
         [⟨1, DoubleQuot.finite 0⟩, ⟨2, DoubleQuot.finite 1⟩, ⟨3, DoubleQuot.finite 0⟩,
          ⟨4, DoubleQuot.finite 0⟩],
         [⟨1, DoubleQuot.nan⟩, ⟨2, DoubleQuot.nan⟩, ⟨3, DoubleQuot.nan⟩, ⟨4, DoubleQuot.nan⟩],
         [⟨1, DoubleQuot.nan⟩, ⟨2, DoubleQuot.nan⟩, ⟨3, DoubleQuot.nan⟩, ⟨4, DoubleQuot.nan⟩],
         [⟨1, DoubleQuot.nan⟩, ⟨2, DoubleQuot.nan⟩, ⟨3, DoubleQuot.nan⟩, ⟨4, DoubleQuot.nan⟩]] :=
    except_eq_ok_of_toOption (by decide!)
  refine ⟨le_refl 1, by decide, by decide, by unfold MovesWithin; decide, by decide, htable, ?_⟩
  intro hclaim
  obtain ⟨row, qs, hrow, hmap, _⟩ := hclaim _ htable 2 (by decide) (by norm_num)
  have hr : row = [⟨1, DoubleQuot.nan⟩, ⟨2, DoubleQuot.nan⟩, ⟨3, DoubleQuot.nan⟩,
      ⟨4, DoubleQuot.nan⟩] := by
    have : (2 : Int).toNat = 2 := rfl
    rw [this] at hrow
    simp only [List.getElem?_cons_succ, List.getElem?_cons_zero, Option.some.injEq] at hrow
    exact hrow.symm
  subst hr
  cases qs with
  | nil => simp at hmap
  | cons q qs => simp at hmap

/-- C6, amended. For `1 ≤ k ≤ 15`, a positive move threshold, a non-negative pseudo count
and reads whose moves are within the threshold, in the table that `constructTransitions`
returns the probabilities of the transitions leaving an emitting state `s` in
`[1, 4^k]` are quotients that sum to exactly 1 (in exact rational arithmetic) whenever
the total count `Σ_{t ∈ N(s)} (pseudo_count + C(s,t))` of `s` is positive and below
`2^31`; the total is positive for every `s` when `pseudo_count ≥ 1`. -/
theorem constructTransitionsInt32_rows_sum_one
    (iterate : List Char → Int → List (List Char))
    (move_threshold pseudo_count : Int) (k : Nat) (reads : List (List MoveKmer))
    (table : List (List TransitionOfDouble))
    (hiter : ∀ kmer dist, (iterate kmer dist).Perm (kmersUpToDist kmer dist))
    (hk : 1 ≤ k) (hk15 : k ≤ 15) (hmt : 0 < move_threshold) (hpc : 0 ≤ pseudo_count)
    (hmoves : MovesWithin move_threshold reads)
    (h : constructTransitionsInt32 iterate move_threshold pseudo_count k reads
      = Except.ok table)
    (s : Int) (h1 : 1 ≤ s) (h2 : s ≤ (4 : Int) ^ k) :
    ∃ row, table[s.toNat]? = some row ∧
      (0 < totalCount k move_threshold pseudo_count reads s →
        totalCount k move_threshold pseudo_count reads s < 2 ^ 31 →
        ∃ qs : List ℚ, row.map (fun tr => tr.prob_) = qs.map DoubleQuot.finite ∧
          qs.sum = 1) ∧
      (1 ≤ pseudo_count → 0 < totalCount k move_threshold pseudo_count reads s) := by
  have _ := hk
  have _ := hmt
  have _ := hmoves
  obtain ⟨kmer, _, _, _, hreach, hrow⟩ :=
    tableInt32_row iterate move_threshold pseudo_count k reads table hiter hk15 h s h1 h2
  refine ⟨_, hrow, ?_, ?_⟩
  · intro hpos hlt
    obtain ⟨kmer1, _, _, hreach1, hrow1⟩ :=
      tableInt32_row_finite iterate move_threshold pseudo_count k reads table hiter hk15 h s
        h1 h2 hpc hpos hlt
    rw [hrow] at hrow1
    rw [Option.some.inj hrow1]
    refine ⟨(iterate kmer1 move_threshold).map (fun t =>
      ((smoothedCount pseudo_count reads s t : Int) : ℚ) /
        ((totalCount k move_threshold pseudo_count reads s : Int) : ℚ)), ?_, ?_⟩
    · rw [List.map_map, List.map_map]
      rfl
    · rw [sum_map_div]
      have hsum : ((iterate kmer1 move_threshold).map (smoothedCount pseudo_count reads s)).sum
          = totalCount k move_threshold pseudo_count reads s := by
        unfold totalCount
        rw [hreach1]
        exact ((hiter kmer1 move_threshold).map _).sum_eq
      rw [hsum]
      exact div_self (by exact_mod_cast ne_of_gt hpos)
  · intro hp
    exact totalCount_pos k move_threshold pseudo_count reads s h1 h2 hp

/-- Witness of the amended C6 on the test input k = 2, threshold 3, pseudo count 1:
the probabilities of row 4 (the state AG, total count 19) sum to 1. -/
theorem constructTransitionsInt32_rows_sum_one_witness :
    MovesWithin 3 [smallRead] ∧
    ∃ table, constructTransitionsInt32 kmersUpToDist 3 1 2 [smallRead] = Except.ok table ∧
      ∃ row, table[4]? = some row ∧
        ∃ qs : List ℚ, row.map (fun tr => tr.prob_) = qs.map DoubleQuot.finite ∧
          qs.sum = 1 := by
  have hmoves : MovesWithin 3 [smallRead] := by unfold MovesWithin; decide
  obtain ⟨table, h⟩ :
      ∃ table, constructTransitionsInt32 kmersUpToDist 3 1 2 [smallRead] = Except.ok table :=
    except_exists_ok_of_isSome (by decide!)
  have ht4 : totalCount 2 3 1 [smallRead] 4 = 19 := by decide
  obtain ⟨row, hrow, hsum, hpos⟩ :=
    constructTransitionsInt32_rows_sum_one kmersUpToDist 3 1 2 [smallRead] table
      (fun _ _ => List.Perm.refl _) (by decide) (by decide) (by decide) (by decide) hmoves h 4
      (by decide) (by norm_num)
  exact ⟨hmoves, table, h, row, hrow, hsum (hpos (by decide)) (by rw [ht4]; decide)⟩

theorem reachableKmers_ne_nil (k : Nat) (mt : Int) (s : Int) (h1 : 1 ≤ s)
    (h2 : s ≤ (4 : Int) ^ k) : reachableKmers k mt s ≠ [] := by
  obtain ⟨kmer, _, hin, _⟩ := kmerInLexicographicPos_of_range k s h1 h2
  have hreach : reachableKmers k mt s = kmersUpToDist kmer mt := by
    simp [reachableKmers, hin]
  rw [hreach]
  exact List.ne_nil_of_mem (self_mem_kmersUpToDist kmer mt)

theorem map_to_state_row (l : List (List Char)) (f : List Char → DoubleQuot) :
    (l.map (fun t => ({ to_state_ := stateIdOf t, prob_ := f t } : TransitionOfDouble))).map
        (fun tr => tr.to_state_)
      = l.map stateIdOf := by
  rw [List.map_map]
  rfl

/-- C7, counterexample. With k = 16 (move threshold 1, pseudo count 1, no reads) the
call succeeds and returns a table that consists of one empty row: `numKmersOf(16) + 1`
is `2^32 + 1`, which the 32-bit `int states` holds as 1. The emitting state 1, which is
in `[1, 4^16]` and whose `N(s)` is not empty, has no row. -/
theorem rowDestinationsInt32_counterexample :
    constructTransitionsInt32 kmersUpToDist 1 1 16 [] = Except.ok [[]] ∧
    (1 : Int) ≤ (4 : Int) ^ 16 ∧
    reachableKmers 16 1 1 ≠ [] ∧
    ([[]] : List (List TransitionOfDouble))[(1 : Int).toNat]? = none :=
  ⟨except_eq_ok_of_toOption (by decide!), by norm_num,
   reachableKmers_ne_nil 16 1 1 (le_refl 1) (by norm_num), rfl⟩

/-- C7, amended. On every input with `k ≤ 15` on which `constructTransitions` succeeds
and for every emitting state `s` in `[1, 4^k]`, the row `transitions[s]` has exactly
`|N(s)|` entries, where `N(s)` is duplicate-free; every member of `N(s)` is the
destination of exactly one entry, and every destination is the state id of a member of
`N(s)`. -/
theorem constructTransitionsInt32_row_destinations
    (iterate : List Char → Int → List (List Char))
    (move_threshold pseudo_count : Int) (k : Nat) (reads : List (List MoveKmer))
    (table : List (List TransitionOfDouble))
    (hiter : ∀ kmer dist, (iterate kmer dist).Perm (kmersUpToDist kmer dist))
    (hk15 : k ≤ 15)
    (h : constructTransitionsInt32 iterate move_threshold pseudo_count k reads
      = Except.ok table)
    (s : Int) (h1 : 1 ≤ s) (h2 : s ≤ (4 : Int) ^ k) :
    ∃ row, table[s.toNat]? = some row ∧
      (reachableKmers k move_threshold s).Nodup ∧
      row.length = (reachableKmers k move_threshold s).length ∧
      (∀ t ∈ reachableKmers k move_threshold s, ∃ tid, kmerToLexicographicPos t = some tid ∧
        (row.map (fun tr => tr.to_state_)).count tid = 1) ∧
      (∀ d ∈ row.map (fun tr => tr.to_state_),
        ∃ t ∈ reachableKmers k move_threshold s, kmerToLexicographicPos t = some d) := by
  obtain ⟨kmer, hk, _, _, hreach, hrow⟩ :=
    tableInt32_row iterate move_threshold pseudo_count k reads table hiter hk15 h s h1 h2
  have hperm := hiter kmer move_threshold
  have hdest := map_to_state_row (iterate kmer move_threshold) (fun t =>
    divDouble (wrapInt 32 (smoothedCount pseudo_count reads s t))
      (wrapInt 32 (totalCount k move_threshold pseudo_count reads s)))
  have hnd : ((iterate kmer move_threshold).map stateIdOf).Nodup := by
    apply List.Nodup.map_on
    · intro v hv w hw hvw
      exact stateIdOf_injOn (isKmer_of_mem_kmersUpToDist hk (hperm.mem_iff.1 hv))
        (isKmer_of_mem_kmersUpToDist hk (hperm.mem_iff.1 hw)) hvw
    · exact hperm.nodup_iff.2 (nodup_kmersUpToDist kmer move_threshold)
  refine ⟨_, hrow, ?_, ?_, ?_, ?_⟩
  · rw [hreach]; exact nodup_kmersUpToDist kmer move_threshold
  · rw [hreach, List.length_map]; exact hperm.length_eq
  · intro t ht
    rw [hreach] at ht
    have htk := isKmer_of_mem_kmersUpToDist hk ht
    refine ⟨_, kmerToLexicographicPos_eq t htk.2, ?_⟩
    rw [hdest]
    apply List.count_eq_one_of_mem hnd
    rw [← stateIdOf_eq htk.2]
    exact List.mem_map.2 ⟨t, hperm.mem_iff.2 ht, rfl⟩
  · intro d hd
    rw [hdest] at hd
    obtain ⟨t, ht, rfl⟩ := List.mem_map.1 hd
    have ht1 := hperm.mem_iff.1 ht
    have htk := isKmer_of_mem_kmersUpToDist hk ht1
    refine ⟨t, by rw [hreach]; exact ht1, ?_⟩
    rw [kmerToLexicographicPos_eq t htk.2, stateIdOf_eq htk.2]

/-- Witness of the amended C7 for k = 3, move threshold 1 and the state AAG (id 4), which
has the five destinations AAG, AGA, AGC, AGT, AGG (ids 4, 13, 14, 15, 16). -/
theorem constructTransitionsInt32_row_destinations_witness :
    ∃ table, constructTransitionsInt32 kmersUpToDist 1 1 3 [] = Except.ok table ∧
      ∃ row, table[4]? = some row ∧ row.length = 5 ∧
        (row.map (fun tr => tr.to_state_)).count 13 = 1 := by
  obtain ⟨table, h⟩ :
      ∃ table, constructTransitionsInt32 kmersUpToDist 1 1 3 [] = Except.ok table :=
    except_exists_ok_of_isSome (by decide!)
  obtain ⟨row, hrow, _, hlen, hcount, _⟩ :=
    constructTransitionsInt32_row_destinations kmersUpToDist 1 1 3 [] table
      (fun _ _ => List.Perm.refl _) (by decide) h 4 (by decide) (by norm_num)
  obtain ⟨tid, hpos, hc⟩ := hcount ['A', 'G', 'A'] (by decide)
  have hid : kmerToLexicographicPos ['A', 'G', 'A'] = some 13 := by decide
  rw [hid] at hpos
  have htid := Option.some.inj hpos
  subst htid
  have hl : (reachableKmers 3 1 4).length = 5 := by decide
  exact ⟨table, h, row, hrow, by rw [hlen, hl], hc⟩

/-- C8, counterexample. With k = 16 (move threshold 3, pseudo count 1, no reads) the
call succeeds and returns one row instead of `4^16 + 1`, and row 0 is empty instead of
listing the `4^16` emitting states: the 32-bit `int states` holds `2^32 + 1` as 1. -/
theorem initialRowInt32_counterexample :
    (1 ≤ 16) ∧
    constructTransitionsInt32 kmersUpToDist 3 1 16 [] = Except.ok [[]] ∧
    ([[]] : List (List TransitionOfDouble)).length ≠ 4 ^ 16 + 1 ∧
    ([[]] : List (List TransitionOfDouble))[0]? = some [] ∧
    ([] : List TransitionOfDouble).length ≠ 4 ^ 16 :=
  ⟨by decide, except_eq_ok_of_toOption (by decide!), by norm_num, rfl, by norm_num⟩

/-- C8, amended. On every input with `k ≤ 15` on which `constructTransitions` succeeds
the table has exactly `4^k + 1` rows, and row 0 has exactly `4^k` transitions with the
destinations 1, 2, ..., 4^k in ascending order, each with probability `1/4^k`, whatever
the reads, the move threshold, the pseudo count and the iteration order of the sets;
for `k ≥ 16` the table is one empty row. -/
theorem constructTransitionsInt32_initial_row
    (iterate : List Char → Int → List (List Char))
    (move_threshold pseudo_count : Int) (k : Nat) (reads : List (List MoveKmer))
    (table : List (List TransitionOfDouble))
    (h : constructTransitionsInt32 iterate move_threshold pseudo_count k reads
      = Except.ok table) :
    (k ≤ 15 →
      table.length = 4 ^ k + 1 ∧
      ∃ row0, table[0]? = some row0 ∧ row0.length = 4 ^ k ∧
        row0 = (List.range' 1 (4 ^ k)).map
          (fun (n : Nat) => ({ to_state_ := (n : Int),
                               prob_ := DoubleQuot.finite (1 / ((4 : ℚ) ^ k)) }
                              : TransitionOfDouble))) ∧
    (16 ≤ k → table = [[]]) := by
  constructor
  · intro hk15
    obtain ⟨cnt, rows, _, hb, rfl⟩ :=
      tableInt32_small iterate move_threshold pseudo_count k reads table hk15 h
    have hlen := (buildRowsInt32_ok iterate move_threshold pseudo_count k _ _ rows hb).length_eq
    simp only [List.length_map, List.length_range'] at hlen
    refine ⟨by simp [← hlen], initialRowOfDouble k, by simp, by simp [initialRowOfDouble], rfl⟩
  · intro hk16
    exact tableInt32_large iterate move_threshold pseudo_count k reads table hk16 h

/-- Witness of the amended C8 on the test input k = 2, threshold 3, pseudo count 1: 17
rows, and row 0 lists the 16 destinations 1..16 with probability 1/16; for k = 16 the
table is one empty row. -/
theorem constructTransitionsInt32_initial_row_witness :
    (∃ table16, constructTransitionsInt32 kmersUpToDist 3 1 16 [] = Except.ok table16 ∧
      table16 = [[]]) ∧
    ∃ table, constructTransitionsInt32 kmersUpToDist 3 1 2 [smallRead] = Except.ok table ∧
      table.length = 17 ∧
      ∃ row0, table[0]? = some row0 ∧ row0.length = 16 ∧
        row0.map (fun tr => tr.to_state_) = [1, 2, 3, 4, 5, 6, 7, 8, 9, 10, 11, 12, 13, 14, 15, 16] ∧
        row0.map (fun tr => tr.prob_) = List.replicate 16 (DoubleQuot.finite (1 / 4 ^ 2)) := by
  obtain ⟨table16, h16⟩ :
      ∃ table, constructTransitionsInt32 kmersUpToDist 3 1 16 [] = Except.ok table :=
    except_exists_ok_of_isSome (by decide!)
  have h16e := (constructTransitionsInt32_initial_row kmersUpToDist 3 1 16 [] table16 h16).2
    (by decide)
  obtain ⟨table, h⟩ :
      ∃ table, constructTransitionsInt32 kmersUpToDist 3 1 2 [smallRead] = Except.ok table :=
    except_exists_ok_of_isSome (by decide!)
  obtain ⟨hlen, row0, hrow, hl, heq⟩ :=
    (constructTransitionsInt32_initial_row kmersUpToDist 3 1 2 [smallRead] table h).1 (by decide)
  refine ⟨⟨table16, h16, h16e⟩, table, h, hlen, row0, hrow, hl, ?_, ?_⟩
  · rw [heq, List.map_map]; rfl
  · rw [heq, List.map_map]; rfl

/-- C13, counterexample. With k = 16 and move threshold 16 (pseudo count 1, no reads)
the condition `move_threshold ≥ k` holds and the call succeeds, but the table is one
empty row: no emitting state in `[1, 4^16]` has a row, let alone `4^16` transitions. -/
theorem fullRowsInt32_counterexample :
    ((16 : Nat) : Int) ≤ 16 ∧
    constructTransitionsInt32 kmersUpToDist 16 1 16 [] = Except.ok [[]] ∧
    (1 : Int) ≤ (4 : Int) ^ 16 ∧
    ([[]] : List (List TransitionOfDouble))[(1 : Int).toNat]? = none :=
  ⟨by decide, except_eq_ok_of_toOption (by decide!), by norm_num, rfl⟩

/-- C13, amended. Whenever `k ≤ 15`, `move_threshold ≥ k` and `constructTransitions`
succeeds, every emitting state `s` in `[1, 4^k]` has exactly `4^k` outgoing
transitions, exactly one to each emitting state, whatever the iteration order of the
unordered set. -/
theorem constructTransitionsInt32_full_rows (iterate : List Char → Int → List (List Char))
    (move_threshold pseudo_count : Int) (k : Nat) (reads : List (List MoveKmer))
    (table : List (List TransitionOfDouble))
    (hiter : ∀ kmer dist, (iterate kmer dist).Perm (kmersUpToDist kmer dist))
    (hk15 : k ≤ 15) (hmt : (k : Int) ≤ move_threshold)
    (h : constructTransitionsInt32 iterate move_threshold pseudo_count k reads
      = Except.ok table)
    (s : Int) (h1 : 1 ≤ s) (h2 : s ≤ (4 : Int) ^ k) :
    ∃ row, table[s.toNat]? = some row ∧ row.length = 4 ^ k ∧
      (∀ d : Int, 1 ≤ d → d ≤ (4 : Int) ^ k →
        (row.map (fun tr => tr.to_state_)).count d = 1) ∧
      (∀ d ∈ row.map (fun tr => tr.to_state_), 1 ≤ d ∧ d ≤ (4 : Int) ^ k) := by
  obtain ⟨kmer, hk, _, _, _, hrow⟩ :=
    tableInt32_row iterate move_threshold pseudo_count k reads table hiter hk15 h s h1 h2
  have hperm : ((iterate kmer move_threshold).map stateIdOf).Perm
      ((List.range' 1 (4 ^ k)).map (fun (n : Nat) => (n : Int))) := by
    rw [← map_stateIdOf_allKmers k]
    exact ((hiter kmer move_threshold).trans (kmersUpToDist_perm_allKmers hk hmt)).map _
  have hdest := map_to_state_row (iterate kmer move_threshold) (fun t =>
    divDouble (wrapInt 32 (smoothedCount pseudo_count reads s t))
      (wrapInt 32 (totalCount k move_threshold pseudo_count reads s)))
  refine ⟨_, hrow, ?_, ?_, ?_⟩
  · have := hperm.length_eq
    simpa using this
  · intro d hd1 hd2
    rw [hdest, hperm.count_eq]
    exact count_range'_cast (4 ^ k) d hd1 (by push_cast; exact hd2)
  · intro d hd
    rw [hdest] at hd
    obtain ⟨n, hn, rfl⟩ := List.mem_map.1 (hperm.mem_iff.1 hd)
    have := List.mem_range'_1.1 hn
    constructor
    · omega
    · have h4 : ((n : Int)) ≤ ((4 ^ k : Nat) : Int) := by omega
      simpa using h4

/-- Witness of the amended C13 on the test input k = 2, move threshold 3, pseudo count
1: row 4 (the state AG) has 16 transitions and exactly one of them leads to state 16. -/
theorem constructTransitionsInt32_full_rows_witness :
    ((2 : Nat) : Int) ≤ 3 ∧
    ∃ table, constructTransitionsInt32 kmersUpToDist 3 1 2 [smallRead] = Except.ok table ∧
      ∃ row, table[4]? = some row ∧ row.length = 16 ∧
        (row.map (fun tr => tr.to_state_)).count 16 = 1 := by
  obtain ⟨table, h⟩ :
      ∃ table, constructTransitionsInt32 kmersUpToDist 3 1 2 [smallRead] = Except.ok table :=
    except_exists_ok_of_isSome (by decide!)
  obtain ⟨row, hrow, hlen, hcount, _⟩ :=
    constructTransitionsInt32_full_rows kmersUpToDist 3 1 2 [smallRead] table
      (fun _ _ => List.Perm.refl _) (by decide) (by decide) h 4 (by decide) (by norm_num)
  exact ⟨by decide, table, h, row, hrow, hlen, hcount 16 (by decide) (by norm_num)⟩

end Kmers
